import Mathlib

/-!
Verification of MxOS's memory subsystem (Rust) against its natural-language
specification, via a shallow embedding of the relevant source functions in
Lean 4.

Conventions used throughout:
* `usize` values are embedded as `Nat`; where the source's wrapping
  arithmetic can matter, wrapping is made explicit modulo `2 ^ 64`.
* Raw pointers are embedded as `Nat` addresses.
* Intrusive linked lists (slab free lists, buddy free lists) are embedded as
  Lean lists of the record contents that the source writes into memory,
  head first, in link order.
* Fallible paths (`expect`, asserts) are embedded with `Option`/`Except`.
-/

set_option maxHeartbeats 1000000

namespace MxOS

/-- Word size of the target: `usize` is 64 bits wide. -/
def U64 : Nat := 2 ^ 64

/-- Wrapping subtraction on `usize` (release-mode Rust `a - b`). -/
def wsub (a b : Nat) : Nat := (a + (U64 - b % U64)) % U64

/-- Wrapping addition on `usize` (release-mode Rust `a + b`). -/
def wadd (a b : Nat) : Nat := (a + b) % U64

theorem wsub_eq_sub {a b : Nat} (hb : b ≤ a) (ha : a < U64) : wsub a b = a - b := by
  unfold wsub
  have hbU : b < U64 := lt_of_le_of_lt hb ha
  rw [Nat.mod_eq_of_lt hbU]
  have : a + (U64 - b) = U64 + (a - b) := by omega
  rw [this, Nat.add_mod_left, Nat.mod_eq_of_lt (by omega)]

theorem wadd_eq_add {a b : Nat} (h : a + b < U64) : wadd a b = a + b := by
  unfold wadd; exact Nat.mod_eq_of_lt h

/-!
## Slab allocator

The repository contains two copies of `SlabAllocator`:
* `src/mem/slab.rs` (the one that also defines `SlabBox`, used by the B-tree);
  embedded below in namespace `SlabRs`;
* `src/mem/mod.rs` (used by the buddy allocator for its free-list records);
  embedded in namespace `MemMod`.

The two differ in exactly one line of `malloc`: when carving one slab off the
front of a free run, `mod.rs` rewrites the header with `size - SLAB_SIZE`
while `slab.rs` rewrites it with the unchanged `size`.

State model: `freeList` is the intrusive free list, as the list of
`(address, written size field)` pairs of the `SlabFreeList` headers in link
order; `freeSize` is the `free_size` field.  In the Rust code `free_list` is
a `NonNull` that always points at a head node; `malloc`'s `next?` aborts
with `None` (leaving the state unchanged) when the head would have to be
unlinked but has no successor, which the embedding renders as the empty-tail
cases below.
-/

/-- State of a slab allocator: the `free_size` field plus the intrusive free
list, rendered as the list of `(node address, size field)` pairs in link
order. -/
structure SlabState where
  freeSize : Nat
  freeList : List (Nat × Nat)
deriving Repr, DecidableEq

namespace SlabRs

/-- Embeds `SlabAllocator::new` from `src/mem/slab.rs`: one free run covering
`len - len % slabSize` bytes at the start of the chunk. -/
def new (slabSize addr len : Nat) : SlabState :=
  { freeSize := len - len % slabSize
    freeList := [(addr, len - len % slabSize)] }

/-- Embeds `SlabAllocator::add_chunk` from `src/mem/slab.rs`: prepends a new
run at the chunk start. -/
def add_chunk (slabSize : Nat) (st : SlabState) (addr len : Nat) : SlabState :=
  { freeSize := wadd st.freeSize (len - len % slabSize)
    freeList := (addr, len - len % slabSize) :: st.freeList }

/-- Embeds `SlabAllocator::needs_new_chunk` from `src/mem/slab.rs`. -/
def needs_new_chunk (slabSize : Nat) (st : SlabState) : Bool :=
  st.freeSize < 64 * slabSize

/-- Recursion core of `SlabAllocator::malloc` from `src/mem/slab.rs`
(lines 77-103), structurally recursive on the free list so that it reduces
definitionally.  Returns the allocated address (or `none`) with the new
state.  Note the first branch keeps the old `size` in the rewritten header
(the `mod.rs` copy writes `size - SLAB_SIZE` there instead). -/
def mallocAux (slabSize : Nat) : Nat → List (Nat × Nat) → Option Nat × SlabState
  | freeSize, [] => (none, ⟨freeSize, []⟩)
  | freeSize, (a, s) :: rest =>
    if slabSize < s then
      (some a,
       { freeSize := wsub freeSize slabSize
         freeList := (wadd a slabSize, s) :: rest })
    else if slabSize = s then
      if rest.isEmpty then (none, ⟨freeSize, (a, s) :: rest⟩)
      else (some a, { freeSize := wsub freeSize slabSize, freeList := rest })
    else
      if rest.isEmpty then (none, ⟨freeSize, (a, s) :: rest⟩)
      else mallocAux slabSize (wsub freeSize s) rest

/-- Embeds `SlabAllocator::malloc` from `src/mem/slab.rs` (lines 77-103). -/
def malloc (slabSize : Nat) (st : SlabState) : Option Nat × SlabState :=
  mallocAux slabSize st.freeSize st.freeList

/-- Embeds `SlabAllocator::free` from `src/mem/slab.rs`: prepends a
one-slab run at `ptr`. -/
def free (slabSize : Nat) (st : SlabState) (ptr : Nat) : SlabState :=
  { freeSize := wadd st.freeSize slabSize
    freeList := (ptr, slabSize) :: st.freeList }

end SlabRs

namespace MemMod

/-- Embeds `SlabAllocator::new` from `src/mem/mod.rs` (identical to the
`slab.rs` copy). -/
def slabNew (slabSize addr len : Nat) : SlabState :=
  { freeSize := len - len % slabSize
    freeList := [(addr, len - len % slabSize)] }

/-- Recursion core of `SlabAllocator::malloc` from `src/mem/mod.rs`
(lines 156-185).  Identical to the `slab.rs` copy except that the carve
branch rewrites the header size as `size - SLAB_SIZE`. -/
def slabMallocAux (slabSize : Nat) : Nat → List (Nat × Nat) → Option Nat × SlabState
  | freeSize, [] => (none, ⟨freeSize, []⟩)
  | freeSize, (a, s) :: rest =>
    if slabSize < s then
      (some a,
       { freeSize := wsub freeSize slabSize
         freeList := (wadd a slabSize, wsub s slabSize) :: rest })
    else if slabSize = s then
      if rest.isEmpty then (none, ⟨freeSize, (a, s) :: rest⟩)
      else (some a, { freeSize := wsub freeSize slabSize, freeList := rest })
    else
      if rest.isEmpty then (none, ⟨freeSize, (a, s) :: rest⟩)
      else slabMallocAux slabSize (wsub freeSize s) rest

/-- Embeds `SlabAllocator::malloc` from `src/mem/mod.rs` (lines 156-185). -/
def slabMalloc (slabSize : Nat) (st : SlabState) : Option Nat × SlabState :=
  slabMallocAux slabSize st.freeSize st.freeList

/-- Embeds `SlabAllocator::free` from `src/mem/mod.rs`. -/
def slabFree (slabSize : Nat) (st : SlabState) (ptr : Nat) : SlabState :=
  { freeSize := wadd st.freeSize slabSize
    freeList := (ptr, slabSize) :: st.freeList }

end MemMod

/-!
### Claim C5: slab free-list invariant and conservation

The claimed invariant requires every free-list node's `size` field to be a
positive multiple of `SLAB_SIZE` spanning contiguous free bytes that lie
inside the memory supplied to the allocator and are disjoint from every
allocated slab and every other free run.  The predicate below captures the
containment part for a single supplied chunk `[chunkAddr, chunkAddr + chunkLen)`
with the set of allocated slabs given by `allocated` (start addresses).
-/

/-- A free run `(a, s)` spans the bytes `[a, a + s)`.  `SpansFreeBytes`
states the claim's condition that each free-list node's span consists of
bytes of the supplied chunk that are not part of any allocated slab. -/
def SpansFreeBytes (slabSize chunkAddr chunkLen : Nat) (allocated : List Nat)
    (st : SlabState) : Prop :=
  ∀ p ∈ st.freeList,
    chunkAddr ≤ p.1 ∧ p.1 + p.2 ≤ chunkAddr + chunkLen ∧
    ∀ q ∈ allocated, q + slabSize ≤ p.1 ∨ p.1 + p.2 ≤ q

instance (slabSize chunkAddr chunkLen : Nat) (allocated : List Nat)
    (st : SlabState) :
    Decidable (SpansFreeBytes slabSize chunkAddr chunkLen allocated st) := by
  unfold SpansFreeBytes; infer_instance

/-- C5: with `SLAB_SIZE = 16`, create a slab allocator over a 48-byte chunk at
address 0 and allocate one slab.  The `slab.rs` `malloc` returns slab 0 and
leaves the head free-list node at address 16 with its `size` field still 48,
so the node claims to span `[16, 64)`, which extends 16 bytes past the
supplied chunk `[0, 48)`: the claimed free-list invariant is violated.  The
`mod.rs` copy of the same function rewrites the header with `size - 16` and
keeps the invariant at the same input. -/
theorem C5_slab_size_field_bug :
    (SlabRs.malloc 16 (SlabRs.new 16 0 48)).1 = some 0 ∧
    (SlabRs.malloc 16 (SlabRs.new 16 0 48)).2.freeList = [(16, 48)] ∧
    ¬ SpansFreeBytes 16 0 48 [0] (SlabRs.malloc 16 (SlabRs.new 16 0 48)).2 ∧
    (MemMod.slabMalloc 16 (MemMod.slabNew 16 0 48)).1 = some 0 ∧
    (MemMod.slabMalloc 16 (MemMod.slabNew 16 0 48)).2.freeList = [(16, 32)] ∧
    SpansFreeBytes 16 0 48 [0] (MemMod.slabMalloc 16 (MemMod.slabNew 16 0 48)).2 := by
  decide

/-!
## Binary buddy allocator (`src/mem/mod.rs`)

State model: per order, the bitmap is the list of `u64` words and the
intrusive free list is the list of `(node address, ptr field)` pairs in link
order (the `ptr` field is relative to `offset`, exactly as stored by the
source).  The free-list nodes are allocated from and returned to the
`mod.rs` slab allocator embedded above (`SLAB_SIZE = 16`).
-/

namespace MemMod

/-- Reads the bitmap bit for chunk index `cp`, mirroring the source
expression `bitmap[cp >> 6] & 1 << (cp & 63) != 0`. -/
def bitIsSet (bitmap : List Nat) (cp : Nat) : Bool :=
  (bitmap.getD (cp >>> 6) 0) &&& (1 <<< (cp &&& 63)) != 0

/-- Toggles the bitmap bit for chunk index `cp`, mirroring the source
statement `bitmap[cp >> 6] ^= 1 << (cp & 63)`. -/
def bitFlip (bitmap : List Nat) (cp : Nat) : List Nat :=
  bitmap.set (cp >>> 6) ((bitmap.getD (cp >>> 6) 0) ^^^ (1 <<< (cp &&& 63)))

/-- Per-order buddy metadata (`struct Buddies` from `src/mem/mod.rs`). -/
structure Buddies where
  bitmap : List Nat
  freeList : List (Nat × Nat)
  numBuddies : Nat
deriving Repr, DecidableEq

/-- The buddy allocator (`struct BuddyAllocator<N>` from `src/mem/mod.rs`);
`buddies.length` plays the role of `N`. -/
structure BuddyAllocator where
  buddies : List Buddies
  freeListAlloc : SlabState
  baseSize : Nat
  offset : Nat
deriving Repr, DecidableEq

/-- The hint-popping `while let` loop at the head of
`BuddyAllocator::malloc` (lines 234-247): pop hints, return each node to the
slab allocator, discard stale hints (bit already set), and claim the first
valid one by toggling its bit.  Returns the relative pointer found (if any),
the updated bitmap, slab state, and remaining free list. -/
def mallocHints (baseSize order : Nat) :
    List Nat → SlabState → List (Nat × Nat) →
      Option Nat × List Nat × SlabState × List (Nat × Nat)
  | bitmap, slab, [] => (none, bitmap, slab, [])
  | bitmap, slab, (na, ptr) :: next =>
    let slab' := slabFree 16 slab na
    let cp := ptr / (baseSize <<< order)
    if bitIsSet bitmap cp then mallocHints baseSize order bitmap slab' next
    else (some ptr, bitFlip bitmap cp, slab', next)

/-- Recursion core of `BuddyAllocator::malloc` (lines 230-260).  `fuel` is
`buddies.length - order`, which bounds the `malloc(order + 1)` recursion
exactly; the `fuel = 0` case is unreachable for `order < buddies.length`. -/
def mallocGo (st : BuddyAllocator) : Nat → Nat → Option Nat × BuddyAllocator
  | 0, _ => (none, st)
  | fuel + 1, order =>
    let b := st.buddies.getD order ⟨[], [], 0⟩
    match mallocHints st.baseSize order b.bitmap st.freeListAlloc b.freeList with
    | (some ptr, bitmap', slab', rest) =>
      (some (st.offset + ptr),
       { st with
           buddies := st.buddies.set order { b with bitmap := bitmap', freeList := rest }
           freeListAlloc := slab' })
    | (none, bitmap', slab', _) =>
      let st' :=
        { st with
            buddies := st.buddies.set order { b with bitmap := bitmap', freeList := [] }
            freeListAlloc := slab' }
      if order = st.buddies.length - 1 then (none, st')
      else
        match mallocGo st' fuel (order + 1) with
        | (none, st'') => (none, st'')
        | (some ptr, st'') =>
          let cp := (ptr - st''.offset) / (st''.baseSize <<< order)
          let b'' := st''.buddies.getD order ⟨[], [], 0⟩
          -- `bitmap[cp >> 6] ^= 1 << (cp + 1 & 63)`: same word as `cp`
          -- (the source relies on `cp` being even), bit index `cp + 1`.
          (some ptr,
           { st'' with
               buddies := st''.buddies.set order
                 { b'' with
                     bitmap := b''.bitmap.set (cp >>> 6)
                       ((b''.bitmap.getD (cp >>> 6) 0) ^^^ (1 <<< ((cp + 1) &&& 63))) } })

/-- Embeds `BuddyAllocator::malloc` from `src/mem/mod.rs` (lines 230-260). -/
def BuddyAllocator.malloc (st : BuddyAllocator) (order : Nat) :
    Option Nat × BuddyAllocator :=
  mallocGo st (st.buddies.length - order) order

/-- Recursion core of `BuddyAllocator::free` (lines 262-285).  `fuel` is
`buddies.length - order`.  The only panic path in the source is the
`expect` on the free-list slab allocation, rendered as `Except.error`;
note that the source never asserts that the freed bit is currently set. -/
def freeGo (st : BuddyAllocator) : Nat → Nat → Nat → Except String BuddyAllocator
  | 0, _, _ => .error "fuel"
  | fuel + 1, ptr, order =>
    let b := st.buddies.getD order ⟨[], [], 0⟩
    let cp := (ptr - st.offset) / (st.baseSize <<< order)
    -- `bitmap[cp >> 6] & 1 << (cp & 63 ^ 1)`: the sibling's bit, same word.
    if order < st.buddies.length - 1 ∧ ¬ bitIsSet b.bitmap (cp ^^^ 1) then
      let st' :=
        { st with
            buddies := st.buddies.set order { b with bitmap := bitFlip b.bitmap (cp ^^^ 1) } }
      freeGo st' fuel ptr (order + 1)
    else
      match slabMalloc 16 st.freeListAlloc with
      | (none, _) => .error "Failed to allocate new buddy free list"
      | (some na, slab') =>
        .ok { st with
                buddies := st.buddies.set order
                  { b with
                      bitmap := bitFlip b.bitmap cp
                      freeList := (na, ptr - st.offset) :: b.freeList }
                freeListAlloc := slab' }

/-- Embeds `BuddyAllocator::free` from `src/mem/mod.rs` (lines 262-285). -/
def BuddyAllocator.free (st : BuddyAllocator) (ptr order : Nat) :
    Except String BuddyAllocator :=
  freeGo st (st.buddies.length - order) ptr order

/-!
### Global buddy construction (`GlobalBuddyAllocator::new`, lines 399-494)
-/

/-- Embeds `const GLOBAL_BUDDY_DEPTH: usize = 8`. -/
def GLOBAL_BUDDY_DEPTH : Nat := 8

/-- Embeds `const TOP_BLOCK_SIZE: usize = 1 << 20 + GLOBAL_BUDDY_DEPTH`
(Rust parses this as `1 << (20 + GLOBAL_BUDDY_DEPTH)`). -/
def TOP_BLOCK_SIZE : Nat := 1 <<< (20 + GLOBAL_BUDDY_DEPTH)

/-- Embeds `let mem_size = mem_size as usize & !(TOP_BLOCK_SIZE - 1)`
(`usize` is 64 bits wide, so `!(TOP_BLOCK_SIZE - 1)` is
`2 ^ 64 - TOP_BLOCK_SIZE`). -/
def alignedMemSize (memSize : Nat) : Nat :=
  memSize &&& (U64 - TOP_BLOCK_SIZE)

/-- Embeds `let num_buddies = mem_size as usize >> 21 + i` from the buddy
metadata loop (Rust parses the shift amount as `21 + i`). -/
def numBuddiesAt (memSize i : Nat) : Nat := memSize >>> (21 + i)

/-- Number of `u64` bitmap words for `n` buddies: `(num_buddies + 63) / 64`. -/
def bitmapWords (n : Nat) : Nat := (n + 63) / 64

/-- Embeds the free-list bootstrap loop
`for i in (0..top_buddies.bitmap.len() * 8).rev()` (lines 461-472):
iteration `i` allocates a node from the slab allocator (panicking when that
fails) and prepends a hint with `ptr = TOP_BLOCK_SIZE * i` to the top
order's free list.  The argument is the number of remaining iterations, so
`bootstrapLoop n` performs iterations `n-1, n-2, …, 0` in that order. -/
def bootstrapLoop : Nat → SlabState → List (Nat × Nat) →
    Except String (List (Nat × Nat) × SlabState)
  | 0, slab, fl => .ok (fl, slab)
  | n + 1, slab, fl =>
    match slabMalloc 16 slab with
    | (none, _) => .error "Failed to allocate a free list"
    | (some na, slab') => bootstrapLoop n slab' ((na, TOP_BLOCK_SIZE * n) :: fl)

/-- The top-order free list built by `GlobalBuddyAllocator::new` for a given
(aligned) `mem_size`: the loop bound is `bitmap.len() * 8` where the
top-order bitmap has `(num_buddies + 63) / 64` words. -/
def bootstrapTop (memSize : Nat) (slab : SlabState) :
    Except String (List (Nat × Nat) × SlabState) :=
  bootstrapLoop (bitmapWords (numBuddiesAt memSize (GLOBAL_BUDDY_DEPTH - 1)) * 8) slab []

/-- Embeds the construction of the bump allocator in
`GlobalBuddyAllocator::new` (lines 415-421): its `taken_areas` array holds
exactly the kernel image range and the boot-info range. -/
def initTakenAreas (kernelStart kernelEnd bootInfoStart bootInfoEnd : Nat) :
    List (Nat × Nat) :=
  [(kernelStart, kernelEnd), (bootInfoStart, bootInfoEnd)]

/-- Embeds the sequence of `mark_as_used` calls in
`GlobalBuddyAllocator::new` (lines 473-483), as the list of
`(start_address, end_address)` argument pairs in call order. -/
def initMarkAsUsedCalls (kernelStart kernelEnd bootInfoStart bootInfoEnd
    buddiesFrame freeListAllocFrame : Nat) : List (Nat × Nat) :=
  [(kernelStart, kernelEnd), (bootInfoStart, bootInfoEnd),
   (buddiesFrame, buddiesFrame + 0x200000),
   (freeListAllocFrame, freeListAllocFrame + 0x200000),
   (0, 0x200000)]

/-- Initial buddy state for the specification's concrete configuration
`D = 2`, `base = 2 MiB`, `offset = 0`, `mem_size = 8 MiB`, set up exactly as
the init pattern prescribes: order 0's bitmap word filled with `!0`, order
1's bitmap zero, and order 1's free list holding one hint per top-order
chunk (`0` and `4 MiB`, allocated from a fresh 2 MiB free-list slab chunk at
`0x10000000`, so the two nodes live at `0x10000000` and `0x10000010`). -/
def scenarioD2 : BuddyAllocator :=
  { buddies :=
      [ ⟨[U64 - 1], [], 4⟩
      , ⟨[0], [(0x10000010, 0), (0x10000000, 0x400000)], 2⟩ ]
    freeListAlloc := ⟨0x1FFFE0, [(0x10000020, 0x1FFFE0)]⟩
    baseSize := 0x200000
    offset := 0 }

theorem bitIsSet_eq_testBit (bitmap : List Nat) (cp : Nat) :
    bitIsSet bitmap cp = (bitmap.getD (cp >>> 6) 0).testBit (cp &&& 63) := by
  unfold bitIsSet
  rw [Nat.one_shiftLeft, Nat.and_two_pow]
  cases h : (bitmap.getD (cp >>> 6) 0).testBit (cp &&& 63) <;>
    simp [h, Nat.ne_of_gt (Nat.two_pow_pos (cp &&& 63))]

theorem bitIsSet_bitFlip_self (bitmap : List Nat) (cp : Nat)
    (h : cp >>> 6 < bitmap.length) :
    bitIsSet (bitFlip bitmap cp) cp = ! bitIsSet bitmap cp := by
  rw [bitIsSet_eq_testBit, bitIsSet_eq_testBit]
  unfold bitFlip
  rw [List.getD_eq_getElem?_getD, List.getElem?_set_self (by omega),
    Option.getD_some, Nat.one_shiftLeft, Nat.testBit_xor,
    Nat.testBit_two_pow_self, List.getD_eq_getElem?_getD]
  cases (bitmap[cp >>> 6]?.getD 0).testBit (cp &&& 63) <;> rfl

end MemMod

/-!
### Claims C1 and C2: buddy `free` / `malloc`
-/

/-- C1 (counterexample): in the `D = 2`, `base = 2 MiB`, `mem_size = 8 MiB`
configuration, the order-1 bit covering pointer `0` is clear (the chunk is
not allocated at that order), yet `free(0, 1)` does not panic: it returns
normally, toggling the bit from clear to set and pushing a hint.  This
refutes the claim that `free` asserts the bit is set before clearing it. -/
theorem C1_counterexample :
    MemMod.bitIsSet ((MxOS.MemMod.scenarioD2.buddies.getD 1 ⟨[], [], 0⟩).bitmap) 0 = false ∧
    (MemMod.BuddyAllocator.free MemMod.scenarioD2 0 1).isOk = true ∧
    (MemMod.BuddyAllocator.free MemMod.scenarioD2 0 1).toOption.map
        (fun st' =>
          (MemMod.bitIsSet ((st'.buddies.getD 1 ⟨[], [], 0⟩).bitmap) 0,
           (st'.buddies.getD 1 ⟨[], [], 0⟩).freeList.length)) =
      some (true, 3) := by
  decide

/-- C1 (amended): `BuddyAllocator::free` contains no double-free assertion.
Whenever the sibling-merge condition fails (top order, or sibling bit set)
and the hint-node slab allocation succeeds, `free(p, o)` returns normally:
it pushes a hint for `p` onto order `o`'s free list and toggles the bit
covering `p` — so a pointer whose bit is already clear is silently marked
set again instead of causing a panic. -/
theorem C1_amended (st : MemMod.BuddyAllocator) (ptr order na : Nat) (slab' : SlabState)
    (ho : order < st.buddies.length)
    (hmerge : ¬ (order < st.buddies.length - 1 ∧
      ¬ MemMod.bitIsSet (st.buddies.getD order ⟨[], [], 0⟩).bitmap
          (((ptr - st.offset) / (st.baseSize <<< order)) ^^^ 1) = true))
    (hslab : MemMod.slabMalloc 16 st.freeListAlloc = (some na, slab')) :
    ∃ st', st.free ptr order = .ok st' ∧
      (st'.buddies.getD order ⟨[], [], 0⟩).freeList =
        (na, ptr - st.offset) :: (st.buddies.getD order ⟨[], [], 0⟩).freeList ∧
      (((ptr - st.offset) / (st.baseSize <<< order)) >>> 6 <
          (st.buddies.getD order ⟨[], [], 0⟩).bitmap.length →
        MemMod.bitIsSet (st'.buddies.getD order ⟨[], [], 0⟩).bitmap
            ((ptr - st.offset) / (st.baseSize <<< order)) =
          ! MemMod.bitIsSet (st.buddies.getD order ⟨[], [], 0⟩).bitmap
            ((ptr - st.offset) / (st.baseSize <<< order))) := by
  obtain ⟨k, hk⟩ : ∃ k, st.buddies.length - order = k + 1 :=
    ⟨st.buddies.length - order - 1, by omega⟩
  unfold MemMod.BuddyAllocator.free
  rw [hk]
  unfold MemMod.freeGo
  rw [if_neg hmerge, hslab]
  refine ⟨_, rfl, ?_, ?_⟩
  · simp [List.getD_eq_getElem?_getD, List.getElem?_set_self ho]
  · intro hbm
    simp only [List.getD_eq_getElem?_getD, List.getElem?_set_self ho, Option.getD_some]
    have := MemMod.bitIsSet_bitFlip_self (st.buddies.getD order ⟨[], [], 0⟩).bitmap
      ((ptr - st.offset) / (st.baseSize <<< order)) hbm
    simpa [List.getD_eq_getElem?_getD] using this

/-- C1 (witness for the amended theorem): instantiated on the concrete
`D = 2` scenario, freeing pointer `0` at the (top) order 1. -/
theorem C1_amended_witness :
    ∃ st', MemMod.BuddyAllocator.free MemMod.scenarioD2 0 1 = .ok st' ∧
      (st'.buddies.getD 1 ⟨[], [], 0⟩).freeList =
        (0x10000020, 0) :: (MemMod.scenarioD2.buddies.getD 1 ⟨[], [], 0⟩).freeList ∧
      ((0 / (0x200000 <<< 1)) >>> 6 <
          (MemMod.scenarioD2.buddies.getD 1 ⟨[], [], 0⟩).bitmap.length →
        MemMod.bitIsSet ((st'.buddies.getD 1 ⟨[], [], 0⟩).bitmap) (0 / (0x200000 <<< 1)) =
          ! MemMod.bitIsSet ((MemMod.scenarioD2.buddies.getD 1 ⟨[], [], 0⟩).bitmap)
              (0 / (0x200000 <<< 1))) := by
  have h := C1_amended MemMod.scenarioD2 0 1 0x10000020 ⟨0x1FFFD0, [(0x10000030, 0x1FFFD0)]⟩
    (by decide) (by decide) (by decide)
  simpa using h

/-- C2: in the `D = 2`, `base = 2 MiB`, `mem_size = 8 MiB` configuration the
first two `malloc(0)` calls return `0` and `4 MiB` (the first halves of the
two top blocks), and the third returns `none` — even though the order-0
bitmap still records the second halves `2 MiB` and `6 MiB` as free — because
the split step of `malloc` clears the second half's bitmap bit without ever
pushing it onto order 0's free list.  This refutes the claimed consequence
that four `malloc(0)` calls succeed before exhaustion. -/
theorem C2_split_loses_second_half :
    (MemMod.BuddyAllocator.malloc MemMod.scenarioD2 0).1 = some 0 ∧
    ((MemMod.scenarioD2.malloc 0).2.malloc 0).1 = some 0x400000 ∧
    MemMod.bitIsSet ((((MemMod.scenarioD2.malloc 0).2.malloc 0).2.buddies.getD 0
        ⟨[], [], 0⟩).bitmap) 1 = false ∧
    MemMod.bitIsSet ((((MemMod.scenarioD2.malloc 0).2.malloc 0).2.buddies.getD 0
        ⟨[], [], 0⟩).bitmap) 3 = false ∧
    ((((MemMod.scenarioD2.malloc 0).2.malloc 0).2.buddies.getD 0
        ⟨[], [], 0⟩).freeList) = [] ∧
    (((MemMod.scenarioD2.malloc 0).2.malloc 0).2.malloc 0).1 = none := by
  decide

/-!
### Claim C6: initialization taken areas and `mark_as_used` calls
-/

/-- C6 (counterexample): with kernel `[0x400000, 0x600000)`, boot info
`[0x700000, 0x710000)`, metadata frames at `0x800000` and `0xA00000`, and a
pre-mapped stack frame at `0x20000000`, the stack frame's range is neither
among the bump allocator's taken areas (which hold only the kernel and the
boot-info ranges) nor among the ranges passed to `mark_as_used`. -/
theorem C6_counterexample :
    ((0x20000000, 0x20200000) ∉ MemMod.initTakenAreas 0x400000 0x600000 0x700000 0x710000) ∧
    (MemMod.initTakenAreas 0x400000 0x600000 0x700000 0x710000).length = 2 ∧
    ((0x20000000, 0x20200000) ∉
      MemMod.initMarkAsUsedCalls 0x400000 0x600000 0x700000 0x710000 0x800000 0xA00000) := by
  decide

/-- C6 (amended): the bump allocator built by `GlobalBuddyAllocator::new`
has exactly two taken areas — the kernel image and the boot-info blob (the
pre-mapped stack frame is not an input of the constructor at all) — and
`mark_as_used` is called for exactly: the kernel range, the boot-info range
(separately, not as a union), `buddies_frame`, `free_list_alloc_frame`, and
the first 2 MiB unconditionally.  The stack frame is never reserved. -/
theorem C6_amended (ks ke bs be bf ff : Nat) :
    MemMod.initTakenAreas ks ke bs be = [(ks, ke), (bs, be)] ∧
    (0, 0x200000) ∈ MemMod.initMarkAsUsedCalls ks ke bs be bf ff ∧
    MemMod.initMarkAsUsedCalls ks ke bs be bf ff =
      [(ks, ke), (bs, be), (bf, bf + 0x200000), (ff, ff + 0x200000), (0, 0x200000)] := by
  refine ⟨rfl, ?_, rfl⟩
  simp [MemMod.initMarkAsUsedCalls]

/-- C6 (witness): the amended fact at the counterexample's concrete
initialization inputs. -/
theorem C6_amended_witness :
    MemMod.initTakenAreas 0x400000 0x600000 0x700000 0x710000 =
      [(0x400000, 0x600000), (0x700000, 0x710000)] ∧
    (0, 0x200000) ∈
      MemMod.initMarkAsUsedCalls 0x400000 0x600000 0x700000 0x710000 0x800000 0xA00000 ∧
    MemMod.initMarkAsUsedCalls 0x400000 0x600000 0x700000 0x710000 0x800000 0xA00000 =
      [(0x400000, 0x600000), (0x700000, 0x710000), (0x800000, 0x800000 + 0x200000),
       (0xA00000, 0xA00000 + 0x200000), (0, 0x200000)] :=
  C6_amended 0x400000 0x600000 0x700000 0x710000 0x800000 0xA00000

/-!
### Claim C7: top-order free-list bootstrap
-/

/-- C7: with `mem_size = 0x40000000` (1 GiB, aligned), the top order
(`D - 1 = 7`, block size `2^28`) has 4 chunks, but the bootstrap loop runs
`bitmap.len() * 8 = 8` iterations, pushing 8 hints whose `ptr` fields
include `0x40000000 … 0x70000000` — addresses at or beyond `mem_size`.
The claimed count `mem_size / top-block-size = 4` is wrong for the code. -/
theorem C7_bootstrap_count_bug :
    (MemMod.bootstrapTop 0x40000000 ⟨0x200000, [(0x10000000, 0x200000)]⟩).toOption.map
        (fun r => (r.1.length, r.1.map Prod.snd)) =
      some (8, [0, 0x10000000, 0x20000000, 0x30000000,
                0x40000000, 0x50000000, 0x60000000, 0x70000000]) ∧
    MemMod.numBuddiesAt 0x40000000 (MemMod.GLOBAL_BUDDY_DEPTH - 1) = 4 ∧
    0x40000000 / MemMod.TOP_BLOCK_SIZE = 4 := by
  decide

/-!
### Claim C8: buddy size parameters
-/

/-- C8 (counterexample): `TOP_BLOCK_SIZE` is `1 << (20 + 8) = 2^28`
(256 MiB), not `base · 2^D = 2^29` (512 MiB), and with
`mem_size = 0x30000000` (768 MiB) the alignment keeps the value unchanged
although it is not a multiple of 512 MiB. -/
theorem C8_counterexample :
    MemMod.TOP_BLOCK_SIZE = 0x10000000 ∧
    ¬ MemMod.TOP_BLOCK_SIZE = 0x20000000 ∧
    MemMod.alignedMemSize 0x30000000 = 0x30000000 ∧
    ¬ (0x20000000 ∣ (0x30000000 : Nat)) := by
  refine ⟨rfl, by decide, by decide, ?_⟩
  intro ⟨c, hc⟩
  omega

/-- Helper for C8: on 64-bit inputs, the source's mask
`mem_size & !(TOP_BLOCK_SIZE - 1)` aligns `mem_size` down to a multiple of
`TOP_BLOCK_SIZE = 2^28`. -/
theorem alignedMemSize_eq_sub_mod (m : Nat) (hm : m < U64) :
    MemMod.alignedMemSize m = m - m % MemMod.TOP_BLOCK_SIZE := by
  have hT : MemMod.TOP_BLOCK_SIZE = 2 ^ 28 := by decide
  have hmask : U64 - MemMod.TOP_BLOCK_SIZE = (2 ^ 36 - 1) <<< 28 := by decide
  have hsub : m - m % 2 ^ 28 = (m >>> 28) <<< 28 := by
    rw [Nat.shiftLeft_eq, Nat.shiftRight_eq_div_pow]
    have := Nat.div_add_mod m (2 ^ 28)
    omega
  rw [hT, hsub]
  unfold MemMod.alignedMemSize
  rw [hmask]
  apply Nat.eq_of_testBit_eq
  intro i
  rw [Nat.testBit_and, Nat.testBit_shiftLeft, Nat.testBit_shiftLeft,
    Nat.testBit_shiftRight, Nat.testBit_two_pow_sub_one]
  rcases lt_or_le i 28 with hi | hi
  · simp [Nat.not_le.mpr hi]
  · have hadd : 28 + (i - 28) = i := by omega
    rw [hadd]
    rcases lt_or_le i 64 with hi64 | hi64
    · have h36 : i - 28 < 36 := by omega
      simp [hi, h36]
    · have hmi : m.testBit i = false :=
        Nat.testBit_lt_two_pow (lt_of_lt_of_le hm (Nat.pow_le_pow_right (by norm_num) hi64))
      simp [hmi]

/-- C8 (amended): the top-block size used by the allocator is
`base · 2^(D-1) = 2^28 = 256 MiB` (the source computes
`1 << (20 + GLOBAL_BUDDY_DEPTH)`), and at initialization `mem_size` is
aligned down to a multiple of that 256 MiB top-block size. -/
theorem C8_amended (m : Nat) (hm : m < U64) :
    MemMod.TOP_BLOCK_SIZE = 0x200000 * 2 ^ (MemMod.GLOBAL_BUDDY_DEPTH - 1) ∧
    MemMod.TOP_BLOCK_SIZE ∣ MemMod.alignedMemSize m ∧
    MemMod.alignedMemSize m ≤ m ∧
    m < MemMod.alignedMemSize m + MemMod.TOP_BLOCK_SIZE := by
  have h := alignedMemSize_eq_sub_mod m hm
  have hT : MemMod.TOP_BLOCK_SIZE = 2 ^ 28 := by decide
  refine ⟨by decide, ?_, ?_, ?_⟩
  · rw [h, hT]
    exact ⟨m / 2 ^ 28, by have := Nat.div_add_mod m (2 ^ 28); omega⟩
  · rw [h]; omega
  · rw [h, hT]
    have := Nat.mod_lt m (y := 2 ^ 28) (by norm_num)
    omega

/-- C8 (witness): the amended fact evaluated at `mem_size = 768 MiB`. -/
theorem C8_amended_witness :
    MemMod.TOP_BLOCK_SIZE = 0x200000 * 2 ^ (MemMod.GLOBAL_BUDDY_DEPTH - 1) ∧
    MemMod.TOP_BLOCK_SIZE ∣ MemMod.alignedMemSize 0x30000000 ∧
    MemMod.alignedMemSize 0x30000000 ≤ 0x30000000 ∧
    0x30000000 < MemMod.alignedMemSize 0x30000000 + MemMod.TOP_BLOCK_SIZE :=
  C8_amended 0x30000000 (by decide)

/-!
## Bump allocator (`src/mem/bump.rs`)

State model: `memoryAreas` is the fixed list of `(start_address,
end_address)` pairs yielded by the memory-map iterator (the source re-reads
`memory_areas().nth(index)` from the same tag, which is indexing into this
fixed list); `takenAreas` are the `start..end` ranges of the `taken_areas`
array.  The recursion of `allocate_frame` is driven by an explicit fuel
argument; the fuel chosen by `allocate_frame` is proved sufficient below
whenever all addresses are bounded by `2^62` (the additions in the source
then cannot wrap).
-/

/-- Masking a 64-bit value with `U64 - 2^k` (the `usize` complement
`!(2^k - 1)`) aligns it down to a multiple of `2^k`. -/
theorem land_mask_eq (m k : Nat) (hm : m < U64) (hk : k ≤ 64) :
    m &&& (U64 - 2 ^ k) = m - m % 2 ^ k := by
  have hmask : U64 - 2 ^ k = (2 ^ (64 - k) - 1) <<< k := by
    rw [Nat.shiftLeft_eq, Nat.sub_mul, one_mul, ← Nat.pow_add]
    have h64 : 64 - k + k = 64 := by omega
    rw [h64]
    rfl
  have hsub : m - m % 2 ^ k = (m >>> k) <<< k := by
    rw [Nat.shiftLeft_eq, Nat.shiftRight_eq_div_pow, Nat.mul_comm]
    have := Nat.div_add_mod m (2 ^ k)
    omega
  rw [hmask, hsub]
  apply Nat.eq_of_testBit_eq
  intro i
  rw [Nat.testBit_and, Nat.testBit_shiftLeft, Nat.testBit_shiftLeft,
    Nat.testBit_shiftRight, Nat.testBit_two_pow_sub_one]
  rcases lt_or_le i k with hi | hi
  · simp [Nat.not_le.mpr hi]
  · have hadd : k + (i - k) = i := by omega
    rw [hadd]
    rcases lt_or_le i 64 with hi64 | hi64
    · have hik : i - k < 64 - k := by omega
      simp [hi, hik]
    · have hmi : m.testBit i = false :=
        Nat.testBit_lt_two_pow (lt_of_lt_of_le hm (Nat.pow_le_pow_right (by norm_num) hi64))
      simp [hmi]

namespace Bump

/-- The bump allocator state (`struct BumpAllocator` from
`src/mem/bump.rs`). -/
structure BumpAllocator where
  currentFrame : Nat
  takenAreas : List (Nat × Nat)
  memoryAreaIndex : Nat
  memoryAreas : List (Nat × Nat)
deriving Repr, DecidableEq

/-- Embeds `BumpAllocator::new`: the scan starts at `0x200000` (the first
2 MiB frame is skipped) with the memory-area cursor at index 0. -/
def new (takenAreas memoryAreas : List (Nat × Nat)) : BumpAllocator :=
  { currentFrame := 0x200000
    takenAreas := takenAreas
    memoryAreaIndex := 0
    memoryAreas := memoryAreas }

/-- Embeds the source's rounding expression `x + 0x1fffff & !0x1fffff`
(round up to a 2 MiB boundary, with 64-bit wrapping). -/
def roundUp2M (x : Nat) : Nat := wadd x 0x1fffff &&& (U64 - 0x200000)

/-- Recursion core of `BumpAllocator::allocate_frame` (lines 32-58 of
`src/mem/bump.rs`).  Each recursive call of the source consumes one unit of
fuel; the `fuel = 0` case is unreachable for the fuel supplied by
`allocate_frame` whenever addresses are bounded (proved below). -/
def allocateFrameGo : Nat → BumpAllocator → Option Nat × BumpAllocator
  | 0, st => (none, st)
  | fuel + 1, st =>
    match st.memoryAreas[st.memoryAreaIndex]? with
    | none => (none, st)
    | some (astart, aend) =>
      let cf := if st.currentFrame < astart then roundUp2M astart else st.currentFrame
      if aend < cf + 0x200000 then
        allocateFrameGo fuel
          { st with currentFrame := cf, memoryAreaIndex := st.memoryAreaIndex + 1 }
      else
        match st.takenAreas.find? (fun t => t.1 < cf + 0x200000 && cf < t.2) with
        | some t =>
          allocateFrameGo fuel { st with currentFrame := roundUp2M t.2 }
        | none => (some cf, { st with currentFrame := cf + 0x200000 })

/-- Embeds `BumpAllocator::allocate_frame` with fuel covering every area
advance and every taken-area bump once. -/
def allocate_frame (st : BumpAllocator) : Option Nat × BumpAllocator :=
  allocateFrameGo
    ((st.memoryAreas.length - st.memoryAreaIndex) + st.takenAreas.length + 1) st

/-- Runs `n` successive `allocate_frame` calls, collecting the successfully
returned frame addresses in order. -/
def runBump : Nat → BumpAllocator → List Nat × BumpAllocator
  | 0, st => ([], st)
  | n + 1, st =>
    match allocate_frame st with
    | (some f, st') => ((f :: (runBump n st').1), (runBump n st').2)
    | (none, st') => runBump n st'

/-- Boundedness and alignment invariant under which the source's address
arithmetic cannot wrap: the scan cursor is 2 MiB-aligned, and all
addresses are at most `2^62`. -/
def BumpInv (st : BumpAllocator) : Prop :=
  st.currentFrame % 0x200000 = 0 ∧
  st.currentFrame ≤ 2 ^ 62 + 0x200000 ∧
  (∀ a ∈ st.memoryAreas, a.1 ≤ 2 ^ 62 ∧ a.2 ≤ 2 ^ 62) ∧
  (∀ t ∈ st.takenAreas, t.2 ≤ 2 ^ 62)

theorem roundUp2M_spec (x : Nat) (hx : x ≤ 2 ^ 62 + 0x200000) :
    x ≤ roundUp2M x ∧ roundUp2M x ≤ x + 0x1fffff ∧ roundUp2M x % 0x200000 = 0 := by
  have hU : x + 0x1fffff < U64 := by unfold U64; omega
  have h2 : U64 - 0x200000 = U64 - 2 ^ 21 := by norm_num
  have h := land_mask_eq (x + 0x1fffff) 21 hU (by norm_num)
  unfold roundUp2M
  rw [wadd_eq_add hU, h2, h]
  have hmod := Nat.mod_lt (x + 0x1fffff) (y := 2 ^ 21) (by norm_num)
  have hsub : x + 0x1fffff - (x + 0x1fffff) % 2 ^ 21 = 2 ^ 21 * ((x + 0x1fffff) / 2 ^ 21) := by
    have := Nat.div_add_mod (x + 0x1fffff) (2 ^ 21)
    omega
  refine ⟨by omega, by omega, ?_⟩
  rw [hsub]
  have : (0x200000 : Nat) = 2 ^ 21 := by norm_num
  rw [this]
  exact Nat.mul_mod_right _ _

/-- Decreasing measure of the `allocate_frame` recursion: areas not yet
advanced past, plus taken areas the cursor has not yet passed. -/
def mu (st : BumpAllocator) : Nat :=
  (st.memoryAreas.length - st.memoryAreaIndex) +
    st.takenAreas.countP (fun t => st.currentFrame < t.2)

theorem countP_lt_of_witness {α : Type} {l : List α} {p q : α → Bool}
    (hmono : ∀ a ∈ l, p a = true → q a = true)
    {t : α} (ht : t ∈ l) (hpt : p t = false) (hqt : q t = true) :
    l.countP p < l.countP q := by
  induction l with
  | nil => cases ht
  | cons x xs ih =>
    rw [List.countP_cons, List.countP_cons]
    rcases List.mem_cons.mp ht with rfl | hx
    · have hle : xs.countP p ≤ xs.countP q :=
        List.countP_mono_left (fun a ha hp => hmono a (List.mem_cons_of_mem _ ha) hp)
      rw [hpt, hqt]
      simp only [Bool.false_eq_true, if_false, if_true]
      omega
    · have hlt := ih (fun a ha hp => hmono a (List.mem_cons_of_mem _ ha) hp) hx
      cases hpx : p x
      · cases hqx : q x <;> simp only [Bool.false_eq_true, if_false, if_true] <;> omega
      · have hqx := hmono x (List.mem_cons_self _ _) hpx
        rw [hqx]
        simp only [if_true]
        omega

/-- Single-step specification of `allocateFrameGo`: under the boundedness
invariant and with fuel above the measure, a successful call returns a
2 MiB-aligned frame not below the cursor, lying entirely inside one of the
reported memory areas and overlapping no taken area, advancing the cursor
just past the frame; a failed call has consumed the whole memory map. -/
theorem allocateFrameGo_spec (fuel : Nat) :
    ∀ st : BumpAllocator, BumpInv st → mu st < fuel →
      (allocateFrameGo fuel st).2.takenAreas = st.takenAreas ∧
      (allocateFrameGo fuel st).2.memoryAreas = st.memoryAreas ∧
      st.currentFrame ≤ (allocateFrameGo fuel st).2.currentFrame ∧
      BumpInv (allocateFrameGo fuel st).2 ∧
      st.memoryAreaIndex ≤ (allocateFrameGo fuel st).2.memoryAreaIndex ∧
      (∀ f, (allocateFrameGo fuel st).1 = some f →
        f % 0x200000 = 0 ∧ st.currentFrame ≤ f ∧
        (allocateFrameGo fuel st).2.currentFrame = f + 0x200000 ∧
        (∃ a ∈ st.memoryAreas, a.1 ≤ f ∧ f + 0x200000 ≤ a.2) ∧
        (∀ t ∈ st.takenAreas, t.2 ≤ f ∨ f + 0x200000 ≤ t.1) ∧
        (allocateFrameGo fuel st).2.memoryAreaIndex < st.memoryAreas.length) ∧
      ((allocateFrameGo fuel st).1 = none →
        st.memoryAreas.length ≤ (allocateFrameGo fuel st).2.memoryAreaIndex) := by
  induction fuel with
  | zero => intro st _ hmu; exact absurd hmu (by omega)
  | succ fuel ih =>
    intro st hinv hmu
    obtain ⟨hal, hbound, hareas, htaken⟩ := hinv
    cases hget : st.memoryAreas[st.memoryAreaIndex]? with
    | none =>
      have hres : allocateFrameGo (fuel + 1) st = (none, st) := by
        simp only [allocateFrameGo, hget]
      rw [hres]
      exact ⟨rfl, rfl, le_refl _, ⟨hal, hbound, hareas, htaken⟩, le_refl _,
        fun f hf => absurd hf (by simp), fun _ => List.getElem?_eq_none_iff.mp hget⟩
    | some a =>
      obtain ⟨astart, aend⟩ := a
      have hidx : st.memoryAreaIndex < st.memoryAreas.length := by
        rcases List.getElem?_eq_some_iff.mp hget with ⟨h, _⟩
        exact h
      have hamem : (astart, aend) ∈ st.memoryAreas := List.getElem?_mem hget
      have hendA : aend ≤ 2 ^ 62 := (hareas _ hamem).2
      have hstartA : astart ≤ 2 ^ 62 := (hareas _ hamem).1
      have hru := roundUp2M_spec astart (by omega)
      set cf := if st.currentFrame < astart then roundUp2M astart else st.currentFrame
        with hcf
      have hcf_ge : st.currentFrame ≤ cf := by
        rw [hcf]; split
        · omega
        · exact le_refl _
      have hcf_start : astart ≤ cf := by
        rw [hcf]; split
        · exact hru.1
        · omega
      have hcf_al : cf % 0x200000 = 0 := by
        rw [hcf]; split
        · exact hru.2.2
        · exact hal
      have hcf_bound : cf ≤ 2 ^ 62 + 0x200000 := by
        rw [hcf]; split
        · omega
        · exact hbound
      by_cases hfit : aend < cf + 0x200000
      · -- current area exhausted: advance to the next one
        have hres : allocateFrameGo (fuel + 1) st =
            allocateFrameGo fuel
              { st with currentFrame := cf, memoryAreaIndex := st.memoryAreaIndex + 1 } := by
          simp only [allocateFrameGo, hget, ← hcf]
          rw [if_pos hfit]
        have hinv' : BumpInv
            { st with currentFrame := cf, memoryAreaIndex := st.memoryAreaIndex + 1 } :=
          ⟨hcf_al, hcf_bound, hareas, htaken⟩
        have hmueq : mu { st with currentFrame := cf, memoryAreaIndex := st.memoryAreaIndex + 1 } = (st.memoryAreas.length - (st.memoryAreaIndex + 1)) + st.takenAreas.countP (fun t => decide (cf < t.2)) := rfl
        have hmueq0 : mu st = (st.memoryAreas.length - st.memoryAreaIndex) +
            st.takenAreas.countP (fun t => decide (st.currentFrame < t.2)) := rfl
        have hcnt : st.takenAreas.countP (fun t => decide (cf < t.2)) ≤
            st.takenAreas.countP (fun t => decide (st.currentFrame < t.2)) :=
          List.countP_mono_left (fun a _ hp => by
            simp only [decide_eq_true_eq] at hp ⊢
            omega)
        have hmu' : mu { st with currentFrame := cf, memoryAreaIndex := st.memoryAreaIndex + 1 } < fuel := by
          rw [hmueq]
          rw [hmueq0] at hmu
          omega
        have h := ih _ hinv' hmu'
        rw [hres]
        refine ⟨h.1, h.2.1, le_trans hcf_ge h.2.2.1, h.2.2.2.1,
          le_trans (Nat.le_succ _) h.2.2.2.2.1, fun f hf => ?_, h.2.2.2.2.2.2⟩
        have hh := h.2.2.2.2.2.1 f hf
        exact ⟨hh.1, le_trans hcf_ge hh.2.1, hh.2.2.1, hh.2.2.2.1, hh.2.2.2.2.1,
          hh.2.2.2.2.2⟩
      · cases hfind : st.takenAreas.find? (fun t => t.1 < cf + 0x200000 && cf < t.2) with
        | some t =>
          -- the candidate overlaps taken area `t`: skip past it
          have hres : allocateFrameGo (fuel + 1) st =
              allocateFrameGo fuel { st with currentFrame := roundUp2M t.2 } := by
            simp only [allocateFrameGo, hget, ← hcf]
            rw [if_neg hfit, hfind]
          have htmem : t ∈ st.takenAreas := List.mem_of_find?_eq_some hfind
          have htp := List.find?_some hfind
          simp only [Bool.and_eq_true, decide_eq_true_eq] at htp
          have hendT : t.2 ≤ 2 ^ 62 := htaken _ htmem
          have hruT := roundUp2M_spec t.2 (by omega)
          have hinv' : BumpInv { st with currentFrame := roundUp2M t.2 } :=
            ⟨hruT.2.2, show roundUp2M t.2 ≤ 2 ^ 62 + 0x200000 by omega, hareas, htaken⟩
          have hmueq : mu { st with currentFrame := roundUp2M t.2 } =
              (st.memoryAreas.length - st.memoryAreaIndex) +
                st.takenAreas.countP (fun a => decide (roundUp2M t.2 < a.2)) := rfl
          have hmueq0 : mu st = (st.memoryAreas.length - st.memoryAreaIndex) +
              st.takenAreas.countP (fun t => decide (st.currentFrame < t.2)) := rfl
          have hcnt : st.takenAreas.countP (fun a => decide (roundUp2M t.2 < a.2)) <
              st.takenAreas.countP (fun a => decide (st.currentFrame < a.2)) := by
            refine countP_lt_of_witness (fun a _ hp => ?_) htmem ?_ ?_
            · simp only [decide_eq_true_eq] at hp ⊢
              omega
            · simp only [decide_eq_false_iff_not]
              omega
            · simp only [decide_eq_true_eq]
              omega
          have hmu' : mu { st with currentFrame := roundUp2M t.2 } < fuel := by
            rw [hmueq]
            rw [hmueq0] at hmu
            omega
          have h := ih _ hinv' hmu'
          rw [hres]
          refine ⟨h.1, h.2.1,
            le_trans (show st.currentFrame ≤ roundUp2M t.2 by omega) h.2.2.1,
            h.2.2.2.1, h.2.2.2.2.1, fun f hf => ?_, h.2.2.2.2.2.2⟩
          have hh := h.2.2.2.2.2.1 f hf
          exact ⟨hh.1, le_trans (show st.currentFrame ≤ roundUp2M t.2 by omega) hh.2.1,
            hh.2.2.1, hh.2.2.2.1, hh.2.2.2.2.1, hh.2.2.2.2.2⟩
        | none =>
          -- success: return the frame at `cf`
          have hres : allocateFrameGo (fuel + 1) st =
              (some cf, { st with currentFrame := cf + 0x200000 }) := by
            simp only [allocateFrameGo, hget, ← hcf]
            rw [if_neg hfit, hfind]
          have hfree := List.find?_eq_none.mp hfind
          rw [hres]
          refine ⟨rfl, rfl, show st.currentFrame ≤ cf + 0x200000 by omega,
            ⟨show (cf + 0x200000) % 0x200000 = 0 by omega,
             show cf + 0x200000 ≤ 2 ^ 62 + 0x200000 by omega, hareas, htaken⟩,
            le_refl _, fun f hf => ?_, fun hnone => absurd hnone (by simp)⟩
          have hcf_f : cf = f := Option.some.inj hf
          subst hcf_f
          refine ⟨hcf_al, hcf_ge, rfl, ⟨(astart, aend), hamem, hcf_start, by omega⟩,
            fun t htm => ?_, hidx⟩
          have hnot := hfree t htm
          simp only [Bool.and_eq_true, decide_eq_true_eq, not_and, not_lt] at hnot
          rcases Nat.lt_or_ge t.1 (cf + 0x200000) with h1 | h1
          · exact Or.inl (hnot h1)
          · exact Or.inr h1

/-- The fuel supplied by `allocate_frame` is always above the measure, so
the single-step specification holds for `allocate_frame` itself. -/
theorem allocate_frame_spec (st : BumpAllocator) (hinv : BumpInv st) :
    (allocate_frame st).2.takenAreas = st.takenAreas ∧
    (allocate_frame st).2.memoryAreas = st.memoryAreas ∧
    st.currentFrame ≤ (allocate_frame st).2.currentFrame ∧
    BumpInv (allocate_frame st).2 ∧
    st.memoryAreaIndex ≤ (allocate_frame st).2.memoryAreaIndex ∧
    (∀ f, (allocate_frame st).1 = some f →
      f % 0x200000 = 0 ∧ st.currentFrame ≤ f ∧
      (allocate_frame st).2.currentFrame = f + 0x200000 ∧
      (∃ a ∈ st.memoryAreas, a.1 ≤ f ∧ f + 0x200000 ≤ a.2) ∧
      (∀ t ∈ st.takenAreas, t.2 ≤ f ∨ f + 0x200000 ≤ t.1) ∧
      (allocate_frame st).2.memoryAreaIndex < st.memoryAreas.length) ∧
    ((allocate_frame st).1 = none →
      st.memoryAreas.length ≤ (allocate_frame st).2.memoryAreaIndex) := by
  apply allocateFrameGo_spec _ st hinv
  have hc : st.takenAreas.countP (fun t => decide (st.currentFrame < t.2)) ≤
      st.takenAreas.length := List.countP_le_length _
  unfold mu
  omega

/-- Specification of a whole run: every returned frame is aligned, at or
above the starting cursor, inside a reported area and clear of every taken
area, and consecutive returns are at least 2 MiB apart. -/
theorem runBump_spec (n : Nat) :
    ∀ st : BumpAllocator, BumpInv st →
      (∀ f ∈ (runBump n st).1,
        f % 0x200000 = 0 ∧ st.currentFrame ≤ f ∧
        (∃ a ∈ st.memoryAreas, a.1 ≤ f ∧ f + 0x200000 ≤ a.2) ∧
        (∀ t ∈ st.takenAreas, t.2 ≤ f ∨ f + 0x200000 ≤ t.1)) ∧
      (runBump n st).1.Pairwise (fun x y => x + 0x200000 ≤ y) := by
  induction n with
  | zero =>
    intro st _
    constructor
    · intro f hf
      simp [runBump] at hf
    · simp [runBump]
  | succ n ih =>
    intro st hinv
    have h := allocate_frame_spec st hinv
    cases hr : allocate_frame st with
    | mk o st' =>
      simp only [hr] at h
      cases o with
      | some f =>
        have hres : (runBump (n + 1) st).1 = f :: (runBump n st').1 := by
          simp only [runBump, hr]
        have hf := h.2.2.2.2.2.1 f rfl
        have hrec := ih st' h.2.2.2.1
        rw [hres]
        constructor
        · intro g hg
          rcases List.mem_cons.mp hg with rfl | hg
          · exact ⟨hf.1, hf.2.1, hf.2.2.2.1, hf.2.2.2.2.1⟩
          · have hgr := hrec.1 g hg
            have h1 := hf.2.1
            have h2 := hf.2.2.1
            have h3 := hgr.2.1
            refine ⟨hgr.1, by omega, ?_, ?_⟩
            · exact h.2.1 ▸ hgr.2.2.1
            · exact h.1 ▸ hgr.2.2.2
        · refine List.pairwise_cons.mpr ⟨?_, hrec.2⟩
          intro g hg
          have h2 := hf.2.2.1
          have h3 := (hrec.1 g hg).2.1
          omega
      | none =>
        have hres : runBump (n + 1) st = runBump n st' := by
          simp only [runBump, hr]
        have hrec := ih st' h.2.2.2.1
        rw [hres]
        refine ⟨fun g hg => ?_, hrec.2⟩
        have hgr := hrec.1 g hg
        have h1 := h.2.2.1
        have h3 := hgr.2.1
        exact ⟨hgr.1, by omega, h.2.1 ▸ hgr.2.2.1, h.1 ▸ hgr.2.2.2⟩

end Bump

/-!
### Claim C9: bump allocator behaviour
-/

/-- C9: for every sequence of `allocate_frame` calls on a freshly
constructed bump allocator (with all reported addresses bounded by `2^62`
so the source's address arithmetic cannot wrap): the scan is seeded at
2 MiB; the returned addresses are strictly increasing (consecutive returns
at least 2 MiB apart), 2 MiB-aligned and at least 2 MiB (the first frame is
skipped); each returned frame lies entirely inside some reported memory
area and overlaps no taken area; and a call returns `none` exactly when the
memory-area cursor has moved past the whole memory map. -/
theorem C9_bump_allocator (taken areas : List (Nat × Nat)) (n : Nat)
    (hA : ∀ a ∈ areas, a.1 ≤ 2 ^ 62 ∧ a.2 ≤ 2 ^ 62)
    (hT : ∀ t ∈ taken, t.2 ≤ 2 ^ 62) :
    (Bump.new taken areas).currentFrame = 0x200000 ∧
    (Bump.runBump n (Bump.new taken areas)).1.Pairwise (fun x y => x + 0x200000 ≤ y) ∧
    (Bump.runBump n (Bump.new taken areas)).1.Pairwise (· < ·) ∧
    (∀ f ∈ (Bump.runBump n (Bump.new taken areas)).1,
      f % 0x200000 = 0 ∧ 0x200000 ≤ f ∧
      (∃ a ∈ areas, a.1 ≤ f ∧ f + 0x200000 ≤ a.2) ∧
      (∀ t ∈ taken, t.2 ≤ f ∨ f + 0x200000 ≤ t.1)) ∧
    (∀ st : Bump.BumpAllocator, Bump.BumpInv st →
      ((Bump.allocate_frame st).1 = none ↔
        st.memoryAreas.length ≤ (Bump.allocate_frame st).2.memoryAreaIndex)) := by
  have hinv : Bump.BumpInv (Bump.new taken areas) := by
    show 0x200000 % 0x200000 = 0 ∧ 0x200000 ≤ 2 ^ 62 + 0x200000 ∧ _ ∧ _
    exact ⟨by norm_num, by norm_num, hA, hT⟩
  have h := Bump.runBump_spec n (Bump.new taken areas) hinv
  refine ⟨rfl, h.2, List.Pairwise.imp (fun hxy => by omega) h.2, ?_, ?_⟩
  · intro f hf
    have hfs := h.1 f hf
    exact ⟨hfs.1, hfs.2.1, hfs.2.2.1, hfs.2.2.2⟩
  · intro st hinv'
    have hs := Bump.allocate_frame_spec st hinv'
    constructor
    · exact hs.2.2.2.2.2.2
    · intro hle
      cases ho : (Bump.allocate_frame st).1 with
      | none => rfl
      | some f =>
        have := (hs.2.2.2.2.2.1 f ho).2.2.2.2.2
        omega

/-- C9 (witness): the spec's own concrete scenario 1 — memory map
`[(0, 2 MiB), (4 MiB, 256 MiB)]`, taken `[(0, 2 MiB)]`, three calls. -/
theorem C9_bump_allocator_witness :
    (Bump.new [(0, 0x200000)] [(0, 0x200000), (0x400000, 0x10000000)]).currentFrame =
      0x200000 ∧
    (Bump.runBump 3 (Bump.new [(0, 0x200000)]
        [(0, 0x200000), (0x400000, 0x10000000)])).1.Pairwise
      (fun x y => x + 0x200000 ≤ y) ∧
    (Bump.runBump 3 (Bump.new [(0, 0x200000)]
        [(0, 0x200000), (0x400000, 0x10000000)])).1.Pairwise (· < ·) ∧
    (∀ f ∈ (Bump.runBump 3 (Bump.new [(0, 0x200000)]
        [(0, 0x200000), (0x400000, 0x10000000)])).1,
      f % 0x200000 = 0 ∧ 0x200000 ≤ f ∧
      (∃ a ∈ [(0, 0x200000), (0x400000, 0x10000000)], a.1 ≤ f ∧ f + 0x200000 ≤ a.2) ∧
      (∀ t ∈ [((0 : Nat), (0x200000 : Nat))], t.2 ≤ f ∨ f + 0x200000 ≤ t.1)) ∧
    (∀ st : Bump.BumpAllocator, Bump.BumpInv st →
      ((Bump.allocate_frame st).1 = none ↔
        st.memoryAreas.length ≤ (Bump.allocate_frame st).2.memoryAreaIndex)) :=
  C9_bump_allocator [(0, 0x200000)] [(0, 0x200000), (0x400000, 0x10000000)] 3
    (by decide) (by decide)

/-- Sanity check matching the spec's scenario 1 literally: the first three
frames are `0x400000, 0x600000, 0x800000`. -/
theorem runBump_scenario1 :
    (Bump.runBump 3 (Bump.new [(0, 0x200000)]
        [(0, 0x200000), (0x400000, 0x10000000)])).1 =
      [0x400000, 0x600000, 0x800000] := by
  decide

/-!
## B-tree (`src/mem/btree.rs`)

Data model: the source stores leaves as `NodeElements` (parallel key/value
stacks) and internal nodes as `Node` (`NodeElements` plus a homogeneous
children vector tagged `Nodes`/`Leafs` once per parent).  The embedding
merges both into one inductive: `BNode.leaf kvs` is a leaf, and
`BNode.node kvs children` an internal node.  Homogeneity of the children
(all leaves or all internal nodes) is a consequence of the balance
invariant `Bal` proved below, matching the source's per-parent tag.

The iterative insert/remove of the source record the descent path in an
on-stack reference stack and unwind it afterwards; the embedding expresses
the same computation as the equivalent structural recursion (child results
are handled by the parent exactly as the source's unwinding loop handles
the node below the top of the stack).  The 20-slot capacity of the two
on-stack structures is modelled separately for claim C10 by the
`insertStackCheck`/`removeStackCheck` walk below.
-/

/-- Embeds `const B: usize = 6` from `src/mem/btree.rs`. -/
def B : Nat := 6

/-- Embeds `const MIN_NUM_ELEMENTS: usize = B - 1`. -/
def MIN_NUM_ELEMENTS : Nat := B - 1

/-- Embeds `const MAX_NUM_ELEMENTS: usize = 2 * B - 1`. -/
def MAX_NUM_ELEMENTS : Nat := 2 * B - 1

/-- A B-tree node: a leaf (`NodeElements`) holds key/value pairs; an
internal node (`Node`) additionally holds its children. -/
inductive BNode (K V : Type) : Type where
  | leaf (kvs : List (K × V))
  | node (kvs : List (K × V)) (children : List (BNode K V))
deriving Repr

namespace BNode

variable {K V : Type}

theorem sizeOf_lt_of_mem_children [SizeOf K] [SizeOf V] {kvs : List (K × V)}
    {ch : List (BNode K V)} {c : BNode K V} (h : c ∈ ch) :
    sizeOf c < sizeOf (BNode.node kvs ch) := by
  have := List.sizeOf_lt_of_mem h
  simp only [BNode.node.sizeOf_spec]
  omega

/-- Number of stored elements (`num_elements` / `NodeElements::len`). -/
def numElems : BNode K V → Nat
  | .leaf kvs => kvs.length
  | .node kvs _ => kvs.length

/-- Result of the linear key scan inside one internal node (the
`for (i, elem_k) in node.keys().iter().enumerate()` loops of the source):
`found i` for `Ordering::Equal` at index `i`, `descend i` for the first
`Ordering::Less` (or `i = len` when the scan runs off the end). -/
inductive ScanRes where
  | found (i : Nat)
  | descend (i : Nat)
deriving Repr, DecidableEq

variable [LinearOrder K]

/-- The linear scan over a node's keys.  `key.cmp(elem_k)` on a total order
is `Less` iff `key < k`, `Equal` iff `key = k`, and `Greater` otherwise. -/
def scanNode (key : K) : List (K × V) → ScanRes
  | [] => .descend 0
  | (k, _) :: rest =>
    if key < k then .descend 0
    else if key = k then .found 0
    else
      match scanNode key rest with
      | .found i => .found (i + 1)
      | .descend i => .descend (i + 1)

/-- Result of inserting into a leaf's element list before capacity
handling: `replaced old kvs'` when the key was present (the value is
replaced in place, `Some((key, old))` is returned), `inserted kvs'`
otherwise (the conceptual list including the overflowing element, i.e. the
stack-vec contents plus the returned overflow, which the source splits when
it has `MAX_NUM_ELEMENTS + 1` entries). -/
inductive InsLeafRes (K V : Type) where
  | replaced (old : V) (kvs : List (K × V))
  | inserted (kvs : List (K × V))

/-- The scan-and-insert loops over a leaf (`NodeElements`): insert before
the first strictly greater key, replace on equality, append at the end. -/
def insertLeaf (key : K) (v : V) : List (K × V) → InsLeafRes K V
  | [] => .inserted [(key, v)]
  | (k, w) :: rest =>
    if key < k then .inserted ((key, v) :: (k, w) :: rest)
    else if key = k then .replaced w ((k, v) :: rest)
    else
      match insertLeaf key v rest with
      | .replaced old rest' => .replaced old ((k, w) :: rest')
      | .inserted rest' => .inserted ((k, w) :: rest')

/-- Result of `insert` on a subtree: `replaced` (key present: value
replaced, old pair returned, no structural change), `ok` (inserted without
overflow), or `split l sep sepV r` (the subtree overflowed and was split
around the promoted separator, as produced by `NodeElements::split` /
`Node::split`). -/
inductive InsRes (K V : Type) where
  | replaced (k : K) (old : V) (t : BNode K V)
  | ok (t : BNode K V)
  | split (l : BNode K V) (sep : K) (sepV : V) (r : BNode K V)

/-- Replaces the value at index `i`, returning the old value (mirrors
`mem::replace(&mut node.values_mut()[i], value)`). -/
def setValueAt (v : V) : List (K × V) → Nat → Option V × List (K × V)
  | [], _ => (none, [])
  | (k, w) :: rest, 0 => (some w, (k, v) :: rest)
  | p :: rest, i + 1 =>
    ((setValueAt v rest i).1, p :: (setValueAt v rest i).2)

/-- One subtree step of `BTree::insert` (lines 1947-2136).  A full leaf or
node conceptually holds `2B` elements after the insertion (the stack vec
plus the returned overflow); `NodeElements::split` keeps the lower `B` on
the left, promotes element `B`, and moves the upper `B - 1` (with the
overflow) to the right; `Node::split` moves children `B+1 ..` plus the
overflow child to the right. -/
def insertGo (key : K) (v : V) : BNode K V → InsRes K V
  | .leaf kvs =>
    match insertLeaf key v kvs with
    | .replaced old kvs' => .replaced key old (.leaf kvs')
    | .inserted kvs' =>
      if kvs'.length ≤ MAX_NUM_ELEMENTS then .ok (.leaf kvs')
      else
        match kvs'.drop B with
        | [] => .ok (.leaf kvs')
        | sep :: right => .split (.leaf (kvs'.take B)) sep.1 sep.2 (.leaf right)
  | .node kvs ch =>
    match scanNode key kvs with
    | .found i =>
      match setValueAt v kvs i with
      | (some old, kvs') => .replaced key old (.node kvs' ch)
      | (none, _) => .ok (.node kvs ch)
    | .descend i =>
      match hch : ch[i]? with
      | none => .ok (.node kvs ch)
      | some c =>
        match insertGo key v c with
        | .replaced k old c' => .replaced k old (.node kvs (ch.set i c'))
        | .ok c' => .ok (.node kvs (ch.set i c'))
        | .split l sk sv r =>
          let kvs' := kvs.insertIdx i (sk, sv)
          let ch' := (ch.set i l).insertIdx (i + 1) r
          if kvs'.length ≤ MAX_NUM_ELEMENTS then .ok (.node kvs' ch')
          else
            match kvs'.drop B with
            | [] => .ok (.node kvs' ch')
            | sep :: rightKvs =>
              .split (.node (kvs'.take B) (ch'.take (B + 1))) sep.1 sep.2
                (.node rightKvs (ch'.drop (B + 1)))
decreasing_by exact sizeOf_lt_of_mem_children (List.getElem?_mem hch)

/-- The right-borrow arm of `resolve_underflow` (lines 2154-2169 for node
children, 2198-2209 for leaf children): the donor `children[i+1]` gives up
its first element (and, for internal donors, its first child); the old
separator `kvs[i]` and that child are appended to `children[i]`, and the
donor's first element becomes the new separator. -/
def rotateRight (kvs : List (K × V)) (ch : List (BNode K V)) (i : Nat) : BNode K V :=
  match kvs[i]?, ch[i]?, ch[i + 1]? with
  | some sep, some c, some d =>
    match c, d with
    | .node ck cc, .node dk dc =>
      match dk, dc with
      | dk0 :: dkRest, dc0 :: dcRest =>
        .node (kvs.set i dk0)
          ((ch.set i (.node (ck ++ [sep]) (cc ++ [dc0]))).set (i + 1) (.node dkRest dcRest))
      | _, _ => .node kvs ch
    | .leaf ck, .leaf dk =>
      match dk with
      | dk0 :: dkRest =>
        .node (kvs.set i dk0)
          ((ch.set i (.leaf (ck ++ [sep]))).set (i + 1) (.leaf dkRest))
      | [] => .node kvs ch
    | _, _ => .node kvs ch
  | _, _, _ => .node kvs ch

/-- The left-borrow arm of `resolve_underflow` (lines 2170-2184 / 2210-2222):
the donor `children[i-1]` pops its last element (and last child); the old
separator `kvs[i-1]` and that child are prepended to `children[i]`, and the
donor's last element becomes the new separator. -/
def rotateLeft (kvs : List (K × V)) (ch : List (BNode K V)) (i : Nat) : BNode K V :=
  match kvs[i - 1]?, ch[i - 1]?, ch[i]? with
  | some sep, some d, some c =>
    match d, c with
    | .node dk dc, .node ck cc =>
      match dk.getLast?, dc.getLast? with
      | some dkL, some dcL =>
        .node (kvs.set (i - 1) dkL)
          ((ch.set (i - 1) (.node dk.dropLast dc.dropLast)).set i
            (.node (sep :: ck) (dcL :: cc)))
      | _, _ => .node kvs ch
    | .leaf dk, .leaf ck =>
      match dk.getLast? with
      | some dkL =>
        .node (kvs.set (i - 1) dkL)
          ((ch.set (i - 1) (.leaf dk.dropLast)).set i (.leaf (sep :: ck)))
      | none => .node kvs ch
    | _, _ => .node kvs ch
  | _, _, _ => .node kvs ch

/-- The merge arm of `resolve_underflow` (lines 2185-2195 / 2223-2234):
`left = child_idx.saturating_sub(1)`; `node.remove(left)` takes out the
separator `kvs[left]` and `children[left+1]`, which are merged into
`children[left]` (`left ++ [sep] ++ right`, children concatenated). -/
def mergeAt (kvs : List (K × V)) (ch : List (BNode K V)) (i : Nat) : BNode K V :=
  let left := i - 1
  match kvs[left]?, ch[left]?, ch[left + 1]? with
  | some sep, some lc, some rc =>
    let merged :=
      match lc, rc with
      | .node lk lcc, .node rk rcc => BNode.node (lk ++ sep :: rk) (lcc ++ rcc)
      | .leaf lk, .leaf rk => BNode.leaf (lk ++ sep :: rk)
      | _, _ => lc
    .node (kvs.eraseIdx left) ((ch.eraseIdx (left + 1)).set left merged)
  | _, _, _ => .node kvs ch

/-- The left-donor/merge dispatch of `resolve_underflow`:
`child_idx.checked_sub(1)` (no left sibling when `i = 0`), the donor must
have more than `MIN_NUM_ELEMENTS` elements, otherwise merge. -/
def resolveLeftOrMerge (kvs : List (K × V)) (ch : List (BNode K V)) (i : Nat) :
    BNode K V :=
  if i = 0 then mergeAt kvs ch i
  else
    match ch[i - 1]? with
    | some d => if MIN_NUM_ELEMENTS < d.numElems then rotateLeft kvs ch i else mergeAt kvs ch i
    | none => mergeAt kvs ch i

/-- `resolve_underflow(node, child_idx)` (btree.rs lines 2143-2241): try the
right sibling as donor first, then the left, else merge. -/
def resolveUnderflow (kvs : List (K × V)) (ch : List (BNode K V)) (i : Nat) :
    BNode K V :=
  match ch[i + 1]? with
  | some d =>
    if MIN_NUM_ELEMENTS < d.numElems then rotateRight kvs ch i
    else resolveLeftOrMerge kvs ch i
  | none => resolveLeftOrMerge kvs ch i

/-- Removes the maximum of a subtree: the predecessor hunt of `remove`'s
`Ordering::Equal` arm (lines 2285-2302 descend rightmost and pop the leaf's
last element) together with its underflow-fixing loop (lines 2331-2364,
which resolves at `child_idx = node.num_elements()` on the way back up).
Returns `none` where the source would `pop().unwrap()` an empty leaf (never
on well-formed trees). -/
def removeMax : BNode K V → Option ((K × V) × BNode K V)
  | .leaf kvs =>
    match kvs.getLast? with
    | none => none
    | some kv => some (kv, .leaf kvs.dropLast)
  | .node kvs ch =>
    match hch : ch[ch.length - 1]? with
    | none => none
    | some c =>
      match removeMax c with
      | none => none
      | some (kv, c') =>
        let ch' := ch.set (ch.length - 1) c'
        if c'.numElems < MIN_NUM_ELEMENTS then
          some (kv, resolveUnderflow kvs ch' kvs.length)
        else some (kv, .node kvs ch')
decreasing_by exact sizeOf_lt_of_mem_children (List.getElem?_mem hch)

/-- The scan-and-remove loop over a leaf (`NodeElements::remove` at the
first equal key; `None` when the scan passes the key or runs off). -/
def removeLeaf (key : K) : List (K × V) → Option ((K × V) × List (K × V))
  | [] => none
  | (k, w) :: rest =>
    if key < k then none
    else if key = k then some ((k, w), rest)
    else
      match removeLeaf key rest with
      | none => none
      | some (kv, rest') => some (kv, (k, w) :: rest')

/-- One subtree step of `BTree::remove` (lines 2138-2462).  `found i`:
replace element `i` by the predecessor extracted from `children[i]`
(`removeMax`), then resolve `children[i]` if it underflowed.  `descend i`:
recurse into `children[i]` and resolve it afterwards if it underflowed
(the source's main unwinding loop at lines 2433-2459 does exactly this one
level at a time). -/
def removeGo (key : K) : BNode K V → Option ((K × V) × BNode K V)
  | .leaf kvs =>
    match removeLeaf key kvs with
    | none => none
    | some (kv, kvs') => some (kv, .leaf kvs')
  | .node kvs ch =>
    match scanNode key kvs with
    | .found i =>
      match kvs[i]? with
      | none => none
      | some orig =>
        match hch : ch[i]? with
        | none => none
        | some c =>
          match removeMax c with
          | none => none
          | some (pred, c') =>
            let kvs' := kvs.set i pred
            let ch' := ch.set i c'
            if c'.numElems < MIN_NUM_ELEMENTS then some (orig, resolveUnderflow kvs' ch' i)
            else some (orig, .node kvs' ch')
    | .descend i =>
      match hch : ch[i]? with
      | none => none
      | some c =>
        match removeGo key c with
        | none => none
        | some (kv, c') =>
          let ch' := ch.set i c'
          if c'.numElems < MIN_NUM_ELEMENTS then some (kv, resolveUnderflow kvs ch' i)
          else some (kv, .node kvs ch')
decreasing_by exact sizeOf_lt_of_mem_children (List.getElem?_mem hch)

end BNode

/-- The `BTree` struct: its root child, `len`, and `depth` fields (the two
slab allocators hold no structural content). -/
structure BTree (K V : Type) where
  root : BNode K V
  len : Nat
  depth : Nat

namespace BTree

variable {K V : Type} [LinearOrder K]

/-- Embeds `BTree::new`: an empty root leaf, `len = 0`, `depth = 1`. -/
def new : BTree K V := ⟨.leaf [], 0, 1⟩

/-- Embeds `BTree::insert` (lines 1947-2136).  The source handles the
root-leaf case inline and the node case through the reference stack; both
reduce to `insertGo` on the root followed by the root-split handling (a new
root holding the separator and the two halves, growing `depth`).  Returns
`Some((key, old_value))` exactly when the key was present. -/
def insert (t : BTree K V) (key : K) (v : V) : Option (K × V) × BTree K V :=
  match BNode.insertGo key v t.root with
  | .replaced k old r => (some (k, old), { t with root := r })
  | .ok r => (none, { t with root := r, len := t.len + 1 })
  | .split l sk sv r =>
    (none, { root := .node [(sk, sv)] [l, r], len := t.len + 1, depth := t.depth + 1 })

/-- Embeds `BTree::remove` (lines 2138-2462): the root-leaf case removes
directly; the node case runs the descent and, when the root node is left
with zero elements, replaces the root by its single child
(`replace_with_child`), shrinking `depth`. -/
def remove (t : BTree K V) (key : K) : Option (K × V) × BTree K V :=
  match t.root with
  | .leaf kvs =>
    match BNode.removeLeaf key kvs with
    | none => (none, t)
    | some (kv, kvs') => (some kv, { t with root := .leaf kvs', len := t.len - 1 })
  | .node kvs ch =>
    match BNode.removeGo key (.node kvs ch) with
    | none => (none, t)
    | some (kv, r) =>
      match r with
      | .node [] [c] => (some kv, { root := c, len := t.len - 1, depth := t.depth - 1 })
      | _ => (some kv, { t with root := r, len := t.len - 1 })

end BTree

/-- A B-tree mutation, for stating invariants over arbitrary operation
sequences. -/
inductive BOp (K V : Type) where
  | ins (k : K) (v : V)
  | del (k : K)

/-- Applies one operation (keeping the tree, discarding the returned old
pair). -/
def applyOp {K V : Type} [LinearOrder K] (t : BTree K V) : BOp K V → BTree K V
  | .ins k v => (t.insert k v).2
  | .del k => (t.remove k).2

/-- Applies a sequence of inserts and removes starting from `BTree::new`'s
successor state `t`. -/
def applyOps {K V : Type} [LinearOrder K] (t : BTree K V) (ops : List (BOp K V)) :
    BTree K V :=
  ops.foldl applyOp t

/-!
### B-tree invariants

`SizeOk` is the element-count/children-count discipline of the source
(`MIN_NUM_ELEMENTS ≤ len ≤ MAX_NUM_ELEMENTS` for non-root nodes, one more
child than elements); `Bal` says all leaves sit at the same depth `h`
(so each parent's children are homogeneously leaves or nodes, the
`Nodes`/`Leafs` tag of `OuterLenChildren`); `Ordd lo hi` is the order
invariant: each node's keys are strictly ascending and all keys lie in the
open interval `(lo, hi)`, children being bounded by the adjacent
separators. -/

namespace BNode

variable {K V : Type}

/-- Keys of an element list. -/
def keysOf (kvs : List (K × V)) : List K := kvs.map Prod.fst

/-- Strong induction on `sizeOf` for `BNode`. -/
theorem sizeOf_strongInd {motive : BNode K V → Prop}
    (ih : ∀ t : BNode K V, (∀ c : BNode K V, sizeOf c < sizeOf t → motive c) → motive t)
    (t : BNode K V) : motive t := by
  have H : ∀ (n : Nat) (t : BNode K V), sizeOf t < n → motive t := by
    intro n
    induction n with
    | zero => intro t ht; omega
    | succ n ihn => intro t _; exact ih t fun c hc => ihn c (by omega)
  exact H (sizeOf t + 1) t (by omega)

section Invariants

variable [LinearOrder K]

/-- `lo` is a strict lower bound for `k` (no constraint when `lo = none`). -/
def OLB (lo : Option K) (k : K) : Prop := ∀ l, lo = some l → l < k

/-- `hi` is a strict upper bound for `k` (no constraint when `hi = none`). -/
def OUB (hi : Option K) (k : K) : Prop := ∀ u, hi = some u → k < u

/-- A strictly ascending key list whose members all lie in `(lo, hi)`. -/
def KeysB (lo hi : Option K) (ks : List K) : Prop :=
  ks.Pairwise (· < ·) ∧ ∀ k ∈ ks, OLB lo k ∧ OUB hi k

/-- Lower bound of child `i`: `lo` for the leftmost child, else separator
`i - 1`. -/
def lbAt (lo : Option K) (ks : List K) : Nat → Option K
  | 0 => lo
  | i + 1 => ks[i]?

/-- Upper bound of child `i`: `hi` for the rightmost child, else separator
`i`. -/
def ubAt (hi : Option K) (ks : List K) (i : Nat) : Option K :=
  if i = ks.length then hi else ks[i]?

/-- The order invariant of a subtree under the open bounds `(lo, hi)`. -/
def Ordd (lo hi : Option K) : BNode K V → Prop
  | .leaf kvs => KeysB lo hi (keysOf kvs)
  | .node kvs ch =>
    KeysB lo hi (keysOf kvs) ∧
    ∀ i c, ch[i]? = some c → Ordd (lbAt lo (keysOf kvs) i) (ubAt hi (keysOf kvs) i) c
decreasing_by exact sizeOf_lt_of_mem_children (List.getElem?_mem (by assumption))

end Invariants

/-- The size discipline: non-root nodes hold between `MIN_NUM_ELEMENTS` and
`MAX_NUM_ELEMENTS` elements (the root at least 1 if internal, possibly 0 in
a leaf), internal nodes have one more child than elements. -/
def SizeOk (isRoot : Bool) : BNode K V → Prop
  | .leaf kvs =>
    (isRoot = true ∨ MIN_NUM_ELEMENTS ≤ kvs.length) ∧ kvs.length ≤ MAX_NUM_ELEMENTS
  | .node kvs ch =>
    (isRoot = true ∨ MIN_NUM_ELEMENTS ≤ kvs.length) ∧ 1 ≤ kvs.length ∧
    kvs.length ≤ MAX_NUM_ELEMENTS ∧ ch.length = kvs.length + 1 ∧
    ∀ c ∈ ch, SizeOk false c
decreasing_by exact sizeOf_lt_of_mem_children (by assumption)

/-- Like `SizeOk false` but the top node may be one element short of
`MIN_NUM_ELEMENTS` (the state handed upward by `remove` before the parent
resolves the underflow; for the root, `isRoot` relaxes it to 0). -/
def SizeOkRem (isRoot : Bool) : BNode K V → Prop
  | .leaf kvs =>
    (isRoot = true ∨ MIN_NUM_ELEMENTS - 1 ≤ kvs.length) ∧ kvs.length ≤ MAX_NUM_ELEMENTS
  | .node kvs ch =>
    (isRoot = true ∨ MIN_NUM_ELEMENTS - 1 ≤ kvs.length) ∧
    kvs.length ≤ MAX_NUM_ELEMENTS ∧ ch.length = kvs.length + 1 ∧
    ∀ c ∈ ch, SizeOk false c

/-- All leaves at depth `h` (`h = 1` for a bare leaf). -/
def Bal (h : Nat) : BNode K V → Prop
  | .leaf _ => h = 1
  | .node _ ch => 2 ≤ h ∧ ∀ c ∈ ch, Bal (h - 1) c
decreasing_by exact sizeOf_lt_of_mem_children (by assumption)

end BNode

/-- The full B-tree invariant claimed by the spec: size discipline, uniform
leaf depth equal to the `depth` field, and the order invariant with no
outer bounds. -/
def BTreeInv {K V : Type} [LinearOrder K] (t : BTree K V) : Prop :=
  BNode.SizeOk true t.root ∧ BNode.Bal t.depth t.root ∧ BNode.Ordd none none t.root

namespace BNode

variable {K V : Type}

theorem keysOf_length (kvs : List (K × V)) : (keysOf kvs).length = kvs.length :=
  List.length_map _ _

theorem keysOf_getElem? (kvs : List (K × V)) (i : Nat) :
    (keysOf kvs)[i]? = kvs[i]?.map Prod.fst :=
  List.getElem?_map _ _ _

theorem keysOf_set (kvs : List (K × V)) (i : Nat) (p : K × V) :
    keysOf (kvs.set i p) = (keysOf kvs).set i p.1 :=
  List.map_set

theorem keysOf_append (a b : List (K × V)) : keysOf (a ++ b) = keysOf a ++ keysOf b :=
  List.map_append _ _ _

theorem keysOf_take (kvs : List (K × V)) (n : Nat) :
    keysOf (kvs.take n) = (keysOf kvs).take n := by
  unfold keysOf; exact List.map_take _ _ _

theorem keysOf_drop (kvs : List (K × V)) (n : Nat) :
    keysOf (kvs.drop n) = (keysOf kvs).drop n := by
  unfold keysOf; exact List.map_drop _ _ _

theorem keysOf_insertIdx (kvs : List (K × V)) (i : Nat) (p : K × V) :
    keysOf (kvs.insertIdx i p) = (keysOf kvs).insertIdx i p.1 := by
  induction kvs generalizing i with
  | nil => cases i <;> simp [keysOf]
  | cons q rest ih =>
    cases i with
    | zero => simp [keysOf]
    | succ j => simp only [List.insertIdx_succ_cons, keysOf, List.map_cons] at *; rw [ih]

theorem keysOf_eraseIdx (kvs : List (K × V)) (i : Nat) :
    keysOf (kvs.eraseIdx i) = (keysOf kvs).eraseIdx i := by
  induction kvs generalizing i with
  | nil => simp [keysOf]
  | cons q rest ih =>
    cases i with
    | zero => simp [keysOf]
    | succ j => simp only [List.eraseIdx_cons_succ, keysOf, List.map_cons] at *; rw [ih]

theorem keysOf_dropLast (kvs : List (K × V)) :
    keysOf kvs.dropLast = (keysOf kvs).dropLast := by
  rw [List.dropLast_eq_take, List.dropLast_eq_take, keysOf_take, keysOf_length]

/-- `getElem?` through `insertIdx` (for `i ≤ l.length`): positions below `i`
are unchanged, position `i` is the new element, higher positions shift. -/
theorem getElem?_insertIdx_cases (l : List α) (i : Nat) (x : α) (j : Nat)
    (h : i ≤ l.length) :
    (l.insertIdx i x)[j]? =
      if j < i then l[j]? else if j = i then some x else l[j - 1]? := by
  induction i generalizing l j with
  | zero =>
    simp only [List.insertIdx_zero]
    cases j with
    | zero => simp
    | succ jj => simp
  | succ ii ih =>
    cases l with
    | nil => simp at h
    | cons a rest =>
      simp only [List.insertIdx_succ_cons]
      cases j with
      | zero => simp
      | succ jj =>
        simp only [List.getElem?_cons_succ]
        rw [ih rest jj (by simpa using h)]
        by_cases h1 : jj < ii
        · rw [if_pos h1, if_pos (by omega)]
        · rw [if_neg h1]
          by_cases h2 : jj = ii
          · rw [if_pos (by omega), if_neg (by omega), if_pos (by omega)]
          · rw [if_neg (by omega), if_neg (by omega), if_neg (by omega)]
            have hjj : 1 ≤ jj := by omega
            cases jj with
            | zero => omega
            | succ k => simp

section OrderLemmas

variable [LinearOrder K]

theorem OLB_none (k : K) : OLB (none : Option K) k := fun _ h => nomatch h

theorem OUB_none (k : K) : OUB (none : Option K) k := fun _ h => nomatch h

theorem OLB_some {a k : K} : OLB (some a) k ↔ a < k := by
  constructor
  · intro h; exact h a rfl
  · intro h l hl; cases hl; exact h

theorem OUB_some {a k : K} : OUB (some a) k ↔ k < a := by
  constructor
  · intro h; exact h a rfl
  · intro h l hl; cases hl; exact h

theorem OLB_mono {lo : Option K} {a b : K} (h : OLB lo a) (hab : a ≤ b) : OLB lo b :=
  fun l hl => lt_of_lt_of_le (h l hl) hab

theorem OUB_mono {hi : Option K} {a b : K} (h : OUB hi a) (hab : b ≤ a) : OUB hi b :=
  fun u hu => lt_of_le_of_lt hab (h u hu)

theorem KeysB_nil (lo hi : Option K) : KeysB lo hi ([] : List K) :=
  ⟨List.Pairwise.nil, by intro k hk; cases hk⟩

theorem KeysB_singleton {lo hi : Option K} {k : K} (h1 : OLB lo k) (h2 : OUB hi k) :
    KeysB lo hi [k] := by
  refine ⟨List.pairwise_singleton _ _, ?_⟩
  intro x hx
  rw [List.mem_singleton] at hx
  subst hx
  exact ⟨h1, h2⟩

theorem KeysB.mem {lo hi : Option K} {ks : List K} (h : KeysB lo hi ks) {k : K}
    (hk : k ∈ ks) : OLB lo k ∧ OUB hi k := h.2 k hk

theorem KeysB.sublist {lo hi : Option K} {ks ks' : List K} (hs : ks'.Sublist ks)
    (h : KeysB lo hi ks) : KeysB lo hi ks' :=
  ⟨h.1.sublist hs, fun k hk => h.2 k (hs.mem hk)⟩

theorem KeysB.mono {lo hi lo' hi' : Option K} {ks : List K}
    (hlo : ∀ k, OLB lo k → OLB lo' k) (hhi : ∀ k, OUB hi k → OUB hi' k)
    (h : KeysB lo hi ks) : KeysB lo' hi' ks :=
  ⟨h.1, fun k hk => ⟨hlo k (h.2 k hk).1, hhi k (h.2 k hk).2⟩⟩

/-- Strict ascent in `getElem?` form. -/
theorem KeysB.lt_of_getElem? {lo hi : Option K} {ks : List K} (h : KeysB lo hi ks)
    {i j : Nat} {a b : K} (ha : ks[i]? = some a) (hb : ks[j]? = some b) (hij : i < j) :
    a < b := by
  rw [List.getElem?_eq_some] at ha hb
  obtain ⟨hia, ha⟩ := ha
  obtain ⟨hjb, hb⟩ := hb
  subst ha hb
  exact List.pairwise_iff_getElem.mp h.1 i j hia hjb hij

theorem getElem?_lt_length {α : Type u} {l : List α} {n : Nat} {a : α}
    (h : l[n]? = some a) : n < l.length := by
  obtain ⟨h1, _⟩ := List.getElem?_eq_some.mp h
  exact h1

theorem pairwise_lt_of_getElem? {ks : List K}
    (h : ∀ (a b : Nat) (u v : K), ks[a]? = some u → ks[b]? = some v → a < b → u < v) :
    ks.Pairwise (· < ·) := by
  rw [List.pairwise_iff_getElem]
  intro a b ha hb hab
  exact h a b _ _ (List.getElem?_eq_getElem ha) (List.getElem?_eq_getElem hb) hab

/-- Inserting `x` at position `i` preserves `KeysB` when `x` lies between
the neighboring keys (expressed through `lbAt`/`ubAt`) and inside
`(lo, hi)`. -/
theorem KeysB_insertIdx {lo hi : Option K} {ks : List K} {i : Nat} {x : K}
    (h : KeysB lo hi ks) (hle : i ≤ ks.length)
    (hlb : OLB (lbAt lo ks i) x) (hub : OUB (ubAt hi ks i) x)
    (hlo : OLB lo x) (hhi : OUB hi x) :
    KeysB lo hi (ks.insertIdx i x) := by
  constructor
  · refine pairwise_lt_of_getElem? ?_
    intro a b u v hu hv hab
    rw [getElem?_insertIdx_cases _ _ _ _ hle] at hu hv
    by_cases ha1 : a < i
    · rw [if_pos ha1] at hu
      by_cases hb1 : b < i
      · rw [if_pos hb1] at hv
        exact h.lt_of_getElem? hu hv hab
      · rw [if_neg hb1] at hv
        by_cases hb2 : b = i
        · rw [if_pos hb2] at hv
          injection hv with hv
          subst hv
          -- u = ks[a] with a < i, v = x: use hlb through ks[i-1]
          cases i with
          | zero => omega
          | succ ii =>
            have hx : OLB (ks[ii]?) x := hlb
            match hki : ks[ii]? with
            | none =>
              rw [List.getElem?_eq_none_iff] at hki
              have := getElem?_lt_length hu
              omega
            | some w =>
              have hwx : w < x := (hki ▸ hx) w rfl
              rcases Nat.lt_or_ge a ii with hcase | hcase
              · exact lt_trans (h.lt_of_getElem? hu hki hcase) hwx
              · have : a = ii := by omega
                subst this
                rw [hu] at hki
                injection hki with hki
                subst hki
                exact hwx
        · rw [if_neg hb2] at hv
          exact h.lt_of_getElem? hu hv (by omega)
    · rw [if_neg ha1] at hu
      by_cases ha2 : a = i
      · rw [if_pos ha2] at hu
        injection hu with hu
        subst hu
        subst ha2
        -- u = x, v = ks[b-1] with b - 1 ≥ i: use hub through ks[i]
        rw [if_neg (by omega), if_neg (by omega)] at hv
        have hblen : b - 1 < ks.length := getElem?_lt_length hv
        have hilen : a < ks.length := by omega
        have hx : OUB (ubAt hi ks a) x := hub
        unfold ubAt at hx
        rw [if_neg (by omega)] at hx
        have hxa : x < ks[a] :=
          hx _ (List.getElem?_eq_getElem hilen)
        rcases Nat.lt_or_ge a (b - 1) with hcase | hcase
        · exact lt_trans hxa
            (h.lt_of_getElem? (List.getElem?_eq_getElem hilen) hv hcase)
        · have : b - 1 = a := by omega
          subst this
          rw [List.getElem?_eq_getElem hilen] at hv
          injection hv with hv
          subst hv
          exact hxa
      · rw [if_neg ha2] at hu
        rw [if_neg (by omega), if_neg (by omega)] at hv
        exact h.lt_of_getElem? hu hv (by omega)
  · intro k hk
    rw [List.mem_insertIdx hle] at hk
    rcases hk with hk | hk
    · subst hk; exact ⟨hlo, hhi⟩
    · exact h.2 k hk

/-- Replacing key `i` by `x` preserves `KeysB` when `x` lies strictly
between separators `i - 1` and `i + 1` and inside `(lo, hi)`. -/
theorem KeysB_set {lo hi : Option K} {ks : List K} {i : Nat} {x old : K}
    (h : KeysB lo hi ks) (hold : ks[i]? = some old)
    (hlb : OLB (lbAt lo ks i) x) (hub : OUB (ubAt hi ks (i + 1)) x)
    (hlo : OLB lo x) (hhi : OUB hi x) :
    KeysB lo hi (ks.set i x) := by
  have hilen : i < ks.length := getElem?_lt_length hold
  constructor
  · refine pairwise_lt_of_getElem? ?_
    intro a b u v hu hv hab
    rw [List.getElem?_set] at hu hv
    by_cases ha : i = a
    · rw [if_pos ha, if_pos (ha ▸ hilen)] at hu
      injection hu with hu
      subst hu
      subst ha
      rw [if_neg (by omega)] at hv
      -- x < ks[b] for b > i, via ubAt at i+1
      unfold ubAt at hub
      by_cases hli : i + 1 = ks.length
      · have := getElem?_lt_length hv; omega
      · rw [if_neg hli] at hub
        have hblen : b < ks.length := getElem?_lt_length hv
        have hnext : ks[i + 1]? = some ks[i + 1] :=
          List.getElem?_eq_getElem (by omega)
        have hx : x < ks[i + 1] := hub _ hnext
        rcases Nat.lt_or_ge (i + 1) b with hcase | hcase
        · exact lt_trans hx (h.lt_of_getElem? hnext hv hcase)
        · have : b = i + 1 := by omega
          subst this
          rw [hnext] at hv
          injection hv with hv
          subst hv
          exact hx
    · rw [if_neg ha] at hu
      by_cases hb : i = b
      · rw [if_pos hb, if_pos (hb ▸ hilen)] at hv
        injection hv with hv
        subst hv
        subst hb
        -- ks[a] < x for a < i, via lbAt
        cases i with
        | zero => omega
        | succ ii =>
          have hx : OLB (ks[ii]?) x := hlb
          have hprev : ks[ii]? = some ks[ii] := List.getElem?_eq_getElem (by omega)
          have hwx : ks[ii] < x := (hprev ▸ hx) _ rfl
          rcases Nat.lt_or_ge a ii with hcase | hcase
          · exact lt_trans (h.lt_of_getElem? hu hprev hcase) hwx
          · have : a = ii := by omega
            subst this
            rw [hprev] at hu
            injection hu with hu
            subst hu
            exact hwx
      · rw [if_neg hb] at hv
        exact h.lt_of_getElem? hu hv hab
  · intro k hk
    rcases List.mem_or_eq_of_mem_set hk with hk | hk
    · exact h.2 k hk
    · subst hk; exact ⟨hlo, hhi⟩

/-- Splitting a bounded ascending list at position `i`: the prefix is
bounded by the pivot above, the suffix below, and the pivot lies in
`(lo, hi)`. -/
theorem KeysB_split_piece {lo hi : Option K} {ks : List K} {i : Nat} {s : K}
    (h : KeysB lo hi ks) (hs : ks[i]? = some s) :
    KeysB lo (some s) (ks.take i) ∧ KeysB (some s) hi (ks.drop (i + 1)) ∧
    OLB lo s ∧ OUB hi s := by
  have hmem := h.2 s (List.getElem?_mem hs)
  refine ⟨⟨h.1.sublist (List.take_sublist _ _), ?_⟩,
          ⟨h.1.sublist (List.drop_sublist _ _), ?_⟩, hmem.1, hmem.2⟩
  · intro k hk
    rw [List.mem_iff_getElem?] at hk
    obtain ⟨j, hj⟩ := hk
    rw [List.getElem?_take] at hj
    by_cases hji : j < i
    · rw [if_pos hji] at hj
      refine ⟨(h.2 k (List.getElem?_mem hj)).1, ?_⟩
      rw [OUB_some]
      exact h.lt_of_getElem? hj hs hji
    · rw [if_neg hji] at hj; cases hj
  · intro k hk
    rw [List.mem_iff_getElem?] at hk
    obtain ⟨j, hj⟩ := hk
    rw [List.getElem?_drop] at hj
    refine ⟨?_, (h.2 k (List.getElem?_mem hj)).2⟩
    rw [OLB_some]
    exact h.lt_of_getElem? hs hj (by omega)

/-- Decomposition of a bounded ascending list at its head. -/
theorem KeysB_cons {lo hi : Option K} {k : K} {ks : List K} :
    KeysB lo hi (k :: ks) ↔ OLB lo k ∧ OUB hi k ∧ KeysB (some k) hi ks := by
  constructor
  · intro h
    obtain ⟨hp, hbd⟩ := h
    have hk := hbd k (List.mem_cons_self _ _)
    rw [List.pairwise_cons] at hp
    refine ⟨hk.1, hk.2, hp.2, ?_⟩
    intro x hx
    exact ⟨OLB_some.mpr (hp.1 x hx), (hbd x (List.mem_cons_of_mem _ hx)).2⟩
  · intro ⟨h1, h2, h3⟩
    constructor
    · rw [List.pairwise_cons]
      exact ⟨fun x hx => OLB_some.mp (h3.2 x hx).1, h3.1⟩
    · intro x hx
      rcases List.mem_cons.mp hx with hx | hx
      · subst hx; exact ⟨h1, h2⟩
      · have := h3.2 x hx
        exact ⟨fun l hl => lt_trans (h1 l hl) (OLB_some.mp this.1), this.2⟩

/-- Decomposition of a bounded ascending list at its last element. -/
theorem KeysB_concat {lo hi : Option K} {k : K} {ks : List K} :
    KeysB lo hi (ks ++ [k]) ↔ KeysB lo (some k) ks ∧ OLB lo k ∧ OUB hi k := by
  constructor
  · intro h
    obtain ⟨hp, hbd⟩ := h
    have hk := hbd k (by simp)
    rw [List.pairwise_append] at hp
    refine ⟨⟨hp.1, ?_⟩, hk.1, hk.2⟩
    intro x hx
    refine ⟨(hbd x (by simp [hx])).1, OUB_some.mpr ?_⟩
    exact hp.2.2 x hx k (by simp)
  · intro ⟨h1, h2, h3⟩
    constructor
    · rw [List.pairwise_append]
      refine ⟨h1.1, List.pairwise_singleton _ _, ?_⟩
      intro x hx y hy
      rw [List.mem_singleton] at hy
      subst hy
      exact OUB_some.mp (h1.2 x hx).2
    · intro x hx
      rw [List.mem_append, List.mem_singleton] at hx
      rcases hx with hx | hx
      · have := h1.2 x hx
        exact ⟨this.1, fun u hu => lt_trans (OUB_some.mp this.2) (h3 u hu)⟩
      · subst hx; exact ⟨h2, h3⟩

/-- Decomposition of a bounded ascending list around a middle separator
(the shape produced by merging two siblings). -/
theorem KeysB_append_sep {lo hi : Option K} {s : K} {a b : List K} :
    KeysB lo hi (a ++ s :: b) ↔
      KeysB lo (some s) a ∧ OLB lo s ∧ OUB hi s ∧ KeysB (some s) hi b := by
  constructor
  · intro h
    obtain ⟨hp, hbd⟩ := h
    have hs := hbd s (by simp)
    rw [List.pairwise_append] at hp
    have hsb : KeysB lo hi (s :: b) := ⟨hp.2.1, fun x hx => hbd x (by simp [hx])⟩
    refine ⟨⟨hp.1, ?_⟩, hs.1, hs.2, (KeysB_cons.mp hsb).2.2⟩
    intro x hx
    refine ⟨(hbd x (by simp [hx])).1, OUB_some.mpr ?_⟩
    exact hp.2.2 x hx s (by simp)
  · intro ⟨h1, h2, h3, h4⟩
    constructor
    · rw [List.pairwise_append]
      refine ⟨h1.1, (KeysB_cons.mpr ⟨h2, h3, h4⟩).1, ?_⟩
      intro x hx y hy
      have hxs : x < s := OUB_some.mp (h1.2 x hx).2
      rcases List.mem_cons.mp hy with hy | hy
      · subst hy; exact hxs
      · exact lt_trans hxs (OLB_some.mp (h4.2 y hy).1)
    · intro x hx
      rw [List.mem_append] at hx
      rcases hx with hx | hx
      · have := h1.2 x hx
        exact ⟨this.1, fun u hu => lt_trans (OUB_some.mp this.2) (h3 u hu)⟩
      · rcases List.mem_cons.mp hx with hx | hx
        · subst hx; exact ⟨h2, h3⟩
        · have := h4.2 x hx
          exact ⟨fun l hl => lt_trans (h2 l hl) (OLB_some.mp this.1), this.2⟩

theorem Ordd_leaf {lo hi : Option K} {kvs : List (K × V)} :
    Ordd lo hi (.leaf kvs : BNode K V) ↔ KeysB lo hi (keysOf kvs) := by
  simp only [Ordd]

theorem Ordd_node {lo hi : Option K} {kvs : List (K × V)} {ch : List (BNode K V)} :
    Ordd lo hi (.node kvs ch) ↔
      KeysB lo hi (keysOf kvs) ∧
      ∀ i c, ch[i]? = some c →
        Ordd (lbAt lo (keysOf kvs) i) (ubAt hi (keysOf kvs) i) c := by
  simp only [Ordd]

/-- Bound weakening: enlarging the interval `(lo, hi)` preserves `Ordd`. -/
theorem Ordd_mono (t : BNode K V) : ∀ {lo hi lo' hi' : Option K},
    (∀ k, OLB lo k → OLB lo' k) → (∀ k, OUB hi k → OUB hi' k) →
    Ordd lo hi t → Ordd lo' hi' t := by
  induction t using sizeOf_strongInd with
  | ih t IH =>
    cases t with
    | leaf kvs =>
      intro lo hi lo' hi' hlo hhi h
      rw [Ordd_leaf] at h ⊢
      exact h.mono hlo hhi
    | node kvs ch =>
      intro lo hi lo' hi' hlo hhi h
      rw [Ordd_node] at h ⊢
      refine ⟨h.1.mono hlo hhi, ?_⟩
      intro i c hc
      have hrec := h.2 i c hc
      have hlo2 : ∀ k, OLB (lbAt lo (keysOf kvs) i) k → OLB (lbAt lo' (keysOf kvs) i) k := by
        cases i with
        | zero => exact hlo
        | succ j => exact fun k hk => hk
      have hhi2 : ∀ k, OUB (ubAt hi (keysOf kvs) i) k → OUB (ubAt hi' (keysOf kvs) i) k := by
        unfold ubAt
        by_cases hlen : i = (keysOf kvs).length
        · simp only [if_pos hlen]; exact hhi
        · simp only [if_neg hlen]; exact fun k hk => hk
      exact IH c (sizeOf_lt_of_mem_children (List.getElem?_mem hc)) hlo2 hhi2 hrec

theorem SizeOk_leaf {b : Bool} {kvs : List (K × V)} :
    SizeOk b (.leaf kvs : BNode K V) ↔
      (b = true ∨ MIN_NUM_ELEMENTS ≤ kvs.length) ∧ kvs.length ≤ MAX_NUM_ELEMENTS := by
  simp only [SizeOk]

theorem SizeOk_node {b : Bool} {kvs : List (K × V)} {ch : List (BNode K V)} :
    SizeOk b (.node kvs ch) ↔
      (b = true ∨ MIN_NUM_ELEMENTS ≤ kvs.length) ∧ 1 ≤ kvs.length ∧
      kvs.length ≤ MAX_NUM_ELEMENTS ∧ ch.length = kvs.length + 1 ∧
      ∀ c ∈ ch, SizeOk false c := by
  simp only [SizeOk]

theorem Bal_leaf {h : Nat} {kvs : List (K × V)} :
    Bal h (.leaf kvs : BNode K V) ↔ h = 1 := by
  simp only [Bal]

theorem Bal_node {h : Nat} {kvs : List (K × V)} {ch : List (BNode K V)} :
    Bal h (.node kvs ch) ↔ 2 ≤ h ∧ ∀ c ∈ ch, Bal (h - 1) c := by
  simp only [Bal]

/-- Under `Bal`, siblings of height 1 are leaves and of height ≥ 2 are
internal nodes (the `Nodes`/`Leafs` homogeneity of the source). -/
theorem Bal_one_leaf {t : BNode K V} (h : Bal 1 t) : ∃ kvs, t = .leaf kvs := by
  cases t with
  | leaf kvs => exact ⟨kvs, rfl⟩
  | node kvs ch => rw [Bal_node] at h; omega

theorem Bal_ge_two_node {h : Nat} {t : BNode K V} (hh : 2 ≤ h) (hb : Bal h t) :
    ∃ kvs ch, t = .node kvs ch := by
  cases t with
  | leaf kvs => rw [Bal_leaf] at hb; omega
  | node kvs ch => exact ⟨kvs, ch, rfl⟩

/-!
### Scan specifications
-/

theorem scanNode_found {key : K} {kvs : List (K × V)} {i : Nat}
    (h : scanNode key kvs = .found i) :
    (∃ v, kvs[i]? = some (key, v)) ∧ ∀ j p, j < i → kvs[j]? = some p → p.1 < key := by
  induction kvs generalizing i with
  | nil => simp [scanNode] at h
  | cons q rest ih =>
    obtain ⟨k, w⟩ := q
    unfold scanNode at h
    by_cases h1 : key < k
    · rw [if_pos h1] at h; cases h
    · rw [if_neg h1] at h
      by_cases h2 : key = k
      · rw [if_pos h2] at h
        injection h with h
        subst h
        subst h2
        exact ⟨⟨w, by simp⟩, fun j p hj => by omega⟩
      · rw [if_neg h2] at h
        have hk : k < key := lt_of_le_of_ne (not_lt.mp h1) (fun he => h2 he.symm)
        match hrec : scanNode key rest with
        | .found ii =>
          rw [hrec] at h
          injection h with h
          subst h
          obtain ⟨⟨v, hv⟩, hbefore⟩ := ih hrec
          refine ⟨⟨v, by simpa using hv⟩, ?_⟩
          intro j p hj hp
          cases j with
          | zero =>
            simp only [List.getElem?_cons_zero] at hp
            injection hp with hp
            subst hp
            exact hk
          | succ jj =>
            simp only [List.getElem?_cons_succ] at hp
            exact hbefore jj p (by omega) hp
        | .descend ii => rw [hrec] at h; cases h

theorem scanNode_descend {key : K} {kvs : List (K × V)} {i : Nat}
    (h : scanNode key kvs = .descend i) :
    i ≤ kvs.length ∧ (∀ j p, j < i → kvs[j]? = some p → p.1 < key) ∧
    (∀ p, kvs[i]? = some p → key < p.1) := by
  induction kvs generalizing i with
  | nil =>
    unfold scanNode at h
    injection h with h
    subst h
    exact ⟨by simp, fun j p hj => by omega, fun p hp => by simp at hp⟩
  | cons q rest ih =>
    obtain ⟨k, w⟩ := q
    unfold scanNode at h
    by_cases h1 : key < k
    · rw [if_pos h1] at h
      injection h with h
      subst h
      refine ⟨by simp, fun j p hj => by omega, ?_⟩
      intro p hp
      simp only [List.getElem?_cons_zero] at hp
      injection hp with hp
      subst hp
      exact h1
    · rw [if_neg h1] at h
      by_cases h2 : key = k
      · rw [if_pos h2] at h; cases h
      · rw [if_neg h2] at h
        have hk : k < key := lt_of_le_of_ne (not_lt.mp h1) (fun he => h2 he.symm)
        match hrec : scanNode key rest with
        | .found ii => rw [hrec] at h; cases h
        | .descend ii =>
          rw [hrec] at h
          injection h with h
          subst h
          obtain ⟨hlen, hbefore, hat⟩ := ih hrec
          refine ⟨by simp; omega, ?_, ?_⟩
          · intro j p hj hp
            cases j with
            | zero =>
              simp only [List.getElem?_cons_zero] at hp
              injection hp with hp
              subst hp
              exact hk
            | succ jj =>
              simp only [List.getElem?_cons_succ] at hp
              exact hbefore jj p (by omega) hp
          · intro p hp
            simp only [List.getElem?_cons_succ] at hp
            exact hat p hp

/-- The bounds a `descend i` result implies for the key relative to child
`i`'s interval. -/
theorem scanNode_descend_bounds {lo hi : Option K} {key : K} {kvs : List (K × V)}
    {i : Nat} (h : scanNode key kvs = .descend i)
    (hlo : OLB lo key) (hhi : OUB hi key) :
    OLB (lbAt lo (keysOf kvs) i) key ∧ OUB (ubAt hi (keysOf kvs) i) key := by
  obtain ⟨hlen, hbefore, hat⟩ := scanNode_descend h
  constructor
  · cases i with
    | zero => exact hlo
    | succ j =>
      show OLB ((keysOf kvs)[j]?) key
      intro l hl
      rw [keysOf_getElem?] at hl
      match hp : kvs[j]? with
      | none => rw [hp] at hl; cases hl
      | some p =>
        rw [hp] at hl
        injection hl with hl
        subst hl
        exact hbefore j p (by omega) hp
  · unfold ubAt
    by_cases hl2 : i = (keysOf kvs).length
    · rw [if_pos hl2]; exact hhi
    · rw [if_neg hl2]
      intro u hu
      rw [keysOf_getElem?] at hu
      match hp : kvs[i]? with
      | none => rw [hp] at hu; cases hu
      | some p =>
        rw [hp] at hu
        injection hu with hu
        subst hu
        exact hat p hp

/-!
### Leaf-level operation specs
-/

theorem setValueAt_spec (v : V) : ∀ (kvs : List (K × V)) (i : Nat),
    keysOf (setValueAt v kvs i).2 = keysOf kvs ∧
    (setValueAt v kvs i).2.length = kvs.length := by
  intro kvs
  induction kvs with
  | nil => intro i; simp [setValueAt]
  | cons q rest ih =>
    intro i
    cases i with
    | zero => obtain ⟨k, w⟩ := q; simp [setValueAt, keysOf]
    | succ j =>
      obtain ⟨ha, hb⟩ := ih j
      simp only [keysOf] at ha
      simp [setValueAt, keysOf, ha, hb]

theorem insertLeaf_spec (key : K) (v : V) :
    ∀ (kvs : List (K × V)) (lo hi : Option K), KeysB lo hi (keysOf kvs) →
      OLB lo key → OUB hi key →
      match insertLeaf key v kvs with
      | .replaced _ kvs' => keysOf kvs' = keysOf kvs
      | .inserted kvs' =>
          KeysB lo hi (keysOf kvs') ∧ kvs'.length = kvs.length + 1 := by
  intro kvs
  induction kvs with
  | nil =>
    intro lo hi hK hlo hhi
    simp only [insertLeaf]
    exact ⟨by simpa [keysOf] using KeysB_singleton hlo hhi, rfl⟩
  | cons q rest ih =>
    intro lo hi hK hlo hhi
    obtain ⟨k, w⟩ := q
    simp only [keysOf, List.map_cons] at hK
    rw [KeysB_cons] at hK
    obtain ⟨hk1, hk2, hrest⟩ := hK
    unfold insertLeaf
    by_cases h1 : key < k
    · rw [if_pos h1]
      refine ⟨?_, by simp⟩
      simp only [keysOf, List.map_cons]
      rw [KeysB_cons]
      refine ⟨hlo, hhi, ?_⟩
      rw [KeysB_cons]
      exact ⟨OLB_some.mpr h1, hk2, hrest⟩
    · rw [if_neg h1]
      by_cases h2 : key = k
      · rw [if_pos h2]
        simp [keysOf]
      · rw [if_neg h2]
        have hk : k < key := lt_of_le_of_ne (not_lt.mp h1) fun he => h2 he.symm
        have hih := ih (some k) hi hrest (OLB_some.mpr hk) hhi
        cases hres : insertLeaf key v rest with
        | replaced old rest' =>
          rw [hres] at hih
          simp only [keysOf, List.map_cons]
          simp only [keysOf] at hih
          rw [hih]
        | inserted rest' =>
          rw [hres] at hih
          obtain ⟨hKB, hlen⟩ := hih
          refine ⟨?_, by simp [hlen]⟩
          simp only [keysOf, List.map_cons]
          rw [KeysB_cons]
          exact ⟨hk1, hk2, hKB⟩

theorem removeLeaf_spec (key : K) :
    ∀ (kvs : List (K × V)),
      match removeLeaf key kvs with
      | none => True
      | some (_, kvs') =>
          (keysOf kvs').Sublist (keysOf kvs) ∧ kvs'.length + 1 = kvs.length := by
  intro kvs
  induction kvs with
  | nil => simp [removeLeaf]
  | cons q rest ih =>
    obtain ⟨k, w⟩ := q
    unfold removeLeaf
    by_cases h1 : key < k
    · rw [if_pos h1]; trivial
    · rw [if_neg h1]
      by_cases h2 : key = k
      · rw [if_pos h2]
        exact ⟨by simp [keysOf], by simp⟩
      · rw [if_neg h2]
        cases hres : removeLeaf key rest with
        | none => trivial
        | some p =>
          obtain ⟨kv, rest'⟩ := p
          rw [hres] at ih
          refine ⟨?_, by simp; omega⟩
          have hsub := ih.1
          simp only [keysOf, List.map_cons] at *
          exact List.Sublist.cons₂ _ hsub

theorem OLB_of_lbAt {lo hi : Option K} {ks : List K} {i : Nat} {k : K}
    (hK : KeysB lo hi ks) (hle : i ≤ ks.length) (h : OLB (lbAt lo ks i) k) :
    OLB lo k := by
  cases i with
  | zero => exact h
  | succ j =>
    have hj : ks[j]? = some ks[j] := List.getElem?_eq_getElem (by omega)
    have hjk : ks[j] < k := (show OLB (ks[j]?) k from h) _ hj
    have hmem := (hK.2 ks[j] (List.getElem?_mem hj)).1
    exact fun l hl => lt_trans (hmem l hl) hjk

theorem OUB_of_ubAt {lo hi : Option K} {ks : List K} {i : Nat} {k : K}
    (hK : KeysB lo hi ks) (hle : i ≤ ks.length) (h : OUB (ubAt hi ks i) k) :
    OUB hi k := by
  unfold ubAt at h
  by_cases hlen : i = ks.length
  · rw [if_pos hlen] at h; exact h
  · rw [if_neg hlen] at h
    have hj : ks[i]? = some ks[i] := List.getElem?_eq_getElem (by omega)
    have hik : k < ks[i] := h _ hj
    have hmem := (hK.2 ks[i] (List.getElem?_mem hj)).2
    exact fun u hu => lt_trans hik (hmem u hu)

end OrderLemmas

theorem B_eq : B = 6 := rfl

theorem MIN_eq : MIN_NUM_ELEMENTS = 5 := rfl

theorem MAX_eq : MAX_NUM_ELEMENTS = 11 := rfl

section InsertSpec

variable [LinearOrder K]

/-- The outcome contract of one `insert` descent step; see
`insertGo_spec`. -/
def InsOut (h : Nat) (isRoot : Bool) (lo hi : Option K) : InsRes K V → Prop
  | .replaced _ _ t' => Bal h t' ∧ SizeOk isRoot t' ∧ Ordd lo hi t'
  | .ok t' => Bal h t' ∧ SizeOk isRoot t' ∧ Ordd lo hi t'
  | .split l sk _ r =>
      Bal h l ∧ Bal h r ∧ SizeOk false l ∧ SizeOk false r ∧
      Ordd lo (some sk) l ∧ Ordd (some sk) hi r ∧ OLB lo sk ∧ OUB hi sk

/-- The leaf case of the insert step. -/
theorem insertGo_leaf_spec {key : K} {v : V} {kvs : List (K × V)} {isRoot : Bool}
    {lo hi : Option K} (hsz : SizeOk isRoot (.leaf kvs : BNode K V))
    (hord : Ordd lo hi (.leaf kvs : BNode K V))
    (hlo : OLB lo key) (hhi : OUB hi key) :
    InsOut 1 isRoot lo hi (insertGo key v (.leaf kvs)) := by
  rw [SizeOk_leaf] at hsz
  rw [Ordd_leaf] at hord
  have hspec := insertLeaf_spec key v kvs lo hi hord hlo hhi
  cases hres : insertLeaf key v kvs with
  | replaced old kvs' =>
    rw [hres] at hspec
    simp only [insertGo, hres]
    have hlen : kvs'.length = kvs.length := by
      have := congrArg List.length hspec
      simpa [keysOf_length] using this
    refine ⟨Bal_leaf.mpr rfl, SizeOk_leaf.mpr ⟨?_, by omega⟩,
      Ordd_leaf.mpr (hspec ▸ hord)⟩
    rcases hsz.1 with hr | hr
    · exact Or.inl hr
    · exact Or.inr (by omega)
  | inserted kvs' =>
    rw [hres] at hspec
    simp only [insertGo, hres]
    obtain ⟨hKB, hlen⟩ := hspec
    by_cases hfit : kvs'.length ≤ MAX_NUM_ELEMENTS
    · rw [if_pos hfit]
      refine ⟨Bal_leaf.mpr rfl, SizeOk_leaf.mpr ⟨?_, hfit⟩, Ordd_leaf.mpr hKB⟩
      rcases hsz.1 with hr | hr
      · exact Or.inl hr
      · exact Or.inr (by omega)
    · rw [if_neg hfit]
      have hlen12 : kvs'.length = 12 := by
        rw [MAX_eq] at *; omega
      cases hdrop : kvs'.drop B with
      | nil =>
        exfalso
        have := congrArg List.length hdrop
        simp [B_eq, hlen12] at this
      | cons sep right =>
        have hsep : kvs'[B]? = some sep := by
          have h0 : (kvs'.drop B)[0]? = kvs'[B]? := by
            rw [List.getElem?_drop, Nat.add_zero]
          rw [hdrop] at h0
          simpa using h0.symm
        have hright : right = kvs'.drop (B + 1) := by
          have : (kvs'.drop B).tail = kvs'.drop (B + 1) := by
            rw [← List.drop_one, List.drop_drop]
          rw [hdrop] at this
          simpa using this
        have hsepk : (keysOf kvs')[B]? = some sep.1 := by
          rw [keysOf_getElem?, hsep]; rfl
        obtain ⟨hKl, hKr, hlosep, hhisep⟩ := KeysB_split_piece hKB hsepk
        have hlenTake : (kvs'.take B).length = 6 := by
          simp [B_eq, hlen12]
        have hlenDrop : (kvs'.drop (B + 1)).length = 5 := by
          simp [B_eq, hlen12]
        subst hright
        refine ⟨Bal_leaf.mpr rfl, Bal_leaf.mpr rfl,
          SizeOk_leaf.mpr (by rw [MIN_eq, MAX_eq]; omega),
          SizeOk_leaf.mpr (by rw [MIN_eq, MAX_eq]; omega),
          Ordd_leaf.mpr ?_, Ordd_leaf.mpr ?_, hlosep, hhisep⟩
        · rw [keysOf_take]; exact hKl
        · rw [keysOf_drop]; exact hKr

/-- Children of the left half of a node split keep their bounds: under the
separator `ks[m]`, child `j < m + 1` of the original node becomes child `j`
of the left node with keys `ks.take m`. -/
theorem ordc_take {lo hi : Option K} {ks : List K} {ch : List (BNode K V)} {m : Nat}
    {s : K} (hm : ks[m]? = some s)
    (hF : ∀ j x, ch[j]? = some x → Ordd (lbAt lo ks j) (ubAt hi ks j) x) :
    ∀ j x, (ch.take (m + 1))[j]? = some x →
      Ordd (lbAt lo (ks.take m) j) (ubAt (some s) (ks.take m) j) x := by
  have hmlen : m < ks.length := getElem?_lt_length hm
  intro j x hx
  rw [List.getElem?_take] at hx
  by_cases hj : j < m + 1
  · rw [if_pos hj] at hx
    have hres := hF j x hx
    have hlb : lbAt lo (ks.take m) j = lbAt lo ks j := by
      cases j with
      | zero => rfl
      | succ jj =>
        show (ks.take m)[jj]? = ks[jj]?
        rw [List.getElem?_take, if_pos (by omega)]
    have hub : ubAt (some s) (ks.take m) j = ubAt hi ks j := by
      unfold ubAt
      have hlt : (ks.take m).length = m := by
        rw [List.length_take]; omega
      by_cases hjm : j = m
      · rw [if_pos (by omega), if_neg (by omega)]
        subst hjm
        exact hm.symm
      · rw [if_neg (by omega), if_neg (by omega), List.getElem?_take,
          if_pos (by omega)]
    rw [hlb, hub]
    exact hres
  · rw [if_neg hj] at hx; cases hx

/-- Children of the right half of a node split keep their bounds: above the
separator `ks[m]`, child `m + 1 + j` of the original node becomes child `j`
of the right node with keys `ks.drop (m + 1)`. -/
theorem ordc_drop {lo hi : Option K} {ks : List K} {ch : List (BNode K V)} {m : Nat}
    {s : K} (hm : ks[m]? = some s) (hchlen : ch.length = ks.length + 1)
    (hF : ∀ j x, ch[j]? = some x → Ordd (lbAt lo ks j) (ubAt hi ks j) x) :
    ∀ j x, (ch.drop (m + 1))[j]? = some x →
      Ordd (lbAt (some s) (ks.drop (m + 1)) j) (ubAt hi (ks.drop (m + 1)) j) x := by
  have hmlen : m < ks.length := getElem?_lt_length hm
  intro j x hx
  rw [List.getElem?_drop] at hx
  have hres := hF (m + 1 + j) x hx
  have hjlen : m + 1 + j < ch.length := getElem?_lt_length hx
  have hlb : lbAt (some s) (ks.drop (m + 1)) j = lbAt lo ks (m + 1 + j) := by
    cases j with
    | zero =>
      show some s = ks[m + 1 + 0 - 1]?
      simp only [Nat.add_zero, Nat.add_sub_cancel]
      exact hm.symm
    | succ jj =>
      show (ks.drop (m + 1))[jj]? = ks[m + 1 + (jj + 1) - 1]?
      rw [List.getElem?_drop]
      have he : m + 1 + (jj + 1) - 1 = m + 1 + jj := by omega
      rw [he]
  have hub : ubAt hi (ks.drop (m + 1)) j = ubAt hi ks (m + 1 + j) := by
    unfold ubAt
    have hdl : (ks.drop (m + 1)).length = ks.length - (m + 1) := by
      rw [List.length_drop]
    by_cases hje : j = ks.length - (m + 1)
    · rw [if_pos (by omega), if_pos (by omega)]
    · rw [if_neg (by omega), if_neg (by omega), List.getElem?_drop]
  rw [hlb, hub]
  have : lbAt lo ks (m + 1 + j) = lbAt lo ks (m + 1 + j) := rfl
  exact hres

/-- Children bounds after replacing child `i` by the split pair
`l, sk, r`: the child list `(ch.set i l).insertIdx (i+1) r` is ordered
against the key list `ks.insertIdx i sk`. -/
theorem ordc_insert_split {lo hi : Option K} {ks : List K} {ch : List (BNode K V)}
    {i : Nat} {l r : BNode K V} {sk : K}
    (hchlen : ch.length = ks.length + 1) (hile : i ≤ ks.length)
    (hordc : ∀ j x, ch[j]? = some x → Ordd (lbAt lo ks j) (ubAt hi ks j) x)
    (hOl : Ordd (lbAt lo ks i) (some sk) l)
    (hOr : Ordd (some sk) (ubAt hi ks i) r) :
    ∀ j x, ((ch.set i l).insertIdx (i + 1) r)[j]? = some x →
      Ordd (lbAt lo (ks.insertIdx i sk) j) (ubAt hi (ks.insertIdx i sk) j) x := by
  intro j x hx
  have hsetlen : (ch.set i l).length = ks.length + 1 := by
    rw [List.length_set]; omega
  have hks2len : (ks.insertIdx i sk).length = ks.length + 1 :=
    List.length_insertIdx _ _ hile
  rw [getElem?_insertIdx_cases _ _ _ _ (by omega)] at hx
  have hks2get : ∀ m, (ks.insertIdx i sk)[m]? =
      if m < i then ks[m]? else if m = i then some sk else ks[m - 1]? :=
    fun m => getElem?_insertIdx_cases _ _ _ _ hile
  by_cases hj1 : j < i + 1
  · rw [if_pos hj1] at hx
    rw [List.getElem?_set] at hx
    by_cases hj2 : i = j
    · -- x = l
      subst hj2
      rw [if_pos rfl, if_pos (by omega)] at hx
      injection hx with hx
      subst hx
      have hlb : lbAt lo (ks.insertIdx i sk) i = lbAt lo ks i := by
        cases i with
        | zero => rfl
        | succ ii =>
          show (ks.insertIdx (ii + 1) sk)[ii]? = ks[ii]?
          rw [hks2get, if_pos (by omega)]
      have hub : ubAt hi (ks.insertIdx i sk) i = some sk := by
        unfold ubAt
        rw [if_neg (by omega), hks2get, if_neg (by omega), if_pos rfl]
      rw [hlb, hub]
      exact hOl
    · -- old child j < i
      rw [if_neg hj2] at hx
      have hres := hordc j x hx
      have hjlt : j < i := by omega
      have hlb : lbAt lo (ks.insertIdx i sk) j = lbAt lo ks j := by
        cases j with
        | zero => rfl
        | succ jj =>
          show (ks.insertIdx i sk)[jj]? = ks[jj]?
          rw [hks2get, if_pos (by omega)]
      have hub : ubAt hi (ks.insertIdx i sk) j = ubAt hi ks j := by
        unfold ubAt
        rw [if_neg (by omega), if_neg (by omega), hks2get, if_pos (by omega)]
      rw [hlb, hub]
      exact hres
  · rw [if_neg hj1] at hx
    by_cases hj3 : j = i + 1
    · -- x = r
      rw [if_pos hj3] at hx
      injection hx with hx
      subst hx
      subst hj3
      have hlb : lbAt (lo) (ks.insertIdx i sk) (i + 1) = some sk := by
        show (ks.insertIdx i sk)[i]? = some sk
        rw [hks2get, if_neg (by omega), if_pos rfl]
      have hub : ubAt hi (ks.insertIdx i sk) (i + 1) = ubAt hi ks i := by
        unfold ubAt
        by_cases hie : i = ks.length
        · rw [if_pos (by omega), if_pos hie]
        · rw [if_neg (by omega), if_neg hie, hks2get, if_neg (by omega),
            if_neg (by omega)]
          have he : i + 1 - 1 = i := by omega
          rw [he]
      rw [hlb, hub]
      exact hOr
    · -- old child j - 1 > i
      rw [if_neg hj3] at hx
      rw [List.getElem?_set, if_neg (by omega)] at hx
      have hres := hordc (j - 1) x hx
      have hjge : i + 2 ≤ j := by omega
      have hlb : lbAt lo (ks.insertIdx i sk) j = lbAt lo ks (j - 1) := by
        cases j with
        | zero => omega
        | succ jj =>
          show (ks.insertIdx i sk)[jj]? = lbAt lo ks (jj + 1 - 1)
          rw [hks2get, if_neg (by omega), if_neg (by omega)]
          have hjj : 1 ≤ jj := by omega
          cases jj with
          | zero => omega
          | succ kk =>
            show ks[kk]? = lbAt lo ks (kk + 1)
            rfl
      have hub : ubAt hi (ks.insertIdx i sk) j = ubAt hi ks (j - 1) := by
        unfold ubAt
        by_cases hje : j = ks.length + 1
        · rw [if_pos (by omega), if_pos (by omega)]
        · rw [if_neg (by omega), if_neg (by omega), hks2get, if_neg (by omega),
            if_neg (by omega)]
      rw [hlb, hub]
      exact hres

theorem setValueAt_fst_some (v : V) :
    ∀ (kvs : List (K × V)) (i : Nat), i < kvs.length →
      ∃ old, (setValueAt v kvs i).1 = some old := by
  intro kvs
  induction kvs with
  | nil => intro i h; simp at h
  | cons q rest ih =>
    intro i h
    cases i with
    | zero => obtain ⟨k, w⟩ := q; exact ⟨w, rfl⟩
    | succ j =>
      obtain ⟨old, hold⟩ := ih j (by simpa using Nat.lt_of_succ_lt_succ h)
      exact ⟨old, by simpa [setValueAt] using hold⟩

theorem Bal_pos {h : Nat} {t : BNode K V} (hb : Bal h t) : 1 ≤ h := by
  cases t with
  | leaf kvs => rw [Bal_leaf] at hb; omega
  | node kvs ch => rw [Bal_node] at hb; omega

/-- Replacing child `i` (same key list) preserves the children bounds. -/
theorem ordc_set {lo hi : Option K} {ks : List K} {ch : List (BNode K V)} {i : Nat}
    {c' : BNode K V}
    (hordc : ∀ j x, ch[j]? = some x → Ordd (lbAt lo ks j) (ubAt hi ks j) x)
    (hc' : Ordd (lbAt lo ks i) (ubAt hi ks i) c') :
    ∀ j x, (ch.set i c')[j]? = some x → Ordd (lbAt lo ks j) (ubAt hi ks j) x := by
  intro j x hx
  rw [List.getElem?_set] at hx
  by_cases hij : i = j
  · rw [if_pos hij] at hx
    by_cases hlen : i < ch.length
    · rw [if_pos hlen] at hx
      injection hx with hx
      subst hx
      exact hij ▸ hc'
    · rw [if_neg hlen] at hx; cases hx
  · rw [if_neg hij] at hx
    exact hordc j x hx

/-- The insert step on a subtree preserves balance, sizes and order, and a
`split` result hands up two well-formed halves around an in-range
separator. -/
theorem insertGo_spec (key : K) (v : V) (t : BNode K V) :
    ∀ {h : Nat} {isRoot : Bool} {lo hi : Option K},
      Bal h t → SizeOk isRoot t → Ordd lo hi t → OLB lo key → OUB hi key →
      InsOut h isRoot lo hi (insertGo key v t) := by
  induction t using sizeOf_strongInd with
  | ih t IH =>
    cases t with
    | leaf kvs =>
      intro h isRoot lo hi hbal hsz hord hlo hhi
      have h1 : h = 1 := Bal_leaf.mp hbal
      subst h1
      exact insertGo_leaf_spec hsz hord hlo hhi
    | node kvs ch =>
      intro h isRoot lo hi hbal hsz hord hlo hhi
      rw [Bal_node] at hbal
      rw [SizeOk_node] at hsz
      rw [Ordd_node] at hord
      obtain ⟨hh2, hbalc⟩ := hbal
      obtain ⟨hminr, hmin1, hmax, hchlen, hszc⟩ := hsz
      obtain ⟨hKB, hordc⟩ := hord
      cases hscan : scanNode key kvs with
      | found i =>
        simp only [insertGo, hscan]
        obtain ⟨⟨v0, hv0⟩, _⟩ := scanNode_found hscan
        have hilen : i < kvs.length := getElem?_lt_length hv0
        obtain ⟨hkeq, hleneq⟩ := setValueAt_spec v kvs i
        obtain ⟨old0, hold0⟩ := setValueAt_fst_some v kvs i hilen
        cases hsv : setValueAt v kvs i with
        | mk o kvs' =>
          have hkeq2 : keysOf kvs' = keysOf kvs := by rw [← hkeq, hsv]
          have hleneq2 : kvs'.length = kvs.length := by rw [← hleneq, hsv]
          cases o with
          | none => rw [hsv] at hold0; cases hold0
          | some old =>
            refine ⟨Bal_node.mpr ⟨hh2, hbalc⟩,
              SizeOk_node.mpr ⟨?_, by omega, by omega, by omega, hszc⟩,
              Ordd_node.mpr ⟨hkeq2 ▸ hKB, ?_⟩⟩
            · rcases hminr with hr | hr
              · exact Or.inl hr
              · exact Or.inr (by omega)
            · rw [hkeq2]
              exact hordc
      | descend i =>
        simp only [insertGo, hscan]
        obtain ⟨hile, _, _⟩ := scanNode_descend hscan
        have hich : i < ch.length := by omega
        split
        · rename_i hchn
          exfalso
          rw [List.getElem?_eq_none_iff] at hchn
          omega
        · rename_i c hch
          have hcmem : c ∈ ch := List.getElem?_mem hch
          have hbc : Bal (h - 1) c := hbalc c hcmem
          have hsc : SizeOk false c := hszc c hcmem
          have hoc := hordc i c hch
          obtain ⟨hlbc, hubc⟩ := scanNode_descend_bounds hscan hlo hhi
          have hIH := IH c (sizeOf_lt_of_mem_children hcmem) hbc hsc hoc hlbc hubc
          split
          · rename_i k old c' hres
            rw [hres] at hIH
            obtain ⟨hB, hS, hO⟩ := hIH
            refine ⟨Bal_node.mpr ⟨hh2, ?_⟩,
              SizeOk_node.mpr ⟨hminr, hmin1, hmax, by rw [List.length_set]; omega, ?_⟩,
              Ordd_node.mpr ⟨hKB, ordc_set hordc hO⟩⟩
            · intro x hx
              rcases List.mem_or_eq_of_mem_set hx with hx | hx
              · exact hbalc x hx
              · subst hx; exact hB
            · intro x hx
              rcases List.mem_or_eq_of_mem_set hx with hx | hx
              · exact hszc x hx
              · subst hx; exact hS
          · rename_i c' hres
            rw [hres] at hIH
            obtain ⟨hB, hS, hO⟩ := hIH
            refine ⟨Bal_node.mpr ⟨hh2, ?_⟩,
              SizeOk_node.mpr ⟨hminr, hmin1, hmax, by rw [List.length_set]; omega, ?_⟩,
              Ordd_node.mpr ⟨hKB, ordc_set hordc hO⟩⟩
            · intro x hx
              rcases List.mem_or_eq_of_mem_set hx with hx | hx
              · exact hbalc x hx
              · subst hx; exact hB
            · intro x hx
              rcases List.mem_or_eq_of_mem_set hx with hx | hx
              · exact hszc x hx
              · subst hx; exact hS
          · rename_i l sk sv r hres
            rw [hres] at hIH
            obtain ⟨hBl, hBr, hSl, hSr, hOl, hOr, hlsk, husk⟩ := hIH
            have hlosk : OLB lo sk := OLB_of_lbAt hKB (by rw [keysOf_length]; omega) hlsk
            have hhisk : OUB hi sk := OUB_of_ubAt hKB (by rw [keysOf_length]; omega) husk
            have hkslen : (keysOf kvs).length = kvs.length := keysOf_length kvs
            have hks2 : keysOf (kvs.insertIdx i (sk, sv)) =
                (keysOf kvs).insertIdx i sk := keysOf_insertIdx kvs i (sk, sv)
            have hkvs2len : (kvs.insertIdx i (sk, sv)).length = kvs.length + 1 :=
              List.length_insertIdx _ _ (by omega)
            have hch2len : ((ch.set i l).insertIdx (i + 1) r).length = ch.length + 1 := by
              rw [List.length_insertIdx _ _ (by rw [List.length_set]; omega),
                List.length_set]
            have hKB2 : KeysB lo hi (keysOf (kvs.insertIdx i (sk, sv))) := by
              rw [hks2]
              exact KeysB_insertIdx hKB (by omega) hlsk husk hlosk hhisk
            have hF : ∀ j x, ((ch.set i l).insertIdx (i + 1) r)[j]? = some x →
                Ordd (lbAt lo (keysOf (kvs.insertIdx i (sk, sv))) j)
                     (ubAt hi (keysOf (kvs.insertIdx i (sk, sv))) j) x := by
              rw [hks2]
              exact ordc_insert_split (by omega) (by omega) hordc hOl hOr
            have hBal2 : ∀ x ∈ (ch.set i l).insertIdx (i + 1) r, Bal (h - 1) x := by
              intro x hx
              rw [List.mem_insertIdx (by rw [List.length_set]; omega)] at hx
              rcases hx with hx | hx
              · subst hx; exact hBr
              · rcases List.mem_or_eq_of_mem_set hx with hx | hx
                · exact hbalc x hx
                · subst hx; exact hBl
            have hSz2 : ∀ x ∈ (ch.set i l).insertIdx (i + 1) r, SizeOk false x := by
              intro x hx
              rw [List.mem_insertIdx (by rw [List.length_set]; omega)] at hx
              rcases hx with hx | hx
              · subst hx; exact hSr
              · rcases List.mem_or_eq_of_mem_set hx with hx | hx
                · exact hszc x hx
                · subst hx; exact hSl
            by_cases hfit : (kvs.insertIdx i (sk, sv)).length ≤ MAX_NUM_ELEMENTS
            · rw [if_pos hfit]
              refine ⟨Bal_node.mpr ⟨hh2, hBal2⟩,
                SizeOk_node.mpr ⟨?_, by omega, hfit, by omega, hSz2⟩,
                Ordd_node.mpr ⟨hKB2, hF⟩⟩
              rcases hminr with hr | hr
              · exact Or.inl hr
              · exact Or.inr (by omega)
            · rw [if_neg hfit]
              have hlen12 : (kvs.insertIdx i (sk, sv)).length = 12 := by
                rw [MAX_eq] at *; omega
              split
              · rename_i hdrop
                exfalso
                have := congrArg List.length hdrop
                simp [B_eq, hlen12] at this
              · rename_i sep rightKvs hdrop
                have hsep : (kvs.insertIdx i (sk, sv))[B]? = some sep := by
                  have h0 : ((kvs.insertIdx i (sk, sv)).drop B)[0]? =
                      (kvs.insertIdx i (sk, sv))[B]? := by
                    rw [List.getElem?_drop, Nat.add_zero]
                  rw [hdrop] at h0
                  simpa using h0.symm
                have hright : rightKvs = (kvs.insertIdx i (sk, sv)).drop (B + 1) := by
                  have h1 : ((kvs.insertIdx i (sk, sv)).drop B).tail =
                      (kvs.insertIdx i (sk, sv)).drop (B + 1) := by
                    rw [← List.drop_one, List.drop_drop]
                  rw [hdrop] at h1
                  simpa using h1
                have hsepk : (keysOf (kvs.insertIdx i (sk, sv)))[B]? = some sep.1 := by
                  rw [keysOf_getElem?, hsep]; rfl
                obtain ⟨hKl, hKr, hlosep, hhisep⟩ := KeysB_split_piece hKB2 hsepk
                have hks2len' : (keysOf (kvs.insertIdx i (sk, sv))).length = 12 := by
                  rw [keysOf_length]; omega
                subst hright
                refine ⟨Bal_node.mpr ⟨hh2, ?_⟩, Bal_node.mpr ⟨hh2, ?_⟩,
                  SizeOk_node.mpr ⟨?_, ?_, ?_, ?_, ?_⟩,
                  SizeOk_node.mpr ⟨?_, ?_, ?_, ?_, ?_⟩,
                  Ordd_node.mpr ⟨?_, ?_⟩, Ordd_node.mpr ⟨?_, ?_⟩, hlosep, hhisep⟩
                · intro x hx
                  exact hBal2 x ((List.take_sublist _ _).mem hx)
                · intro x hx
                  exact hBal2 x ((List.drop_sublist _ _).mem hx)
                · exact Or.inr (by rw [MIN_eq, B_eq, List.length_take]; omega)
                · rw [B_eq, List.length_take]; omega
                · rw [MAX_eq, B_eq, List.length_take]; omega
                · rw [List.length_take, List.length_take, B_eq]; omega
                · intro x hx
                  exact hSz2 x ((List.take_sublist _ _).mem hx)
                · exact Or.inr (by rw [MIN_eq, List.length_drop, B_eq]; omega)
                · rw [List.length_drop, B_eq]; omega
                · rw [MAX_eq, List.length_drop, B_eq]; omega
                · rw [List.length_drop, List.length_drop, B_eq]; omega
                · intro x hx
                  exact hSz2 x ((List.drop_sublist _ _).mem hx)
                · rw [keysOf_take]
                  exact hKl
                · rw [keysOf_take]
                  have hB6 : B = 6 := rfl
                  have := ordc_take hsepk hF
                  simpa [hB6] using this
                · rw [keysOf_drop]
                  exact hKr
                · rw [keysOf_drop]
                  have hB6 : B = 6 := rfl
                  have := ordc_drop hsepk (by omega) hF
                  simpa [hB6] using this

end InsertSpec

end BNode

/-- `BTree::insert` preserves the full invariant (root-split included). -/
theorem BTree_insert_inv {K V : Type} [LinearOrder K] (t : BTree K V) (key : K) (v : V)
    (hinv : BTreeInv t) : BTreeInv (t.insert key v).2 := by
  obtain ⟨hS, hB, hO⟩ := hinv
  have hspec := BNode.insertGo_spec key v t.root hB hS hO
    (BNode.OLB_none key) (BNode.OUB_none key)
  unfold BTree.insert
  split
  · rename_i k old r hres
    rw [hres] at hspec
    show BTreeInv { root := r, len := t.len, depth := t.depth }
    exact ⟨hspec.2.1, hspec.1, hspec.2.2⟩
  · rename_i r hres
    rw [hres] at hspec
    show BTreeInv { root := r, len := t.len + 1, depth := t.depth }
    exact ⟨hspec.2.1, hspec.1, hspec.2.2⟩
  · rename_i l sk sv r hres
    rw [hres] at hspec
    show BTreeInv { root := BNode.node [(sk, sv)] [l, r], len := t.len + 1, depth := t.depth + 1 }
    obtain ⟨hBl, hBr, hSl, hSr, hOl, hOr, _, _⟩ := hspec
    have hd1 : 1 ≤ t.depth := BNode.Bal_pos hBl
    refine ⟨BNode.SizeOk_node.mpr ⟨Or.inl rfl, by simp, by simp [BNode.MAX_eq], by simp, ?_⟩, BNode.Bal_node.mpr ⟨by simp; omega, ?_⟩, BNode.Ordd_node.mpr ⟨?_, ?_⟩⟩
    · intro x hx
      rcases List.mem_cons.mp hx with hx | hx
      · subst hx; exact hSl
      · rw [List.mem_singleton] at hx; subst hx; exact hSr
    · intro x hx
      show BNode.Bal (t.depth + 1 - 1) x
      rw [Nat.add_sub_cancel]
      rcases List.mem_cons.mp hx with hx | hx
      · subst hx; exact hBl
      · rw [List.mem_singleton] at hx; subst hx; exact hBr
    · exact BNode.KeysB_singleton (BNode.OLB_none sk) (BNode.OUB_none sk)
    · intro j c hc
      match j, hc with
      | 0, hc =>
        injection hc with hc
        subst hc
        exact hOl
      | 1, hc =>
        injection hc with hc
        subst hc
        exact hOr

namespace BNode

section RemoveSpec

variable {K V : Type} [LinearOrder K]

theorem OLB_lbAt_self {lo hi : Option K} {ks : List K} {i : Nat} {s : K}
    (hK : KeysB lo hi ks) (hs : ks[i]? = some s) : OLB (lbAt lo ks i) s := by
  cases i with
  | zero => exact (hK.2 s (List.getElem?_mem hs)).1
  | succ j =>
    show OLB (ks[j]?) s
    intro l hl
    exact hK.lt_of_getElem? hl hs (by omega)

theorem OUB_ubAt_succ {lo hi : Option K} {ks : List K} {i : Nat} {s : K}
    (hK : KeysB lo hi ks) (hs : ks[i]? = some s) : OUB (ubAt hi ks (i + 1)) s := by
  unfold ubAt
  by_cases hlen : i + 1 = ks.length
  · rw [if_pos hlen]
    exact (hK.2 s (List.getElem?_mem hs)).2
  · rw [if_neg hlen]
    intro u hu
    exact hK.lt_of_getElem? hs hu (by omega)

/-- Children bounds for the concatenation of two sibling child lists around
a dropped-down separator (the merge shape). -/
theorem ordc_append_sep {lo hi : Option K} {lk rk : List K}
    {lcc rcc : List (BNode K V)} {s : K} (hllen : lcc.length = lk.length + 1)
    (hFl : ∀ j x, lcc[j]? = some x → Ordd (lbAt lo lk j) (ubAt (some s) lk j) x)
    (hFr : ∀ j x, rcc[j]? = some x → Ordd (lbAt (some s) rk j) (ubAt hi rk j) x) :
    ∀ j x, (lcc ++ rcc)[j]? = some x →
      Ordd (lbAt lo (lk ++ s :: rk) j) (ubAt hi (lk ++ s :: rk) j) x := by
  intro j x hx
  have hkslen : (lk ++ s :: rk).length = lk.length + 1 + rk.length := by
    simp; omega
  have hget : ∀ m, (lk ++ s :: rk)[m]? =
      if m < lk.length then lk[m]?
      else if m = lk.length then some s else rk[m - lk.length - 1]? := by
    intro m
    by_cases h1 : m < lk.length
    · rw [if_pos h1, List.getElem?_append_left h1]
    · rw [if_neg h1, List.getElem?_append_right (by omega)]
      by_cases h2 : m = lk.length
      · rw [if_pos h2, h2]
        simp
      · rw [if_neg h2]
        have : m - lk.length = (m - lk.length - 1) + 1 := by omega
        rw [this]
        simp
  by_cases hj : j < lcc.length
  · rw [List.getElem?_append_left hj] at hx
    have hres := hFl j x hx
    have hlb : lbAt lo (lk ++ s :: rk) j = lbAt lo lk j := by
      cases j with
      | zero => rfl
      | succ jj =>
        show (lk ++ s :: rk)[jj]? = lk[jj]?
        rw [hget, if_pos (by omega)]
    have hub : ubAt hi (lk ++ s :: rk) j = ubAt (some s) lk j := by
      unfold ubAt
      by_cases hje : j = lk.length
      · rw [if_neg (by omega), if_pos hje, hget, if_neg (by omega), if_pos hje]
      · rw [if_neg (by omega), if_neg hje, hget, if_pos (by omega)]
    rw [hlb, hub]
    exact hres
  · rw [List.getElem?_append_right (by omega)] at hx
    have hres := hFr (j - lcc.length) x hx
    have hjlen : j - lcc.length < rcc.length := getElem?_lt_length hx
    have hlb : lbAt lo (lk ++ s :: rk) j = lbAt (some s) rk (j - lcc.length) := by
      by_cases hje : j = lcc.length
      · have : j - lcc.length = 0 := by omega
        rw [this]
        show lbAt lo (lk ++ s :: rk) j = some s
        cases j with
        | zero => omega
        | succ jj =>
          show (lk ++ s :: rk)[jj]? = some s
          rw [hget, if_neg (by omega), if_pos (by omega)]
      · have h2 : j - lcc.length = (j - lcc.length - 1) + 1 := by omega
        rw [h2]
        show lbAt lo (lk ++ s :: rk) j = rk[j - lcc.length - 1]?
        cases j with
        | zero => omega
        | succ jj =>
          show (lk ++ s :: rk)[jj]? = rk[jj + 1 - lcc.length - 1]?
          rw [hget, if_neg (by omega), if_neg (by omega)]
          congr 1
          omega
    have hub : ubAt hi (lk ++ s :: rk) j = ubAt hi rk (j - lcc.length) := by
      unfold ubAt
      by_cases hje : j = (lk ++ s :: rk).length
      · rw [if_pos hje, if_pos (by omega)]
      · rw [if_neg hje, if_neg (by omega), hget, if_neg (by omega), if_neg (by omega)]
        congr 1
        omega
    rw [hlb, hub]
    exact hres

theorem SizeOkRem_leaf {b : Bool} {kvs : List (K × V)} :
    SizeOkRem b (.leaf kvs : BNode K V) ↔
      (b = true ∨ MIN_NUM_ELEMENTS - 1 ≤ kvs.length) ∧
      kvs.length ≤ MAX_NUM_ELEMENTS := by
  simp only [SizeOkRem]

theorem SizeOkRem_node {b : Bool} {kvs : List (K × V)} {ch : List (BNode K V)} :
    SizeOkRem b (.node kvs ch) ↔
      (b = true ∨ MIN_NUM_ELEMENTS - 1 ≤ kvs.length) ∧
      kvs.length ≤ MAX_NUM_ELEMENTS ∧ ch.length = kvs.length + 1 ∧
      ∀ c ∈ ch, SizeOk false c := by
  simp only [SizeOkRem]

/-- What `resolve_underflow` guarantees for the rebuilt node: the element
count drops by at most one, children counts stay consistent, and order,
balance, and per-child sizes are restored. -/
def ResolveOut (lo hi : Option K) (hg : Nat) (kvs : List (K × V))
    (t : BNode K V) : Prop :=
  ∃ kvs' ch', t = .node kvs' ch' ∧
    (kvs'.length = kvs.length ∨ kvs'.length + 1 = kvs.length) ∧
    ch'.length = kvs'.length + 1 ∧
    KeysB lo hi (keysOf kvs') ∧
    (∀ j x, ch'[j]? = some x →
      Ordd (lbAt lo (keysOf kvs') j) (ubAt hi (keysOf kvs') j) x) ∧
    (∀ x ∈ ch', Bal hg x) ∧ (∀ x ∈ ch', SizeOk false x)

/-- Bounds of the double-set child list against the key replaced at `i`:
child `i` is re-bounded by the new separator `p` above, child `i+1` below,
all other children keep their old bounds. -/
theorem ordc_set2 {lo hi : Option K} {ks : List K} {ch : List (BNode K V)} {i : Nat}
    {C D : BNode K V} {p old : K}
    (hchlen : ch.length = ks.length + 1) (hilt : i < ks.length)
    (hold : ks[i]? = some old)
    (hordc : ∀ j x, ch[j]? = some x → Ordd (lbAt lo ks j) (ubAt hi ks j) x)
    (hC : Ordd (lbAt lo ks i) (some p) C)
    (hD : Ordd (some p) (ubAt hi ks (i + 1)) D) :
    ∀ j x, ((ch.set i C).set (i + 1) D)[j]? = some x →
      Ordd (lbAt lo (ks.set i p) j) (ubAt hi (ks.set i p) j) x := by
  intro j x hx
  have hks' : ∀ m, (ks.set i p)[m]? =
      if i = m then (if i < ks.length then some p else none) else ks[m]? :=
    fun m => List.getElem?_set
  have hlen' : (ks.set i p).length = ks.length := by rw [List.length_set]
  have hsetlen : (ch.set i C).length = ks.length + 1 := by rw [List.length_set]; omega
  rw [List.getElem?_set] at hx
  by_cases hj1 : i + 1 = j
  · rw [if_pos hj1, if_pos (by omega)] at hx
    injection hx with hx
    subst hx
    subst hj1
    have hlb : lbAt lo (ks.set i p) (i + 1) = some p := by
      show (ks.set i p)[i]? = some p
      rw [hks', if_pos rfl, if_pos (by omega)]
    have hub : ubAt hi (ks.set i p) (i + 1) = ubAt hi ks (i + 1) := by
      unfold ubAt
      rw [hlen']
      by_cases hje : i + 1 = ks.length
      · rw [if_pos hje, if_pos hje]
      · rw [if_neg hje, if_neg hje, hks', if_neg (by omega)]
    rw [hlb, hub]
    exact hD
  · rw [if_neg hj1] at hx
    rw [List.getElem?_set] at hx
    by_cases hj2 : i = j
    · rw [if_pos hj2, if_pos (by omega)] at hx
      injection hx with hx
      subst hx
      subst hj2
      have hlb : lbAt lo (ks.set i p) i = lbAt lo ks i := by
        cases i with
        | zero => rfl
        | succ ii =>
          show (ks.set (ii + 1) p)[ii]? = ks[ii]?
          rw [hks', if_neg (by omega)]
      have hub : ubAt hi (ks.set i p) i = some p := by
        unfold ubAt
        rw [hlen', if_neg (by omega), hks', if_pos rfl, if_pos (by omega)]
      rw [hlb, hub]
      exact hC
    · rw [if_neg hj2] at hx
      have hres := hordc j x hx
      have hlb : lbAt lo (ks.set i p) j = lbAt lo ks j := by
        cases j with
        | zero => rfl
        | succ jj =>
          show (ks.set i p)[jj]? = ks[jj]?
          rw [hks', if_neg (by omega)]
      have hub : ubAt hi (ks.set i p) j = ubAt hi ks j := by
        unfold ubAt
        rw [hlen']
        by_cases hje : j = ks.length
        · rw [if_pos hje, if_pos hje]
        · rw [if_neg hje, if_neg hje, hks', if_neg (by omega)]
      rw [hlb, hub]
      exact hres

theorem keysOf_cons (p : K × V) (rest : List (K × V)) :
    keysOf (p :: rest) = p.1 :: keysOf rest := rfl

theorem numElems_leaf (kvs : List (K × V)) :
    numElems (.leaf kvs : BNode K V) = kvs.length := rfl

theorem numElems_node (kvs : List (K × V)) (ch : List (BNode K V)) :
    numElems (.node kvs ch) = kvs.length := rfl

/-- Rotation from the right sibling restores the underfull child at `i`
while preserving order, balance and sizes. -/
theorem rotateRight_spec {lo hi : Option K} {kvs : List (K × V)}
    {ch : List (BNode K V)} {i : Nat} {hg : Nat} {d : BNode K V}
    (hchlen : ch.length = kvs.length + 1) (hmax : kvs.length ≤ MAX_NUM_ELEMENTS)
    (hKB : KeysB lo hi (keysOf kvs))
    (hordc : ∀ j x, ch[j]? = some x →
      Ordd (lbAt lo (keysOf kvs) j) (ubAt hi (keysOf kvs) j) x)
    (hbalc : ∀ x ∈ ch, Bal hg x)
    (hszc : ∀ j x, ch[j]? = some x → j ≠ i → SizeOk false x)
    (hdefi : ∀ x, ch[i]? = some x → SizeOkRem false x ∧
      numElems x < MIN_NUM_ELEMENTS)
    (hd : ch[i + 1]? = some d) (hdgt : MIN_NUM_ELEMENTS < numElems d) :
    ResolveOut lo hi hg kvs (rotateRight kvs ch i) := by
  have hi1 : i + 1 < ch.length := getElem?_lt_length hd
  have hilt : i < kvs.length := by omega
  have hkslen : (keysOf kvs).length = kvs.length := keysOf_length kvs
  obtain ⟨c, hc⟩ : ∃ c, ch[i]? = some c := ⟨_, List.getElem?_eq_getElem (by omega)⟩
  obtain ⟨sep, hsep⟩ : ∃ p, kvs[i]? = some p :=
    ⟨_, List.getElem?_eq_getElem (by omega)⟩
  have hsk : (keysOf kvs)[i]? = some sep.1 := by rw [keysOf_getElem?, hsep]; rfl
  have hub_i : ubAt hi (keysOf kvs) i = some sep.1 := by
    unfold ubAt
    rw [if_neg (by omega), hsk]
  have hlb_i1 : lbAt lo (keysOf kvs) (i + 1) = some sep.1 := by
    show (keysOf kvs)[i]? = some sep.1
    exact hsk
  have hod := hordc (i + 1) d hd
  rw [hlb_i1] at hod
  have hoc := hordc i c hc
  rw [hub_i] at hoc
  have hbc := hbalc c (List.getElem?_mem hc)
  have hbd := hbalc d (List.getElem?_mem hd)
  have hsd := hszc (i + 1) d hd (by omega)
  have hdef := hdefi c hc
  have hsepmem : OLB lo sep.1 ∧ OUB hi sep.1 := hKB.2 sep.1 (List.getElem?_mem hsk)
  rcases Nat.lt_or_ge hg 2 with hg1 | hg2
  · -- height 1: both siblings are leaves
    have hg1' : hg = 1 := by have := Bal_pos hbc; omega
    subst hg1'
    obtain ⟨ck, rfl⟩ := Bal_one_leaf hbc
    obtain ⟨dk, rfl⟩ := Bal_one_leaf hbd
    cases dk with
    | nil => rw [MIN_eq] at hdgt; simp [numElems] at hdgt
    | cons dk0 dkRest =>
      simp only [rotateRight, hsep, hc, hd]
      have hKd := Ordd_leaf.mp hod
      rw [keysOf_cons] at hKd
      rw [KeysB_cons] at hKd
      obtain ⟨hsd0, hd0u, hKdr⟩ := hKd
      have hslt : sep.1 < dk0.1 := OLB_some.mp hsd0
      have hks' : keysOf (kvs.set i dk0) = (keysOf kvs).set i dk0.1 :=
        keysOf_set kvs i dk0
      have hC : Ordd (lbAt lo (keysOf kvs) i) (some dk0.1)
          (.leaf (ck ++ [sep]) : BNode K V) := by
        rw [Ordd_leaf, keysOf_append]
        have : keysOf [sep] = [sep.1] := rfl
        rw [this]
        rw [KeysB_concat]
        exact ⟨Ordd_leaf.mp hoc, OLB_lbAt_self hKB hsk, OUB_some.mpr hslt⟩
      have hD : Ordd (some dk0.1) (ubAt hi (keysOf kvs) (i + 1))
          (.leaf dkRest : BNode K V) := Ordd_leaf.mpr hKdr
      refine ⟨kvs.set i dk0, _, rfl, Or.inl (by rw [List.length_set]), ?_, ?_, ?_, ?_, ?_⟩
      · rw [List.length_set, List.length_set, List.length_set]; omega
      · rw [hks']
        exact KeysB_set hKB hsk
          (OLB_mono (OLB_lbAt_self hKB hsk) (le_of_lt hslt)) hd0u
          (OLB_mono hsepmem.1 (le_of_lt hslt))
          (OUB_of_ubAt hKB (by omega) hd0u)
      · rw [hks']
        exact ordc_set2 (by omega) (by omega) hsk hordc hC hD
      · intro x hx
        rcases List.mem_or_eq_of_mem_set hx with hx | hx
        · rcases List.mem_or_eq_of_mem_set hx with hx | hx
          · exact hbalc x hx
          · subst hx; exact Bal_leaf.mpr rfl
        · subst hx; exact Bal_leaf.mpr rfl
      · intro x hx
        rw [List.mem_iff_getElem?] at hx
        obtain ⟨j, hj⟩ := hx
        rw [List.getElem?_set] at hj
        by_cases hj1 : i + 1 = j
        · rw [if_pos hj1, if_pos (by rw [List.length_set]; omega)] at hj
          injection hj with hj
          subst hj
          rw [SizeOk_leaf]
          rw [SizeOk_leaf] at hsd
          rw [numElems_leaf] at hdgt
          have hlen1 := hsd.2
          rw [MAX_eq] at hlen1
          simp only [List.length_cons] at hlen1 hdgt
          rw [MIN_eq] at hdgt
          rw [MIN_eq, MAX_eq]
          exact ⟨Or.inr (by omega), by omega⟩
        · rw [if_neg hj1, List.getElem?_set] at hj
          by_cases hj2 : i = j
          · rw [if_pos hj2, if_pos (by omega)] at hj
            injection hj with hj
            subst hj
            rw [SizeOk_leaf]
            obtain ⟨hdr, hdn⟩ := hdef
            rw [SizeOkRem_leaf] at hdr
            rw [numElems_leaf] at hdn
            rw [MIN_eq] at hdn
            rcases hdr.1 with hh | hh
            · simp at hh
            · rw [MIN_eq] at hh
              rw [MIN_eq, MAX_eq]
              simp only [List.length_append, List.length_cons, List.length_nil]
              exact ⟨Or.inr (by omega), by omega⟩
          · rw [if_neg hj2] at hj
            exact hszc j x hj (by omega)
  · -- height ≥ 2: both siblings are internal nodes
    obtain ⟨ck, cc, rfl⟩ := Bal_ge_two_node hg2 hbc
    obtain ⟨dk, dc, rfl⟩ := Bal_ge_two_node hg2 hbd
    rw [SizeOk_node] at hsd
    obtain ⟨hsd1, hsd2, hsd3, hsd4, hsd5⟩ := hsd
    cases dk with
    | nil => rw [MIN_eq] at hdgt; simp [numElems] at hdgt
    | cons dk0 dkRest =>
      cases dc with
      | nil => simp at hsd4
      | cons dc0 dcRest =>
        simp only [rotateRight, hsep, hc, hd]
        have hKd := Ordd_node.mp hod
        obtain ⟨hKdk, hFd⟩ := hKd
        rw [keysOf_cons] at hKdk hFd
        have hKdk2 := hKdk
        rw [KeysB_cons] at hKdk2
        obtain ⟨hsd0, hd0u, hKdr⟩ := hKdk2
        have hslt : sep.1 < dk0.1 := OLB_some.mp hsd0
        have hks' : keysOf (kvs.set i dk0) = (keysOf kvs).set i dk0.1 :=
          keysOf_set kvs i dk0
        have hoc2 := Ordd_node.mp hoc
        obtain ⟨hKc, hFc⟩ := hoc2
        obtain ⟨hdr, hdn⟩ := hdef
        rw [SizeOkRem_node] at hdr
        obtain ⟨hdr1, hdr2, hdr3, hdr4⟩ := hdr
        rw [numElems_node] at hdn
        have hdc0 : (dc0 :: dcRest)[0]? = some dc0 := by simp
        have hfd0 := hFd 0 dc0 hdc0
        have hfd0b : Ordd (some sep.1) (some dk0.1) dc0 := by
          have hu : ubAt (ubAt hi (keysOf kvs) (i + 1)) (dk0.1 :: keysOf dkRest) 0 =
              some dk0.1 := by
            unfold ubAt
            rw [if_neg (by simp), List.getElem?_cons_zero]
          rw [hu] at hfd0
          exact hfd0
        -- new child i
        have hC : Ordd (lbAt lo (keysOf kvs) i) (some dk0.1)
            (.node (ck ++ [sep]) (cc ++ [dc0])) := by
          rw [Ordd_node, keysOf_append]
          have hsl : keysOf [sep] = [sep.1] := rfl
          rw [hsl]
          constructor
          · rw [KeysB_concat]
            exact ⟨hKc, OLB_lbAt_self hKB hsk, OUB_some.mpr hslt⟩
          · intro j x hj
            by_cases hjc : j < cc.length
            · rw [List.getElem?_append_left hjc] at hj
              have hres := hFc j x hj
              have hcclen : cc.length = (keysOf ck).length + 1 := by
                rw [keysOf_length]
                exact hdr3
              have hlb2 : lbAt (lbAt lo (keysOf kvs) i) (keysOf ck ++ [sep.1]) j =
                  lbAt (lbAt lo (keysOf kvs) i) (keysOf ck) j := by
                cases j with
                | zero => rfl
                | succ jj =>
                  show (keysOf ck ++ [sep.1])[jj]? = (keysOf ck)[jj]?
                  rw [List.getElem?_append_left (by omega)]
              have hub2 : ubAt (some dk0.1) (keysOf ck ++ [sep.1]) j =
                  ubAt (some sep.1) (keysOf ck) j := by
                unfold ubAt
                rw [List.length_append]
                by_cases hje : j = (keysOf ck).length
                · rw [if_neg (by simp; omega), if_pos hje,
                    List.getElem?_append_right (by omega), hje]
                  simp
                · rw [if_neg (by simp; omega), if_neg hje,
                    List.getElem?_append_left (by omega)]
              rw [hlb2, hub2]
              exact hres
            · rw [List.getElem?_append_right (by omega)] at hj
              have hj0 : j - cc.length = 0 := by
                have := getElem?_lt_length hj
                simp at this
                omega
              rw [hj0] at hj
              injection hj with hj
              subst hj
              have hcclen : cc.length = (keysOf ck).length + 1 := by
                rw [keysOf_length]
                omega
              have hlb2 : lbAt (lbAt lo (keysOf kvs) i) (keysOf ck ++ [sep.1]) j =
                  some sep.1 := by
                have hj2 : j = cc.length := by omega
                subst hj2
                rw [hcclen]
                show (keysOf ck ++ [sep.1])[(keysOf ck).length]? = some sep.1
                exact List.getElem?_concat_length _ _
              have hub2 : ubAt (some dk0.1) (keysOf ck ++ [sep.1]) j = some dk0.1 := by
                unfold ubAt
                rw [if_pos (by simp; omega)]
              rw [hlb2, hub2]
              exact hfd0b
        -- new donor
        have hD : Ordd (some dk0.1) (ubAt hi (keysOf kvs) (i + 1))
            (.node dkRest dcRest) := by
          rw [Ordd_node]
          refine ⟨hKdr, ?_⟩
          have := ordc_drop (m := 0)
            ((by simp) : (dk0.1 :: keysOf dkRest)[0]? = some dk0.1)
            (by simp only [List.length_cons, keysOf_length]
                simp only [List.length_cons] at hsd4
                omega) hFd
          intro j x hj
          have h2 := this j x (by simpa using hj)
          simpa using h2
        refine ⟨kvs.set i dk0, _, rfl, Or.inl (by rw [List.length_set]), ?_, ?_, ?_, ?_, ?_⟩
        · rw [List.length_set, List.length_set, List.length_set]; omega
        · rw [hks']
          exact KeysB_set hKB hsk
            (OLB_mono (OLB_lbAt_self hKB hsk) (le_of_lt hslt)) hd0u
            (OLB_mono hsepmem.1 (le_of_lt hslt))
            (OUB_of_ubAt hKB (by omega) hd0u)
        · rw [hks']
          exact ordc_set2 (by omega) (by omega) hsk hordc hC hD
        · intro x hx
          rcases List.mem_or_eq_of_mem_set hx with hx | hx
          · rcases List.mem_or_eq_of_mem_set hx with hx | hx
            · exact hbalc x hx
            · subst hx
              rw [Bal_node]
              have hbc2 := Bal_node.mp hbc
              have hbd2 := Bal_node.mp hbd
              refine ⟨hg2, ?_⟩
              intro y hy
              rw [List.mem_append] at hy
              rcases hy with hy | hy
              · exact hbc2.2 y hy
              · rw [List.mem_singleton] at hy
                rw [hy]
                exact hbd2.2 dc0 (List.mem_cons_self _ _)
          · subst hx
            rw [Bal_node]
            have hbd2 := Bal_node.mp hbd
            exact ⟨hg2, fun y hy => hbd2.2 y (List.mem_cons_of_mem _ hy)⟩
        · intro x hx
          rw [List.mem_iff_getElem?] at hx
          obtain ⟨j, hj⟩ := hx
          rw [List.getElem?_set] at hj
          by_cases hj1 : i + 1 = j
          · rw [if_pos hj1, if_pos (by rw [List.length_set]; omega)] at hj
            injection hj with hj
            subst hj
            rw [SizeOk_node]
            rw [numElems_node] at hdgt
            rw [MIN_eq] at hdgt
            rw [MAX_eq] at hsd3
            simp only [List.length_cons] at hdgt hsd3 hsd4
            rw [MIN_eq, MAX_eq]
            refine ⟨Or.inr (by omega), by omega, by omega, by omega, ?_⟩
            intro y hy
            exact hsd5 y (List.mem_cons_of_mem _ hy)
          · rw [if_neg hj1, List.getElem?_set] at hj
            by_cases hj2 : i = j
            · rw [if_pos hj2, if_pos (by omega)] at hj
              injection hj with hj
              subst hj
              rw [SizeOk_node]
              rw [MIN_eq] at hdn
              rcases hdr1 with hh | hh
              · simp at hh
              · rw [MIN_eq] at hh
                rw [MIN_eq, MAX_eq]
                simp only [List.length_append, List.length_cons, List.length_nil]
                refine ⟨Or.inr (by omega), by omega, by omega, by omega, ?_⟩
                intro y hy
                rw [List.mem_append] at hy
                rcases hy with hy | hy
                · exact hdr4 y hy
                · rw [List.mem_singleton] at hy
                  rw [hy]
                  exact hsd5 dc0 (List.mem_cons_self _ _)
            · rw [if_neg hj2] at hj
              exact hszc j x hj (by omega)

/-- Children bounds for prepending a child below a new head separator. -/
theorem ordc_cons {lo hi : Option K} {ks : List K} {ch : List (BNode K V)} {s : K}
    {C0 : BNode K V} (hC0 : Ordd lo (some s) C0)
    (hF : ∀ j x, ch[j]? = some x → Ordd (lbAt (some s) ks j) (ubAt hi ks j) x) :
    ∀ j x, (C0 :: ch)[j]? = some x →
      Ordd (lbAt lo (s :: ks) j) (ubAt hi (s :: ks) j) x := by
  intro j x hx
  cases j with
  | zero =>
    rw [List.getElem?_cons_zero] at hx
    injection hx with hx
    subst hx
    have hub : ubAt hi (s :: ks) 0 = some s := by
      unfold ubAt
      rw [if_neg (by simp), List.getElem?_cons_zero]
    rw [hub]
    exact hC0
  | succ jj =>
    rw [List.getElem?_cons_succ] at hx
    have hres := hF jj x hx
    have hlb : lbAt lo (s :: ks) (jj + 1) = lbAt (some s) ks jj := by
      cases jj with
      | zero =>
        show (s :: ks)[0]? = some s
        simp
      | succ kk =>
        show (s :: ks)[kk + 1]? = ks[kk]?
        rw [List.getElem?_cons_succ]
    have hub : ubAt hi (s :: ks) (jj + 1) = ubAt hi ks jj := by
      unfold ubAt
      rw [List.length_cons]
      by_cases hje : jj = ks.length
      · rw [if_pos (by omega), if_pos hje]
      · rw [if_neg (by omega), if_neg hje, List.getElem?_cons_succ]
    rw [hlb, hub]
    exact hres

/-- Rotation from the left sibling restores the underfull child at `i`. -/
theorem rotateLeft_spec {lo hi : Option K} {kvs : List (K × V)}
    {ch : List (BNode K V)} {i : Nat} {hg : Nat} {d : BNode K V}
    (hchlen : ch.length = kvs.length + 1) (hmax : kvs.length ≤ MAX_NUM_ELEMENTS)
    (hKB : KeysB lo hi (keysOf kvs))
    (hordc : ∀ j x, ch[j]? = some x →
      Ordd (lbAt lo (keysOf kvs) j) (ubAt hi (keysOf kvs) j) x)
    (hbalc : ∀ x ∈ ch, Bal hg x)
    (hszc : ∀ j x, ch[j]? = some x → j ≠ i → SizeOk false x)
    (hdefi : ∀ x, ch[i]? = some x → SizeOkRem false x ∧
      numElems x < MIN_NUM_ELEMENTS)
    (hi0 : i ≠ 0) (hilt : i < ch.length)
    (hd : ch[i - 1]? = some d) (hdgt : MIN_NUM_ELEMENTS < numElems d) :
    ResolveOut lo hi hg kvs (rotateLeft kvs ch i) := by
  have hilt2 : i ≤ kvs.length := by omega
  have hkslen : (keysOf kvs).length = kvs.length := keysOf_length kvs
  obtain ⟨c, hc⟩ : ∃ c, ch[i]? = some c := ⟨_, List.getElem?_eq_getElem (by omega)⟩
  obtain ⟨sep, hsep⟩ : ∃ p, kvs[i - 1]? = some p :=
    ⟨_, List.getElem?_eq_getElem (by omega)⟩
  have hsk : (keysOf kvs)[i - 1]? = some sep.1 := by rw [keysOf_getElem?, hsep]; rfl
  have hub_i1 : ubAt hi (keysOf kvs) (i - 1) = some sep.1 := by
    unfold ubAt
    rw [if_neg (by omega), hsk]
  have hlb_i : lbAt lo (keysOf kvs) i = some sep.1 := by
    have he : i = (i - 1) + 1 := by omega
    rw [he]
    show (keysOf kvs)[i - 1]? = some sep.1
    exact hsk
  have hod := hordc (i - 1) d hd
  rw [hub_i1] at hod
  have hoc := hordc i c hc
  rw [hlb_i] at hoc
  have hbc := hbalc c (List.getElem?_mem hc)
  have hbd := hbalc d (List.getElem?_mem hd)
  have hsd := hszc (i - 1) d hd (by omega)
  have hdef := hdefi c hc
  have hsepmem : OLB lo sep.1 ∧ OUB hi sep.1 := hKB.2 sep.1 (List.getElem?_mem hsk)
  have him1 : i - 1 + 1 = i := by omega
  rcases Nat.lt_or_ge hg 2 with hg1 | hg2
  · -- height 1: both siblings are leaves
    have hg1' : hg = 1 := by have := Bal_pos hbc; omega
    subst hg1'
    obtain ⟨ck, rfl⟩ := Bal_one_leaf hbc
    obtain ⟨dk, rfl⟩ := Bal_one_leaf hbd
    cases hlast : dk.getLast? with
    | none =>
      rw [List.getLast?_eq_none_iff] at hlast
      subst hlast
      rw [MIN_eq] at hdgt
      simp [numElems] at hdgt
    | some dkL =>
      simp only [rotateLeft, hsep, hc, hd, hlast]
      have hdk : dk.dropLast ++ [dkL] = dk := List.dropLast_append_getLast? _ hlast
      have hKd := Ordd_leaf.mp hod
      rw [← hdk, keysOf_append] at hKd
      have hkl : keysOf [dkL] = [dkL.1] := rfl
      rw [hkl, KeysB_concat] at hKd
      obtain ⟨hKdl, hdlL, hdlU⟩ := hKd
      have hlt : dkL.1 < sep.1 := OUB_some.mp hdlU
      have hks' : keysOf (kvs.set (i - 1) dkL) = (keysOf kvs).set (i - 1) dkL.1 :=
        keysOf_set kvs (i - 1) dkL
      have hC : Ordd (lbAt lo (keysOf kvs) (i - 1)) (some dkL.1)
          (.leaf dk.dropLast : BNode K V) := by
        rw [Ordd_leaf, keysOf_dropLast, ← hdk]
        have : (keysOf (dk.dropLast ++ [dkL])).dropLast = keysOf dk.dropLast := by
          rw [keysOf_append, hkl, List.dropLast_concat]
        rw [this]
        exact hKdl
      have hD : Ordd (some dkL.1) (ubAt hi (keysOf kvs) (i - 1 + 1))
          (.leaf (sep :: ck) : BNode K V) := by
        rw [him1, Ordd_leaf, keysOf_cons, KeysB_cons]
        exact ⟨OLB_some.mpr hlt, him1 ▸ OUB_ubAt_succ hKB hsk, Ordd_leaf.mp hoc⟩
      refine ⟨kvs.set (i - 1) dkL, _, rfl, Or.inl (by rw [List.length_set]), ?_, ?_, ?_, ?_, ?_⟩
      · rw [List.length_set, List.length_set, List.length_set]; omega
      · rw [hks']
        exact KeysB_set hKB hsk hdlL
          (OUB_mono (OUB_ubAt_succ hKB hsk) (le_of_lt hlt))
          (OLB_of_lbAt hKB (by omega) hdlL)
          (OUB_mono hsepmem.2 (le_of_lt hlt))
      · rw [hks']
        have h2 := ordc_set2 (C := (.leaf dk.dropLast : BNode K V))
          (D := (.leaf (sep :: ck) : BNode K V)) (by omega) (by omega) hsk hordc hC hD
        rw [him1] at h2
        exact h2
      · intro x hx
        rcases List.mem_or_eq_of_mem_set hx with hx | hx
        · rcases List.mem_or_eq_of_mem_set hx with hx | hx
          · exact hbalc x hx
          · subst hx; exact Bal_leaf.mpr rfl
        · subst hx; exact Bal_leaf.mpr rfl
      · intro x hx
        rw [List.mem_iff_getElem?] at hx
        obtain ⟨j, hj⟩ := hx
        rw [List.getElem?_set] at hj
        by_cases hj1 : i = j
        · rw [if_pos hj1, if_pos (by rw [List.length_set]; omega)] at hj
          injection hj with hj
          subst hj
          rw [SizeOk_leaf]
          obtain ⟨hdr, hdn⟩ := hdef
          rw [SizeOkRem_leaf] at hdr
          rw [numElems_leaf] at hdn
          rw [MIN_eq] at hdn
          rcases hdr.1 with hh | hh
          · simp at hh
          · rw [MIN_eq] at hh
            rw [MIN_eq, MAX_eq]
            simp only [List.length_cons]
            exact ⟨Or.inr (by omega), by omega⟩
        · rw [if_neg hj1, List.getElem?_set] at hj
          by_cases hj2 : i - 1 = j
          · rw [if_pos hj2, if_pos (by omega)] at hj
            injection hj with hj
            subst hj
            rw [SizeOk_leaf]
            rw [SizeOk_leaf] at hsd
            rw [numElems_leaf] at hdgt
            have hlen1 := hsd.2
            rw [MAX_eq] at hlen1
            rw [MIN_eq] at hdgt
            have hdl : dk.dropLast.length = dk.length - 1 := by
              rw [List.dropLast_eq_take, List.length_take]
              omega
            rw [MIN_eq, MAX_eq, hdl]
            exact ⟨Or.inr (by omega), by omega⟩
          · rw [if_neg hj2] at hj
            exact hszc j x hj (by omega)
  · -- height ≥ 2: both siblings are internal nodes
    obtain ⟨ck, cc, rfl⟩ := Bal_ge_two_node hg2 hbc
    obtain ⟨dk, dc, rfl⟩ := Bal_ge_two_node hg2 hbd
    rw [SizeOk_node] at hsd
    obtain ⟨hsd1, hsd2, hsd3, hsd4, hsd5⟩ := hsd
    obtain ⟨hdr, hdn⟩ := hdef
    rw [SizeOkRem_node] at hdr
    obtain ⟨hdr1, hdr2, hdr3, hdr4⟩ := hdr
    rw [numElems_node] at hdn hdgt
    cases hlast : dk.getLast? with
    | none =>
      rw [List.getLast?_eq_none_iff] at hlast
      subst hlast
      rw [MIN_eq] at hdgt
      simp at hdgt
    | some dkL =>
      cases hclast : dc.getLast? with
      | none =>
        rw [List.getLast?_eq_none_iff] at hclast
        subst hclast
        simp only [List.length_nil] at hsd4
        omega
      | some dcL =>
        simp only [rotateLeft, hsep, hc, hd, hlast, hclast]
        have hdk : dk.dropLast ++ [dkL] = dk := List.dropLast_append_getLast? _ hlast
        have hdc : dc.dropLast ++ [dcL] = dc := List.dropLast_append_getLast? _ hclast
        have hKd := Ordd_node.mp hod
        obtain ⟨hKdk, hFd⟩ := hKd
        have hKdk2 := hKdk
        rw [← hdk, keysOf_append] at hKdk2
        have hkl : keysOf [dkL] = [dkL.1] := rfl
        rw [hkl, KeysB_concat] at hKdk2
        obtain ⟨hKdl, hdlL, hdlU⟩ := hKdk2
        have hlt : dkL.1 < sep.1 := OUB_some.mp hdlU
        have hks' : keysOf (kvs.set (i - 1) dkL) = (keysOf kvs).set (i - 1) dkL.1 :=
          keysOf_set kvs (i - 1) dkL
        have hoc2 := Ordd_node.mp hoc
        obtain ⟨hKc, hFc⟩ := hoc2
        -- the donor's last key index
        have hdklen : 1 ≤ dk.length := by
          rw [MIN_eq] at hdgt; omega
        have hkdk : (keysOf dk).length = dk.length := keysOf_length dk
        have hmk : (keysOf dk)[(keysOf dk).length - 1]? = some dkL.1 := by
          have h1 : dk[dk.length - 1]? = some dkL := by
            rw [← List.getLast?_eq_getElem?]
            exact hlast
          rw [keysOf_getElem?, hkdk, h1]
          rfl
        -- donor's last child
        have hdcL : dc[dc.length - 1]? = some dcL := by
          rw [← List.getLast?_eq_getElem?]
          exact hclast
        have hfdL := hFd (dc.length - 1) dcL hdcL
        have hfdLb : Ordd (some dkL.1) (some sep.1) dcL := by
          have hlb2 : lbAt (lbAt lo (keysOf kvs) (i - 1)) (keysOf dk) (dc.length - 1) =
              some dkL.1 := by
            have he : dc.length - 1 = ((keysOf dk).length - 1) + 1 := by
              rw [hkdk]; omega
            rw [he]
            show (keysOf dk)[(keysOf dk).length - 1]? = some dkL.1
            exact hmk
          have hub2 : ubAt (some sep.1) (keysOf dk) (dc.length - 1) = some sep.1 := by
            unfold ubAt
            rw [if_pos (by rw [hkdk]; omega)]
          rw [hlb2, hub2] at hfdL
          exact hfdL
        -- new donor (left half of the old one)
        have hC : Ordd (lbAt lo (keysOf kvs) (i - 1)) (some dkL.1)
            (.node dk.dropLast dc.dropLast) := by
          rw [Ordd_node]
          constructor
          · rw [keysOf_dropLast, ← hdk, keysOf_append, hkl, List.dropLast_concat]
            exact hKdl
          · have htk := ordc_take hmk hFd
            intro j x hj
            have hdc2 : dc.dropLast = dc.take ((keysOf dk).length - 1 + 1) := by
              rw [List.dropLast_eq_take, hkdk]
              congr 1
              omega
            have hdk2 : keysOf dk.dropLast = (keysOf dk).take ((keysOf dk).length - 1) := by
              rw [keysOf_dropLast, List.dropLast_eq_take]
            rw [hdc2] at hj
            have h2 := htk j x hj
            rw [hdk2]
            exact h2
        -- new child i (separator and donor's last child prepended)
        have hD : Ordd (some dkL.1) (ubAt hi (keysOf kvs) (i - 1 + 1))
            (.node (sep :: ck) (dcL :: cc)) := by
          rw [him1, Ordd_node, keysOf_cons]
          constructor
          · rw [KeysB_cons]
            exact ⟨OLB_some.mpr hlt, him1 ▸ OUB_ubAt_succ hKB hsk, hKc⟩
          · exact ordc_cons hfdLb hFc
        refine ⟨kvs.set (i - 1) dkL, _, rfl, Or.inl (by rw [List.length_set]), ?_, ?_, ?_, ?_, ?_⟩
        · rw [List.length_set, List.length_set, List.length_set]; omega
        · rw [hks']
          exact KeysB_set hKB hsk hdlL
            (OUB_mono (OUB_ubAt_succ hKB hsk) (le_of_lt hlt))
            (OLB_of_lbAt hKB (by omega) hdlL)
            (OUB_mono hsepmem.2 (le_of_lt hlt))
        · rw [hks']
          have h2 := ordc_set2 (C := (.node dk.dropLast dc.dropLast : BNode K V))
            (D := (.node (sep :: ck) (dcL :: cc) : BNode K V)) (by omega) (by omega)
            hsk hordc hC hD
          rw [him1] at h2
          exact h2
        · intro x hx
          rcases List.mem_or_eq_of_mem_set hx with hx | hx
          · rcases List.mem_or_eq_of_mem_set hx with hx | hx
            · exact hbalc x hx
            · subst hx
              rw [Bal_node]
              have hbd2 := Bal_node.mp hbd
              refine ⟨hg2, ?_⟩
              intro y hy
              exact hbd2.2 y ((List.dropLast_sublist _).mem hy)
          · subst hx
            rw [Bal_node]
            have hbc2 := Bal_node.mp hbc
            have hbd2 := Bal_node.mp hbd
            refine ⟨hg2, ?_⟩
            intro y hy
            rcases List.mem_cons.mp hy with hy | hy
            · rw [hy]
              exact hbd2.2 dcL (List.getElem?_mem hdcL)
            · exact hbc2.2 y hy
        · intro x hx
          rw [List.mem_iff_getElem?] at hx
          obtain ⟨j, hj⟩ := hx
          rw [List.getElem?_set] at hj
          by_cases hj1 : i = j
          · rw [if_pos hj1, if_pos (by rw [List.length_set]; omega)] at hj
            injection hj with hj
            subst hj
            rw [SizeOk_node]
            rw [MIN_eq] at hdn
            rcases hdr1 with hh | hh
            · simp at hh
            · rw [MIN_eq] at hh
              rw [MIN_eq, MAX_eq]
              simp only [List.length_cons]
              refine ⟨Or.inr (by omega), by omega, by omega, by omega, ?_⟩
              intro y hy
              rcases List.mem_cons.mp hy with hy | hy
              · rw [hy]
                exact hsd5 dcL (List.getElem?_mem hdcL)
              · exact hdr4 y hy
          · rw [if_neg hj1, List.getElem?_set] at hj
            by_cases hj2 : i - 1 = j
            · rw [if_pos hj2, if_pos (by omega)] at hj
              injection hj with hj
              subst hj
              rw [SizeOk_node]
              rw [MAX_eq] at hsd3
              rw [MIN_eq] at hdgt
              have hdl : dk.dropLast.length = dk.length - 1 := by
                rw [List.dropLast_eq_take, List.length_take]
                omega
              have hdcl : dc.dropLast.length = dc.length - 1 := by
                rw [List.dropLast_eq_take, List.length_take]
                omega
              rw [MIN_eq, MAX_eq, hdl, hdcl]
              refine ⟨Or.inr (by omega), by omega, by omega, by omega, ?_⟩
              intro y hy
              exact hsd5 y ((List.dropLast_sublist _).mem hy)
            · rw [if_neg hj2] at hj
              exact hszc j x hj (by omega)

theorem SizeOk_to_Rem {t : BNode K V} (h : SizeOk false t) : SizeOkRem false t := by
  cases t with
  | leaf kvs =>
    rw [SizeOk_leaf] at h
    rw [SizeOkRem_leaf]
    rcases h.1 with hh | hh
    · simp at hh
    · exact ⟨Or.inr (by omega), h.2⟩
  | node kvs ch =>
    rw [SizeOk_node] at h
    rw [SizeOkRem_node]
    rcases h.1 with hh | hh
    · simp at hh
    · exact ⟨Or.inr (by omega), h.2.2.1, h.2.2.2⟩

/-- Children bounds after merging children `m` and `m + 1` around separator
`ks[m]` into a single node `M`. -/
theorem ordc_merge {lo hi : Option K} {ks : List K} {ch : List (BNode K V)}
    {m : Nat} {M : BNode K V}
    (hchlen : ch.length = ks.length + 1) (hmlt : m < ks.length)
    (hordc : ∀ j x, ch[j]? = some x → Ordd (lbAt lo ks j) (ubAt hi ks j) x)
    (hM : Ordd (lbAt lo ks m) (ubAt hi ks (m + 1)) M) :
    ∀ j x, ((ch.eraseIdx (m + 1)).set m M)[j]? = some x →
      Ordd (lbAt lo (ks.eraseIdx m) j) (ubAt hi (ks.eraseIdx m) j) x := by
  intro j x hx
  have hlen' : (ks.eraseIdx m).length = ks.length - 1 := by
    rw [List.length_eraseIdx, if_pos (by omega)]
  have helen : (ch.eraseIdx (m + 1)).length = ks.length := by
    rw [List.length_eraseIdx, if_pos (by omega)]
    omega
  have hks' : ∀ n, (ks.eraseIdx m)[n]? = if n < m then ks[n]? else ks[n + 1]? :=
    fun n => List.getElem?_eraseIdx _ _ _
  rw [List.getElem?_set] at hx
  by_cases hjm : m = j
  · rw [if_pos hjm, if_pos (by omega)] at hx
    injection hx with hx
    subst hx
    subst hjm
    have hlb : lbAt lo (ks.eraseIdx m) m = lbAt lo ks m := by
      cases m with
      | zero => rfl
      | succ mm =>
        show (ks.eraseIdx (mm + 1))[mm]? = ks[mm]?
        rw [hks', if_pos (by omega)]
    have hub : ubAt hi (ks.eraseIdx m) m = ubAt hi ks (m + 1) := by
      unfold ubAt
      rw [hlen']
      by_cases hje : m = ks.length - 1
      · rw [if_pos hje, if_pos (by omega)]
      · rw [if_neg hje, if_neg (by omega), hks', if_neg (by omega)]
    rw [hlb, hub]
    exact hM
  · rw [if_neg hjm] at hx
    rw [List.getElem?_eraseIdx] at hx
    by_cases hj1 : j < m + 1
    · rw [if_pos hj1] at hx
      have hres := hordc j x hx
      have hlb : lbAt lo (ks.eraseIdx m) j = lbAt lo ks j := by
        cases j with
        | zero => rfl
        | succ jj =>
          show (ks.eraseIdx m)[jj]? = ks[jj]?
          rw [hks', if_pos (by omega)]
      have hub : ubAt hi (ks.eraseIdx m) j = ubAt hi ks j := by
        unfold ubAt
        rw [hlen']
        have hjlt : j < m := by omega
        rw [if_neg (by omega), if_neg (by omega), hks', if_pos (by omega)]
      rw [hlb, hub]
      exact hres
    · rw [if_neg hj1] at hx
      have hres := hordc (j + 1) x hx
      have hjgt : m < j := by omega
      have hjlen : j + 1 < ch.length := getElem?_lt_length hx
      have hlb : lbAt lo (ks.eraseIdx m) j = lbAt lo ks (j + 1) := by
        cases j with
        | zero => omega
        | succ jj =>
          show (ks.eraseIdx m)[jj]? = lbAt lo ks (jj + 1 + 1)
          rw [hks', if_neg (by omega)]
          rfl
      have hub : ubAt hi (ks.eraseIdx m) j = ubAt hi ks (j + 1) := by
        unfold ubAt
        rw [hlen']
        by_cases hje : j = ks.length - 1
        · rw [if_pos hje, if_pos (by omega)]
        · rw [if_neg hje, if_neg (by omega), hks', if_neg (by omega)]
      rw [hlb, hub]
      exact hres

/-- Merging the underfull child with its sibling (around the separator at
`left = i.saturating_sub(1)`) restores the node. -/
theorem mergeAt_spec {lo hi : Option K} {kvs : List (K × V)}
    {ch : List (BNode K V)} {i : Nat} {hg : Nat}
    (hchlen : ch.length = kvs.length + 1) (hmin1 : 1 ≤ kvs.length)
    (hmax : kvs.length ≤ MAX_NUM_ELEMENTS) (hilt : i < ch.length)
    (hKB : KeysB lo hi (keysOf kvs))
    (hordc : ∀ j x, ch[j]? = some x →
      Ordd (lbAt lo (keysOf kvs) j) (ubAt hi (keysOf kvs) j) x)
    (hbalc : ∀ x ∈ ch, Bal hg x)
    (hszc : ∀ j x, ch[j]? = some x → j ≠ i → SizeOk false x)
    (hrem : ∀ x, ch[i - 1]? = some x → SizeOkRem false x)
    (hrem2 : ∀ x, ch[i - 1 + 1]? = some x → SizeOkRem false x)
    (hsum : ∀ x y, ch[i - 1]? = some x → ch[i - 1 + 1]? = some y →
      MIN_NUM_ELEMENTS - 1 ≤ numElems x + numElems y ∧
      numElems x + numElems y ≤ MAX_NUM_ELEMENTS - 1) :
    ResolveOut lo hi hg kvs (mergeAt kvs ch i) := by
  have hkslen : (keysOf kvs).length = kvs.length := keysOf_length kvs
  have hmlt : i - 1 < kvs.length := by omega
  obtain ⟨sep, hsep⟩ : ∃ p, kvs[i - 1]? = some p :=
    ⟨_, List.getElem?_eq_getElem (by omega)⟩
  obtain ⟨lc, hlc⟩ : ∃ c, ch[i - 1]? = some c :=
    ⟨_, List.getElem?_eq_getElem (by omega)⟩
  obtain ⟨rc, hrc⟩ : ∃ c, ch[i - 1 + 1]? = some c :=
    ⟨_, List.getElem?_eq_getElem (by omega)⟩
  have hsk : (keysOf kvs)[i - 1]? = some sep.1 := by rw [keysOf_getElem?, hsep]; rfl
  have hub_l : ubAt hi (keysOf kvs) (i - 1) = some sep.1 := by
    unfold ubAt
    rw [if_neg (by omega), hsk]
  have hlb_r : lbAt lo (keysOf kvs) (i - 1 + 1) = some sep.1 := hsk
  have holc := hordc (i - 1) lc hlc
  rw [hub_l] at holc
  have horc := hordc (i - 1 + 1) rc hrc
  rw [hlb_r] at horc
  have hblc := hbalc lc (List.getElem?_mem hlc)
  have hbrc := hbalc rc (List.getElem?_mem hrc)
  have hslc := hrem lc hlc
  have hsrc := hrem2 rc hrc
  obtain ⟨hsum1, hsum2⟩ := hsum lc rc hlc hrc
  rcases Nat.lt_or_ge hg 2 with hg1 | hg2
  · -- leaves
    have hg1' : hg = 1 := by have := Bal_pos hblc; omega
    subst hg1'
    obtain ⟨lk, rfl⟩ := Bal_one_leaf hblc
    obtain ⟨rk, rfl⟩ := Bal_one_leaf hbrc
    simp only [mergeAt, hsep, hlc, hrc]
    have hM : Ordd (lbAt lo (keysOf kvs) (i - 1))
        (ubAt hi (keysOf kvs) (i - 1 + 1)) (.leaf (lk ++ sep :: rk) : BNode K V) := by
      rw [Ordd_leaf, keysOf_append, keysOf_cons, KeysB_append_sep]
      exact ⟨Ordd_leaf.mp holc, OLB_lbAt_self hKB hsk, OUB_ubAt_succ hKB hsk,
        Ordd_leaf.mp horc⟩
    refine ⟨kvs.eraseIdx (i - 1), _, rfl, Or.inr ?_, ?_, ?_, ?_, ?_, ?_⟩
    · rw [List.length_eraseIdx, if_pos (by omega)]
      omega
    · rw [List.length_set, List.length_eraseIdx, if_pos (by omega),
        List.length_eraseIdx, if_pos (by omega)]
      omega
    · rw [keysOf_eraseIdx]
      exact hKB.sublist (List.eraseIdx_sublist _ _)
    · rw [keysOf_eraseIdx]
      exact ordc_merge (by omega) (by omega) hordc hM
    · intro x hx
      rcases List.mem_or_eq_of_mem_set hx with hx | hx
      · exact hbalc x ((List.eraseIdx_sublist _ _).mem hx)
      · subst hx; exact Bal_leaf.mpr rfl
    · intro x hx
      rw [List.mem_iff_getElem?] at hx
      obtain ⟨j, hj⟩ := hx
      rw [List.getElem?_set] at hj
      by_cases hjm : i - 1 = j
      · rw [if_pos hjm, if_pos (by rw [List.length_eraseIdx, if_pos (by omega)]; omega)] at hj
        injection hj with hj
        subst hj
        rw [SizeOk_leaf]
        simp only [numElems_leaf] at hsum1 hsum2
        rw [MIN_eq] at hsum1
        rw [MAX_eq] at hsum2
        rw [MIN_eq, MAX_eq]
        simp only [List.length_append, List.length_cons]
        exact ⟨Or.inr (by omega), by omega⟩
      · rw [if_neg hjm, List.getElem?_eraseIdx] at hj
        by_cases hj1 : j < i - 1 + 1
        · exact hszc j x (by rw [if_pos hj1] at hj; exact hj) (by omega)
        · rw [if_neg hj1] at hj
          exact hszc (j + 1) x hj (by omega)
  · -- internal nodes
    obtain ⟨lk, lcc, rfl⟩ := Bal_ge_two_node hg2 hblc
    obtain ⟨rk, rcc, rfl⟩ := Bal_ge_two_node hg2 hbrc
    rw [SizeOkRem_node] at hslc hsrc
    obtain ⟨hsl1, hsl2, hsl3, hsl4⟩ := hslc
    obtain ⟨hsr1, hsr2, hsr3, hsr4⟩ := hsrc
    simp only [mergeAt, hsep, hlc, hrc]
    have hoL := Ordd_node.mp holc
    have hoR := Ordd_node.mp horc
    have hM : Ordd (lbAt lo (keysOf kvs) (i - 1))
        (ubAt hi (keysOf kvs) (i - 1 + 1))
        (.node (lk ++ sep :: rk) (lcc ++ rcc)) := by
      rw [Ordd_node, keysOf_append, keysOf_cons]
      constructor
      · rw [KeysB_append_sep]
        exact ⟨hoL.1, OLB_lbAt_self hKB hsk, OUB_ubAt_succ hKB hsk, hoR.1⟩
      · exact ordc_append_sep (by rw [keysOf_length]; omega) hoL.2 hoR.2
    refine ⟨kvs.eraseIdx (i - 1), _, rfl, Or.inr ?_, ?_, ?_, ?_, ?_, ?_⟩
    · rw [List.length_eraseIdx, if_pos (by omega)]
      omega
    · rw [List.length_set, List.length_eraseIdx, if_pos (by omega),
        List.length_eraseIdx, if_pos (by omega)]
      omega
    · rw [keysOf_eraseIdx]
      exact hKB.sublist (List.eraseIdx_sublist _ _)
    · rw [keysOf_eraseIdx]
      exact ordc_merge (by omega) (by omega) hordc hM
    · intro x hx
      rcases List.mem_or_eq_of_mem_set hx with hx | hx
      · exact hbalc x ((List.eraseIdx_sublist _ _).mem hx)
      · subst hx
        rw [Bal_node]
        have hbl2 := Bal_node.mp hblc
        have hbr2 := Bal_node.mp hbrc
        refine ⟨hg2, ?_⟩
        intro y hy
        rw [List.mem_append] at hy
        rcases hy with hy | hy
        · exact hbl2.2 y hy
        · exact hbr2.2 y hy
    · intro x hx
      rw [List.mem_iff_getElem?] at hx
      obtain ⟨j, hj⟩ := hx
      rw [List.getElem?_set] at hj
      by_cases hjm : i - 1 = j
      · rw [if_pos hjm, if_pos (by rw [List.length_eraseIdx, if_pos (by omega)]; omega)] at hj
        injection hj with hj
        subst hj
        rw [SizeOk_node]
        simp only [numElems_node] at hsum1 hsum2
        rw [MIN_eq] at hsum1
        rw [MAX_eq] at hsum2
        rw [MIN_eq, MAX_eq]
        simp only [List.length_append, List.length_cons]
        refine ⟨Or.inr (by omega), by omega, by omega, by omega, ?_⟩
        intro y hy
        rw [List.mem_append] at hy
        rcases hy with hy | hy
        · exact hsl4 y hy
        · exact hsr4 y hy
      · rw [if_neg hjm, List.getElem?_eraseIdx] at hj
        by_cases hj1 : j < i - 1 + 1
        · exact hszc j x (by rw [if_pos hj1] at hj; exact hj) (by omega)
        · rw [if_neg hj1] at hj
          exact hszc (j + 1) x hj (by omega)

theorem SizeOk_numElems {t : BNode K V} (h : SizeOk false t) :
    MIN_NUM_ELEMENTS ≤ numElems t ∧ numElems t ≤ MAX_NUM_ELEMENTS := by
  cases t with
  | leaf kvs =>
    rw [SizeOk_leaf] at h
    rcases h.1 with hh | hh
    · simp at hh
    · exact ⟨hh, h.2⟩
  | node kvs ch =>
    rw [SizeOk_node] at h
    rcases h.1 with hh | hh
    · simp at hh
    · exact ⟨hh, h.2.2.1⟩

theorem SizeOkRem_numElems {t : BNode K V} (h : SizeOkRem false t) :
    MIN_NUM_ELEMENTS - 1 ≤ numElems t ∧ numElems t ≤ MAX_NUM_ELEMENTS := by
  cases t with
  | leaf kvs =>
    rw [SizeOkRem_leaf] at h
    rcases h.1 with hh | hh
    · simp at hh
    · exact ⟨hh, h.2⟩
  | node kvs ch =>
    rw [SizeOkRem_node] at h
    rcases h.1 with hh | hh
    · simp at hh
    · exact ⟨hh, h.2.1⟩

theorem resolveLeftOrMerge_spec {lo hi : Option K} {kvs : List (K × V)}
    {ch : List (BNode K V)} {i : Nat} {hg : Nat}
    (hchlen : ch.length = kvs.length + 1) (hmin1 : 1 ≤ kvs.length)
    (hmax : kvs.length ≤ MAX_NUM_ELEMENTS) (hilt : i < ch.length)
    (hKB : KeysB lo hi (keysOf kvs))
    (hordc : ∀ j x, ch[j]? = some x →
      Ordd (lbAt lo (keysOf kvs) j) (ubAt hi (keysOf kvs) j) x)
    (hbalc : ∀ x ∈ ch, Bal hg x)
    (hszc : ∀ j x, ch[j]? = some x → j ≠ i → SizeOk false x)
    (hdefi : ∀ x, ch[i]? = some x → SizeOkRem false x ∧
      numElems x < MIN_NUM_ELEMENTS)
    (hrsib : ∀ d, ch[i + 1]? = some d → numElems d ≤ MIN_NUM_ELEMENTS) :
    ResolveOut lo hi hg kvs (resolveLeftOrMerge kvs ch i) := by
  by_cases hi0 : i = 0
  · rw [resolveLeftOrMerge, if_pos hi0]
    subst hi0
    refine mergeAt_spec hchlen hmin1 hmax hilt hKB hordc hbalc hszc ?_ ?_ ?_
    · intro x hx
      exact (hdefi x hx).1
    · intro x hx
      exact SizeOk_to_Rem (hszc 1 x hx (by omega))
    · intro x y hx hy
      obtain ⟨hx1, hx2⟩ := hdefi x hx
      have hx3 := SizeOkRem_numElems hx1
      have hy1 := SizeOk_numElems (hszc 1 y hy (by omega))
      have hy2 := hrsib y hy
      rw [MIN_eq, MAX_eq] at *
      omega
  · rw [resolveLeftOrMerge, if_neg hi0]
    have him1 : i - 1 + 1 = i := by omega
    cases hd : ch[i - 1]? with
    | none =>
      exfalso
      rw [List.getElem?_eq_none_iff] at hd
      omega
    | some d =>
      show ResolveOut lo hi hg kvs
        (if MIN_NUM_ELEMENTS < numElems d then rotateLeft kvs ch i else mergeAt kvs ch i)
      by_cases hdgt : MIN_NUM_ELEMENTS < numElems d
      · rw [if_pos hdgt]
        exact rotateLeft_spec hchlen hmax hKB hordc hbalc hszc hdefi hi0 hilt hd hdgt
      · rw [if_neg hdgt]
        refine mergeAt_spec hchlen hmin1 hmax hilt hKB hordc hbalc hszc ?_ ?_ ?_
        · intro x hx
          exact SizeOk_to_Rem (hszc (i - 1) x hx (by omega))
        · intro x hx
          rw [him1] at hx
          exact (hdefi x hx).1
        · intro x y hx hy
          rw [him1] at hy
          obtain ⟨hy1, hy2⟩ := hdefi y hy
          have hy3 := SizeOkRem_numElems hy1
          have hx1 := SizeOk_numElems (hszc (i - 1) x hx (by omega))
          rw [hx] at hd
          injection hd with hd
          subst hd
          rw [MIN_eq, MAX_eq] at *
          omega

/-- `resolve_underflow` restores the node: element count drops by at most
one, and order, balance and sizes hold for the result. -/
theorem resolveUnderflow_spec {lo hi : Option K} {kvs : List (K × V)}
    {ch : List (BNode K V)} {i : Nat} {hg : Nat}
    (hchlen : ch.length = kvs.length + 1) (hmin1 : 1 ≤ kvs.length)
    (hmax : kvs.length ≤ MAX_NUM_ELEMENTS) (hilt : i < ch.length)
    (hKB : KeysB lo hi (keysOf kvs))
    (hordc : ∀ j x, ch[j]? = some x →
      Ordd (lbAt lo (keysOf kvs) j) (ubAt hi (keysOf kvs) j) x)
    (hbalc : ∀ x ∈ ch, Bal hg x)
    (hszc : ∀ j x, ch[j]? = some x → j ≠ i → SizeOk false x)
    (hdefi : ∀ x, ch[i]? = some x → SizeOkRem false x ∧
      numElems x < MIN_NUM_ELEMENTS) :
    ResolveOut lo hi hg kvs (resolveUnderflow kvs ch i) := by
  cases hd : ch[i + 1]? with
  | none =>
    simp only [resolveUnderflow, hd]
    refine resolveLeftOrMerge_spec hchlen hmin1 hmax hilt hKB hordc hbalc hszc hdefi ?_
    intro d hd2
    rw [hd2] at hd
    cases hd
  | some d =>
    simp only [resolveUnderflow, hd]
    show ResolveOut lo hi hg kvs
      (if MIN_NUM_ELEMENTS < numElems d then rotateRight kvs ch i
       else resolveLeftOrMerge kvs ch i)
    by_cases hdgt : MIN_NUM_ELEMENTS < numElems d
    · rw [if_pos hdgt]
      exact rotateRight_spec hchlen hmax hKB hordc hbalc hszc hdefi hd hdgt
    · rw [if_neg hdgt]
      refine resolveLeftOrMerge_spec hchlen hmin1 hmax hilt hKB hordc hbalc hszc hdefi ?_
      intro d2 hd2
      rw [hd2] at hd
      injection hd with hd
      subst hd
      omega

theorem Rem_to_SizeOk {t : BNode K V} (h : SizeOkRem false t)
    (hm : MIN_NUM_ELEMENTS ≤ numElems t) : SizeOk false t := by
  cases t with
  | leaf kvs =>
    rw [SizeOkRem_leaf] at h
    rw [numElems_leaf] at hm
    exact SizeOk_leaf.mpr ⟨Or.inr hm, h.2⟩
  | node kvs ch =>
    rw [SizeOkRem_node] at h
    rw [numElems_node] at hm
    exact SizeOk_node.mpr ⟨Or.inr hm, by rw [MIN_eq] at hm; omega, h.2.1, h.2.2.1, h.2.2.2⟩

/-- Shrinking the upper bound to a value above the last key. -/
theorem KeysB_shrink_hi {lo hi : Option K} {ks : List K} {m : K}
    (hK : KeysB lo hi ks) (hm : OLB (ks[ks.length - 1]?) m) :
    KeysB lo (some m) ks := by
  refine ⟨hK.1, ?_⟩
  intro k hk
  refine ⟨(hK.2 k hk).1, ?_⟩
  rw [OUB_some]
  rw [List.mem_iff_getElem?] at hk
  obtain ⟨j, hj⟩ := hk
  have hjlen : j < ks.length := getElem?_lt_length hj
  have hlastget : ks[ks.length - 1]? = some ks[ks.length - 1] :=
    List.getElem?_eq_getElem (by omega)
  have hlast_lt : ks[ks.length - 1] < m := (hlastget ▸ hm) _ rfl
  rcases Nat.lt_or_ge j (ks.length - 1) with hcase | hcase
  · exact lt_trans (hK.lt_of_getElem? hj hlastget hcase) hlast_lt
  · have : j = ks.length - 1 := by omega
    subst this
    rw [hlastget] at hj
    injection hj with hj
    subst hj
    exact hlast_lt

/-- `removeMax` (the predecessor hunt of `remove` plus the way-up underflow
fixes) returns the maximum and a tree that may be one element short at the
top, with all keys now below the removed maximum. -/
theorem removeMax_spec (t : BNode K V) :
    ∀ {hg : Nat} {lo hi : Option K}, Bal hg t → SizeOk false t → Ordd lo hi t →
      ∃ kv t', removeMax t = some (kv, t') ∧ Bal hg t' ∧ SizeOkRem false t' ∧
        Ordd lo (some kv.1) t' ∧ OLB lo kv.1 ∧ OUB hi kv.1 := by
  induction t using sizeOf_strongInd with
  | ih t IH =>
    cases t with
    | leaf kvs =>
      intro hg lo hi hbal hsz hord
      rw [SizeOk_leaf] at hsz
      have hne : kvs ≠ [] := by
        intro he
        subst he
        rcases hsz.1 with hh | hh
        · simp at hh
        · rw [MIN_eq] at hh; simp at hh
      cases hlast : kvs.getLast? with
      | none => rw [List.getLast?_eq_none_iff] at hlast; exact absurd hlast hne
      | some kv =>
        have hdk : kvs.dropLast ++ [kv] = kvs := List.dropLast_append_getLast? _ hlast
        rw [Ordd_leaf] at hord
        have hord2 := hord
        rw [← hdk, keysOf_append] at hord2
        have hkl : keysOf [kv] = [kv.1] := rfl
        rw [hkl, KeysB_concat] at hord2
        obtain ⟨hKd, hL, hU⟩ := hord2
        refine ⟨kv, .leaf kvs.dropLast, ?_, Bal_leaf.mpr (Bal_leaf.mp hbal), ?_, ?_, hL, hU⟩
        · simp only [removeMax, hlast]
        · rw [SizeOkRem_leaf]
          have hdl : kvs.dropLast.length = kvs.length - 1 := by
            rw [List.dropLast_eq_take, List.length_take]
            omega
          rcases hsz.1 with hh | hh
          · simp at hh
          · rw [MIN_eq] at hh
            rw [MIN_eq, MAX_eq, hdl]
            rw [MAX_eq] at hsz
            exact ⟨Or.inr (by omega), by omega⟩
        · rw [Ordd_leaf, keysOf_dropLast, ← hdk, keysOf_append, hkl,
            List.dropLast_concat]
          exact hKd
    | node kvs ch =>
      intro hg lo hi hbal hsz hord
      rw [Bal_node] at hbal
      obtain ⟨hh2, hbalc⟩ := hbal
      rw [SizeOk_node] at hsz
      obtain ⟨hminr, hmin1, hmax, hchlen, hszc⟩ := hsz
      rw [Ordd_node] at hord
      obtain ⟨hKB, hordc⟩ := hord
      have hkslen : (keysOf kvs).length = kvs.length := keysOf_length kvs
      obtain ⟨c, hch⟩ : ∃ c, ch[ch.length - 1]? = some c :=
        ⟨_, List.getElem?_eq_getElem (by omega)⟩
      have hidx : ch.length - 1 = kvs.length := by omega
      have hcmem : c ∈ ch := List.getElem?_mem hch
      have hoc := hordc (ch.length - 1) c hch
      rw [hidx] at hoc
      have hub_last : ubAt hi (keysOf kvs) kvs.length = hi := by
        unfold ubAt
        rw [if_pos (by omega)]
      rw [hub_last] at hoc
      obtain ⟨kv, c', hrm, hB, hS, hO, hL, hU⟩ :=
        IH c (sizeOf_lt_of_mem_children hcmem) (hbalc c hcmem) (hszc c hcmem) hoc
      have hLlo : OLB lo kv.1 := OLB_of_lbAt hKB (by omega) hL
      have hKB2 : KeysB lo (some kv.1) (keysOf kvs) := by
        refine KeysB_shrink_hi hKB ?_
        rw [hkslen]
        have h2 : lbAt lo (keysOf kvs) kvs.length = (keysOf kvs)[kvs.length - 1]? := by
          cases hk0 : kvs.length with
          | zero => omega
          | succ n => rfl
        rw [← h2]
        exact hL
      have hordc2 : ∀ j x, (ch.set (ch.length - 1) c')[j]? = some x →
          Ordd (lbAt lo (keysOf kvs) j) (ubAt (some kv.1) (keysOf kvs) j) x := by
        intro j x hx
        rw [List.getElem?_set] at hx
        by_cases hj : ch.length - 1 = j
        · rw [if_pos hj, if_pos (by omega)] at hx
          injection hx with hx
          subst hx
          have hub2 : ubAt (some kv.1) (keysOf kvs) j = some kv.1 := by
            unfold ubAt
            rw [if_pos (by omega)]
          rw [hub2, ← hj, hidx]
          exact hO
        · rw [if_neg hj] at hx
          have hres := hordc j x hx
          have hjlen : j < ch.length := getElem?_lt_length hx
          have hub2 : ubAt (some kv.1) (keysOf kvs) j = ubAt hi (keysOf kvs) j := by
            unfold ubAt
            rw [if_neg (by omega), if_neg (by omega)]
          rw [hub2]
          exact hres
      have hbalc2 : ∀ x ∈ ch.set (ch.length - 1) c', Bal (hg - 1) x := by
        intro x hx
        rcases List.mem_or_eq_of_mem_set hx with hx | hx
        · exact hbalc x hx
        · subst hx; exact hB
      have hgo : removeMax (.node kvs ch) =
          (if numElems c' < MIN_NUM_ELEMENTS then
            some (kv, resolveUnderflow kvs (ch.set (ch.length - 1) c') kvs.length)
          else some (kv, .node kvs (ch.set (ch.length - 1) c'))) := by
        unfold removeMax
        split
        · rename_i heq
          rw [heq] at hch
          cases hch
        · rename_i c2 heq
          rw [heq] at hch
          injection hch with hch2
          subst hch2
          split
          · rename_i heq2
            rw [heq2] at hrm
            cases hrm
          · rename_i kv2 c2' heq2
            rw [heq2] at hrm
            injection hrm with hrm2
            injection hrm2 with h1 h2
            subst h1
            subst h2
            rfl
      rw [hgo]
      by_cases hlt : numElems c' < MIN_NUM_ELEMENTS
      · rw [if_pos hlt]
        have hszc2 : ∀ j x, (ch.set (ch.length - 1) c')[j]? = some x →
            j ≠ kvs.length → SizeOk false x := by
          intro j x hx hji
          rw [List.getElem?_set] at hx
          by_cases hj : ch.length - 1 = j
          · omega
          · rw [if_neg hj] at hx
            exact hszc x (List.getElem?_mem hx)
        have hdefi2 : ∀ x, (ch.set (ch.length - 1) c')[kvs.length]? = some x →
            SizeOkRem false x ∧ numElems x < MIN_NUM_ELEMENTS := by
          intro x hx
          rw [List.getElem?_set, if_pos (by omega), if_pos (by omega)] at hx
          injection hx with hx
          subst hx
          exact ⟨hS, hlt⟩
        obtain ⟨kvs', ch'', heq, hlen1, hlen2, hKB3, hF3, hBal3, hSz3⟩ :=
          @resolveUnderflow_spec K V _ lo (some kv.1) kvs
            (ch.set (ch.length - 1) c') kvs.length (hg - 1)
            (by rw [List.length_set]; omega) hmin1 hmax
            (by rw [List.length_set]; omega) hKB2 hordc2 hbalc2 hszc2 hdefi2
        rw [heq]
        refine ⟨kv, .node kvs' ch'', rfl, ?_, ?_, ?_, hLlo, hU⟩
        · rw [Bal_node]
          exact ⟨hh2, hBal3⟩
        · rw [SizeOkRem_node]
          rcases hminr with hmr | hmr
          · simp at hmr
          · rw [MIN_eq] at hmr
            rw [MAX_eq] at hmax
            rw [MIN_eq, MAX_eq]
            rcases hlen1 with hl1 | hl1
            · exact ⟨Or.inr (by omega), by omega, by omega, hSz3⟩
            · exact ⟨Or.inr (by omega), by omega, by omega, hSz3⟩
        · rw [Ordd_node]
          exact ⟨hKB3, hF3⟩
      · rw [if_neg hlt]
        refine ⟨kv, .node kvs (ch.set (ch.length - 1) c'), rfl, ?_, ?_, ?_, hLlo, hU⟩
        · rw [Bal_node]
          exact ⟨hh2, hbalc2⟩
        · rw [SizeOkRem_node]
          rcases hminr with hmr | hmr
          · simp at hmr
          · refine ⟨Or.inr (by rw [MIN_eq] at hmr ⊢; omega), hmax,
              by rw [List.length_set]; omega, ?_⟩
            intro x hx
            rcases List.mem_or_eq_of_mem_set hx with hx | hx
            · exact hszc x hx
            · subst hx
              exact Rem_to_SizeOk hS (by omega)
        · rw [Ordd_node]
          exact ⟨hKB2, hordc2⟩

/-- Children bounds after replacing the separator at `i` by a smaller key
`p` and child `i` by a subtree bounded above by `p` (the
predecessor-replacement step of `remove`). -/
theorem ordc_set_key {lo hi : Option K} {ks : List K} {ch : List (BNode K V)}
    {i : Nat} {C : BNode K V} {p old : K}
    (hchlen : ch.length = ks.length + 1) (hold : ks[i]? = some old) (hplt : p < old)
    (hordc : ∀ j x, ch[j]? = some x → Ordd (lbAt lo ks j) (ubAt hi ks j) x)
    (hC : Ordd (lbAt lo ks i) (some p) C) :
    ∀ j x, (ch.set i C)[j]? = some x →
      Ordd (lbAt lo (ks.set i p) j) (ubAt hi (ks.set i p) j) x := by
  have hilt : i < ks.length := getElem?_lt_length hold
  intro j x hx
  have hks' : ∀ m, (ks.set i p)[m]? =
      if i = m then (if i < ks.length then some p else none) else ks[m]? :=
    fun m => List.getElem?_set
  have hlen' : (ks.set i p).length = ks.length := by rw [List.length_set]
  rw [List.getElem?_set] at hx
  by_cases hj2 : i = j
  · rw [if_pos hj2, if_pos (by omega)] at hx
    injection hx with hx
    subst hx
    subst hj2
    have hlb : lbAt lo (ks.set i p) i = lbAt lo ks i := by
      cases i with
      | zero => rfl
      | succ ii =>
        show (ks.set (ii + 1) p)[ii]? = ks[ii]?
        rw [hks', if_neg (by omega)]
    have hub : ubAt hi (ks.set i p) i = some p := by
      unfold ubAt
      rw [hlen', if_neg (by omega), hks', if_pos rfl, if_pos (by omega)]
    rw [hlb, hub]
    exact hC
  · rw [if_neg hj2] at hx
    have hres := hordc j x hx
    by_cases hj1 : j = i + 1
    · subst hj1
      have hlb : lbAt lo (ks.set i p) (i + 1) = some p := by
        show (ks.set i p)[i]? = some p
        rw [hks', if_pos rfl, if_pos (by omega)]
      have hub : ubAt hi (ks.set i p) (i + 1) = ubAt hi ks (i + 1) := by
        unfold ubAt
        rw [hlen']
        by_cases hje : i + 1 = ks.length
        · rw [if_pos hje, if_pos hje]
        · rw [if_neg hje, if_neg hje, hks', if_neg (by omega)]
      rw [hlb, hub]
      have hlb_old : lbAt lo ks (i + 1) = some old := hold
      rw [hlb_old] at hres
      refine Ordd_mono x ?_ (fun k hk => hk) hres
      intro k hk
      rw [OLB_some] at hk ⊢
      exact lt_trans hplt hk
    · have hlb : lbAt lo (ks.set i p) j = lbAt lo ks j := by
        cases j with
        | zero => rfl
        | succ jj =>
          show (ks.set i p)[jj]? = ks[jj]?
          rw [hks', if_neg (by omega)]
      have hub : ubAt hi (ks.set i p) j = ubAt hi ks j := by
        unfold ubAt
        rw [hlen']
        by_cases hje : j = ks.length
        · rw [if_pos hje, if_pos hje]
        · rw [if_neg hje, if_neg hje, hks', if_neg (by omega)]
      rw [hlb, hub]
      exact hres

/-- The remove step on a subtree: when it removes a pair, order and balance
are preserved and the top may be left one element short
(`SizeOkRem`). -/
theorem removeGo_spec (key : K) (t : BNode K V) :
    ∀ {hg : Nat} {isRoot : Bool} {lo hi : Option K},
      Bal hg t → SizeOk isRoot t → Ordd lo hi t →
      ∀ kv t', removeGo key t = some (kv, t') →
        Bal hg t' ∧ SizeOkRem isRoot t' ∧ Ordd lo hi t' := by
  induction t using sizeOf_strongInd with
  | ih t IH =>
    cases t with
    | leaf kvs =>
      intro hg isRoot lo hi hbal hsz hord kv t' hres
      rw [SizeOk_leaf] at hsz
      rw [Ordd_leaf] at hord
      have hspec := removeLeaf_spec key kvs
      unfold removeGo at hres
      cases hrl : removeLeaf key kvs with
      | none =>
        simp only [hrl] at hres
        cases hres
      | some p =>
        obtain ⟨kv2, kvs'⟩ := p
        rw [hrl] at hspec
        simp only [hrl] at hres
        injection hres with hres
        injection hres with hres1 hres2
        subst hres1
        subst hres2
        refine ⟨Bal_leaf.mpr (Bal_leaf.mp hbal), ?_, ?_⟩
        · rw [SizeOkRem_leaf]
          obtain ⟨hsub, hlen⟩ := hspec
          rcases hsz.1 with hh | hh
          · subst hh
            exact ⟨Or.inl rfl, by rw [MAX_eq] at *; omega⟩
          · rw [MIN_eq] at hh
            rw [MIN_eq, MAX_eq]
            rw [MAX_eq] at hsz
            exact ⟨Or.inr (by omega), by omega⟩
        · rw [Ordd_leaf]
          exact hord.sublist hspec.1
    | node kvs ch =>
      intro hg isRoot lo hi hbal hsz hord kv t' hres
      rw [Bal_node] at hbal
      obtain ⟨hh2, hbalc⟩ := hbal
      rw [SizeOk_node] at hsz
      obtain ⟨hminr, hmin1, hmax, hchlen, hszc⟩ := hsz
      rw [Ordd_node] at hord
      obtain ⟨hKB, hordc⟩ := hord
      have hkslen : (keysOf kvs).length = kvs.length := keysOf_length kvs
      cases hscan : scanNode key kvs with
      | found i =>
        obtain ⟨⟨v0, hv0⟩, _⟩ := scanNode_found hscan
        have hilen : i < kvs.length := getElem?_lt_length hv0
        obtain ⟨c, hch⟩ : ∃ c, ch[i]? = some c :=
          ⟨_, List.getElem?_eq_getElem (by omega)⟩
        have hcmem : c ∈ ch := List.getElem?_mem hch
        have hoc := hordc i c hch
        have hsk : (keysOf kvs)[i]? = some key := by
          rw [keysOf_getElem?, hv0]; rfl
        have hub_i : ubAt hi (keysOf kvs) i = some key := by
          unfold ubAt
          rw [if_neg (by omega), hsk]
        rw [hub_i] at hoc
        obtain ⟨pred, c', hrm, hB, hS, hO, hL, hU⟩ :=
          removeMax_spec c (hbalc c hcmem) (hszc c hcmem) hoc
        have hplt : pred.1 < key := OUB_some.mp hU
        have hgo : removeGo key (.node kvs ch) =
            (if numElems c' < MIN_NUM_ELEMENTS then
              some ((key, v0), resolveUnderflow (kvs.set i pred) (ch.set i c') i)
            else some ((key, v0), .node (kvs.set i pred) (ch.set i c'))) := by
          unfold removeGo
          simp only [hscan, hv0]
          split
          · rename_i heq
            rw [heq] at hch
            cases hch
          · rename_i c2 heq
            rw [heq] at hch
            injection hch with hch2
            subst hch2
            rw [hrm]
        rw [hgo] at hres
        have hks' : keysOf (kvs.set i pred) = (keysOf kvs).set i pred.1 :=
          keysOf_set kvs i pred
        have hKB2 : KeysB lo hi (keysOf (kvs.set i pred)) := by
          rw [hks']
          exact KeysB_set hKB hsk hL
            (OUB_mono (OUB_ubAt_succ hKB hsk) (le_of_lt hplt))
            (OLB_of_lbAt hKB (by omega) hL)
            (OUB_mono (hKB.2 key (List.getElem?_mem hsk)).2 (le_of_lt hplt))
        have hordc2 : ∀ j x, (ch.set i c')[j]? = some x →
            Ordd (lbAt lo (keysOf (kvs.set i pred)) j)
                 (ubAt hi (keysOf (kvs.set i pred)) j) x := by
          rw [hks']
          exact ordc_set_key (by omega) hsk hplt hordc hO
        have hbalc2 : ∀ x ∈ ch.set i c', Bal (hg - 1) x := by
          intro x hx
          rcases List.mem_or_eq_of_mem_set hx with hx | hx
          · exact hbalc x hx
          · subst hx; exact hB
        by_cases hlt : numElems c' < MIN_NUM_ELEMENTS
        · rw [if_pos hlt] at hres
          injection hres with hres
          injection hres with hres1 hres2
          subst hres1
          have hszc2 : ∀ j x, (ch.set i c')[j]? = some x → j ≠ i → SizeOk false x := by
            intro j x hx hji
            rw [List.getElem?_set] at hx
            by_cases hj : i = j
            · omega
            · rw [if_neg hj] at hx
              exact hszc x (List.getElem?_mem hx)
          have hdefi2 : ∀ x, (ch.set i c')[i]? = some x →
              SizeOkRem false x ∧ numElems x < MIN_NUM_ELEMENTS := by
            intro x hx
            rw [List.getElem?_set, if_pos rfl, if_pos (by omega)] at hx
            injection hx with hx
            subst hx
            exact ⟨hS, hlt⟩
          obtain ⟨kvs'', ch'', heq2, hlen1, hlen2, hKB3, hF3, hBal3, hSz3⟩ :=
            @resolveUnderflow_spec K V _ lo hi (kvs.set i pred) (ch.set i c') i
              (hg - 1)
              (by rw [List.length_set, List.length_set]; omega)
              (by rw [List.length_set]; omega)
              (by rw [List.length_set]; omega)
              (by rw [List.length_set]; omega)
              hKB2 hordc2 hbalc2 hszc2 hdefi2
          rw [heq2] at hres2
          subst hres2
          rw [List.length_set] at hlen1
          refine ⟨Bal_node.mpr ⟨hh2, hBal3⟩, ?_, Ordd_node.mpr ⟨hKB3, hF3⟩⟩
          rw [SizeOkRem_node]
          rcases hminr with hmr | hmr
          · rw [MAX_eq] at hmax
            rw [MAX_eq]
            exact ⟨Or.inl hmr, by omega, by omega, hSz3⟩
          · rw [MIN_eq] at hmr
            rw [MAX_eq] at hmax
            rw [MIN_eq, MAX_eq]
            exact ⟨Or.inr (by omega), by omega, by omega, hSz3⟩
        · rw [if_neg hlt] at hres
          injection hres with hres
          injection hres with hres1 hres2
          subst hres1
          subst hres2
          refine ⟨Bal_node.mpr ⟨hh2, hbalc2⟩, ?_, Ordd_node.mpr ⟨hKB2, hordc2⟩⟩
          rw [SizeOkRem_node]
          refine ⟨?_, by rw [List.length_set]; omega,
            by rw [List.length_set, List.length_set]; omega, ?_⟩
          · rcases hminr with hmr | hmr
            · exact Or.inl hmr
            · exact Or.inr (by rw [List.length_set]; rw [MIN_eq] at *; omega)
          · intro x hx
            rcases List.mem_or_eq_of_mem_set hx with hx | hx
            · exact hszc x hx
            · subst hx
              exact Rem_to_SizeOk hS (by omega)
      | descend i =>
        obtain ⟨hile, _, _⟩ := scanNode_descend hscan
        have hich : i < ch.length := by omega
        obtain ⟨c, hch⟩ : ∃ c, ch[i]? = some c :=
          ⟨_, List.getElem?_eq_getElem (by omega)⟩
        have hcmem : c ∈ ch := List.getElem?_mem hch
        have hoc := hordc i c hch
        cases hrg : removeGo key c with
        | none =>
          have hgo : removeGo key (.node kvs ch) = none := by
            unfold removeGo
            simp only [hscan]
            split
            · rfl
            · rename_i c2 heq
              rw [heq] at hch
              injection hch with hch2
              subst hch2
              rw [hrg]
          rw [hgo] at hres
          cases hres
        | some p =>
          obtain ⟨kv2, c'⟩ := p
          obtain ⟨hB, hS, hO⟩ :=
            IH c (sizeOf_lt_of_mem_children hcmem) (hbalc c hcmem) (hszc c hcmem)
              hoc kv2 c' hrg
          have hgo : removeGo key (.node kvs ch) =
              (if numElems c' < MIN_NUM_ELEMENTS then
                some (kv2, resolveUnderflow kvs (ch.set i c') i)
              else some (kv2, .node kvs (ch.set i c'))) := by
            unfold removeGo
            simp only [hscan]
            split
            · rename_i heq
              rw [heq] at hch
              cases hch
            · rename_i c2 heq
              rw [heq] at hch
              injection hch with hch2
              subst hch2
              rw [hrg]
          rw [hgo] at hres
          have hordc2 : ∀ j x, (ch.set i c')[j]? = some x →
              Ordd (lbAt lo (keysOf kvs) j) (ubAt hi (keysOf kvs) j) x :=
            ordc_set hordc hO
          have hbalc2 : ∀ x ∈ ch.set i c', Bal (hg - 1) x := by
            intro x hx
            rcases List.mem_or_eq_of_mem_set hx with hx | hx
            · exact hbalc x hx
            · subst hx; exact hB
          by_cases hlt : numElems c' < MIN_NUM_ELEMENTS
          · rw [if_pos hlt] at hres
            injection hres with hres
            injection hres with hres1 hres2
            subst hres1
            have hszc2 : ∀ j x, (ch.set i c')[j]? = some x → j ≠ i → SizeOk false x := by
              intro j x hx hji
              rw [List.getElem?_set] at hx
              by_cases hj : i = j
              · omega
              · rw [if_neg hj] at hx
                exact hszc x (List.getElem?_mem hx)
            have hdefi2 : ∀ x, (ch.set i c')[i]? = some x →
                SizeOkRem false x ∧ numElems x < MIN_NUM_ELEMENTS := by
              intro x hx
              rw [List.getElem?_set, if_pos rfl, if_pos (by omega)] at hx
              injection hx with hx
              subst hx
              exact ⟨hS, hlt⟩
            obtain ⟨kvs'', ch'', heq2, hlen1, hlen2, hKB3, hF3, hBal3, hSz3⟩ :=
              @resolveUnderflow_spec K V _ lo hi kvs (ch.set i c') i (hg - 1)
                (by rw [List.length_set]; omega) hmin1 hmax
                (by rw [List.length_set]; omega)
                hKB hordc2 hbalc2 hszc2 hdefi2
            rw [heq2] at hres2
            subst hres2
            refine ⟨Bal_node.mpr ⟨hh2, hBal3⟩, ?_, Ordd_node.mpr ⟨hKB3, hF3⟩⟩
            rw [SizeOkRem_node]
            rcases hminr with hmr | hmr
            · rw [MAX_eq] at hmax
              rw [MAX_eq]
              exact ⟨Or.inl hmr, by omega, by omega, hSz3⟩
            · rw [MIN_eq] at hmr
              rw [MAX_eq] at hmax
              rw [MIN_eq, MAX_eq]
              exact ⟨Or.inr (by omega), by omega, by omega, hSz3⟩
          · rw [if_neg hlt] at hres
            injection hres with hres
            injection hres with hres1 hres2
            subst hres1
            subst hres2
            refine ⟨Bal_node.mpr ⟨hh2, hbalc2⟩, ?_, Ordd_node.mpr ⟨hKB, hordc2⟩⟩
            rw [SizeOkRem_node]
            refine ⟨?_, hmax, by rw [List.length_set]; omega, ?_⟩
            · rcases hminr with hmr | hmr
              · exact Or.inl hmr
              · exact Or.inr (by rw [MIN_eq] at *; omega)
            · intro x hx
              rcases List.mem_or_eq_of_mem_set hx with hx | hx
              · exact hszc x hx
              · subst hx
                exact Rem_to_SizeOk hS (by omega)

theorem SizeOk_root {b : Bool} {t : BNode K V} (h : SizeOk b t) : SizeOk true t := by
  cases t with
  | leaf kvs =>
    rw [SizeOk_leaf] at h ⊢
    exact ⟨Or.inl rfl, h.2⟩
  | node kvs ch =>
    rw [SizeOk_node] at h ⊢
    exact ⟨Or.inl rfl, h.2⟩

end RemoveSpec

end BNode

/-- `BTree::remove` preserves the full invariant (root collapse
included). -/
theorem BTree_remove_inv {K V : Type} [LinearOrder K] (t : BTree K V) (key : K)
    (hinv : BTreeInv t) : BTreeInv (t.remove key).2 := by
  obtain ⟨root, len0, depth0⟩ := t
  obtain ⟨hS, hB, hO⟩ := hinv
  cases root with
  | leaf kvs =>
    cases hrl : BNode.removeLeaf key kvs with
    | none =>
      unfold BTree.remove
      simp only [hrl]
      exact ⟨hS, hB, hO⟩
    | some p =>
      obtain ⟨kv, kvs'⟩ := p
      unfold BTree.remove
      simp only [hrl]
      have hspec := BNode.removeLeaf_spec key kvs
      rw [hrl] at hspec
      obtain ⟨hsub, hlen⟩ := hspec
      rw [BNode.SizeOk_leaf] at hS
      rw [BNode.Ordd_leaf] at hO
      refine ⟨BNode.SizeOk_leaf.mpr ⟨Or.inl rfl, by rw [BNode.MAX_eq] at *; omega⟩,
        BNode.Bal_leaf.mpr (BNode.Bal_leaf.mp hB), BNode.Ordd_leaf.mpr (hO.sublist hsub)⟩
  | node kvs ch =>
    cases hrg : BNode.removeGo key (.node kvs ch) with
    | none =>
      unfold BTree.remove
      simp only [hrg]
      exact ⟨hS, hB, hO⟩
    | some p =>
      obtain ⟨kv, r⟩ := p
      unfold BTree.remove
      simp only [hrg]
      obtain ⟨hB2, hS2, hO2⟩ := BNode.removeGo_spec key (.node kvs ch) hB hS hO kv r hrg
      cases r with
      | leaf kvs' =>
        refine ⟨?_, hB2, hO2⟩
        rw [BNode.SizeOkRem_leaf] at hS2
        exact BNode.SizeOk_leaf.mpr ⟨Or.inl rfl, hS2.2⟩
      | node kvs' ch' =>
        rw [BNode.SizeOkRem_node] at hS2
        obtain ⟨_, hmax2, hlen2, hch2⟩ := hS2
        cases kvs' with
        | nil =>
          -- root left empty: replaced by its single child, depth shrinks
          have hch1 : ch'.length = 1 := by simpa using hlen2
          cases ch' with
          | nil => simp at hch1
          | cons c rest =>
            cases rest with
            | cons c2 rest2 => simp at hch1
            | nil =>
              have hc : BNode.SizeOk false c := hch2 c (List.mem_cons_self _ _)
              have hbal2 := BNode.Bal_node.mp hB2
              have hbc : BNode.Bal (depth0 - 1) c :=
                hbal2.2 c (List.mem_cons_self _ _)
              have hord2 := BNode.Ordd_node.mp hO2
              have hoc := hord2.2 0 c (by simp)
              refine ⟨BNode.SizeOk_root hc, hbc, ?_⟩
              have hlb : BNode.lbAt (none : Option K) (BNode.keysOf ([] : List (K × V))) 0 = none := rfl
              have hub : BNode.ubAt (none : Option K) (BNode.keysOf ([] : List (K × V))) 0 = none := rfl
              rw [hlb, hub] at hoc
              exact hoc
        | cons q qs =>
          refine ⟨?_, hB2, hO2⟩
          rw [BNode.SizeOk_node]
          exact ⟨Or.inl rfl, by simp, hmax2, hlen2, hch2⟩

/-- C3. After every sequence of inserts and removes starting from
`BTree::new`, the size discipline (non-root nodes hold between `B - 1` and
`2B - 1` entries, the root up to `2B - 1`), the strict ascending key order
inside every node, and the separator bounds on every child subtree all
hold (together with uniform leaf depth). -/
theorem C3_btree_order_invariant {K V : Type} [LinearOrder K]
    (ops : List (BOp K V)) : BTreeInv (applyOps BTree.new ops) := by
  have hnew : BTreeInv (BTree.new : BTree K V) := by
    refine ⟨BNode.SizeOk_leaf.mpr ⟨Or.inl rfl, by rw [BNode.MAX_eq]; simp⟩,
      BNode.Bal_leaf.mpr rfl, BNode.Ordd_leaf.mpr (BNode.KeysB_nil _ _)⟩
  suffices h : ∀ t : BTree K V, BTreeInv t → BTreeInv (applyOps t ops) from h _ hnew
  induction ops with
  | nil => exact fun t ht => ht
  | cons op rest ih =>
    intro t ht
    show BTreeInv (applyOps (applyOp t op) rest)
    refine ih _ ?_
    cases op with
    | ins k v => exact BTree_insert_inv t k v ht
    | del k => exact BTree_remove_inv t k ht

/-!
### The 20-slot descent stacks (claim C10)

`BTree::insert` and `BTree::remove` walk the tree iteratively, recording
the path in `OnStackRefMutStack<_, 20>` (the reference stack, seeded with
the root by `push_root`) and `StackVec<usize, 20>` (the child-index
stack).  `StackVec::push` returns the overflowing element when `len == 20`
(`assert_none` panics), and `OnStackRefMutStack::push` returns `false`
when full (`assert!` panics).  The functions below walk the same path and
track both stack lengths, returning `Except.error ()` exactly where the
source would hit such an assertion.  `insertStackCheck`/`removeStackCheck`
start as the source does: reference stack length 1 (the root), index stack
length 0; the root-leaf cases of insert/remove use no stacks at all. -/

namespace BNode

variable {K V : Type}

/-- Capacity of both on-stack path structures (`<_, 20>`). -/
def STACK_CAP : Nat := 20

/-- Whether a subtree is an internal node (the `ChildrenSliceMut::Nodes`
versus `Leafs` distinction of the source, which under `Bal` is uniform
across a sibling slice). -/
def isNode : BNode K V → Bool
  | .leaf _ => false
  | .node _ _ => true

section StackCheck

variable [LinearOrder K]

/-- The insert descent (btree.rs lines 1992-2065): per visited internal
node, one index push; descending into an internal child additionally
pushes a reference.  `Ordering::Equal` returns before any push of the
current iteration; reaching a leaf child performs the leaf insertion with
no further pushes. -/
def insertCheck (key : K) : BNode K V → Nat → Nat → Except Unit Unit
  | .leaf _, _, _ => .ok ()
  | .node kvs ch, refLen, idxLen =>
    match scanNode key kvs with
    | .found _ => .ok ()
    | .descend i =>
      if idxLen = STACK_CAP then .error ()
      else
        match hch : ch[i]? with
        | none => .ok ()
        | some c =>
          if c.isNode then
            if refLen = STACK_CAP then .error ()
            else insertCheck key c (refLen + 1) (idxLen + 1)
          else .ok ()
decreasing_by exact sizeOf_lt_of_mem_children (List.getElem?_mem hch)

/-- The predecessor hunt of `remove`'s `Equal` arm (lines 2285-2300): keep
pushing the rightmost child's reference while it is an internal node; a
leaf child ends the loop with a pop and no push. -/
def predDescend : BNode K V → Nat → Except Unit Unit
  | .leaf _, _ => .ok ()
  | .node _ ch, refLen =>
    match hch : ch.getLast? with
    | none => .ok ()
    | some cl =>
      if cl.isNode then
        if refLen = STACK_CAP then .error ()
        else predDescend cl (refLen + 1)
      else .ok ()
decreasing_by
  exact sizeOf_lt_of_mem_children
    (List.getElem?_mem (List.getLast?_eq_getElem? _ ▸ hch))

/-- The remove descent (lines 2265-2431): per visited internal node one
index push; `Equal` at an internal node pushes child `i`'s reference and
runs the predecessor hunt; `Equal`'s leaf-children arm and the leaf-child
arm of the main loop finish without further pushes. -/
def removeCheck (key : K) : BNode K V → Nat → Nat → Except Unit Unit
  | .leaf _, _, _ => .ok ()
  | .node kvs ch, refLen, idxLen =>
    match scanNode key kvs with
    | .found i =>
      if idxLen = STACK_CAP then .error ()
      else
        match ch[i]? with
        | none => .ok ()
        | some c =>
          if c.isNode then
            if refLen = STACK_CAP then .error ()
            else predDescend c (refLen + 1)
          else .ok ()
    | .descend i =>
      if idxLen = STACK_CAP then .error ()
      else
        match hch : ch[i]? with
        | none => .ok ()
        | some c =>
          if c.isNode then
            if refLen = STACK_CAP then .error ()
            else removeCheck key c (refLen + 1) (idxLen + 1)
          else .ok ()
decreasing_by exact sizeOf_lt_of_mem_children (List.getElem?_mem hch)

/-- Stack-capacity check of one `BTree::insert` call on the given root:
the root-leaf path uses no stacks; the node path starts with `push_root`
(reference stack length 1). -/
def insertStackCheck (t : BNode K V) (key : K) : Except Unit Unit :=
  match t with
  | .leaf _ => .ok ()
  | .node kvs ch => insertCheck key (.node kvs ch) 1 0

/-- Stack-capacity check of one `BTree::remove` call on the given root. -/
def removeStackCheck (t : BNode K V) (key : K) : Except Unit Unit :=
  match t with
  | .leaf _ => .ok ()
  | .node kvs ch => removeCheck key (.node kvs ch) 1 0

end StackCheck

/-- In-order contents of a subtree (`c0, kv0, c1, kv1, …, cn`). -/
def interleave : List (List (K × V)) → List (K × V) → List (K × V)
  | [], _ => []
  | [l], _ => l
  | l :: _, [] => l
  | l :: ls, p :: ps => l ++ p :: interleave ls ps

def toList : BNode K V → List (K × V)
  | .leaf kvs => kvs
  | .node kvs ch => interleave (ch.attach.map fun c => toList c.1) kvs
decreasing_by exact sizeOf_lt_of_mem_children c.2

/-- A minimal-occupancy tree of uniform depth `h ≥ 1` with keys
`s, s + 1, …`: each leaf holds `MIN_NUM_ELEMENTS` keys, each internal node
`MIN_NUM_ELEMENTS` separators and `B` children; also returns the first
unused key. -/
def mkT : Nat → Nat → BNode Nat Unit × Nat
  | 0, s => (.leaf [], s)
  | 1, s => (.leaf ((List.range 5).map fun i => (s + i, ())), s + 5)
  | h + 2, s =>
    let r1 := mkT (h + 1) s
    let r2 := mkT (h + 1) (r1.2 + 1)
    let r3 := mkT (h + 1) (r2.2 + 1)
    let r4 := mkT (h + 1) (r3.2 + 1)
    let r5 := mkT (h + 1) (r4.2 + 1)
    let r6 := mkT (h + 1) (r5.2 + 1)
    (.node [(r1.2, ()), (r2.2, ()), (r3.2, ()), (r4.2, ()), (r5.2, ())]
      [r1.1, r2.1, r3.1, r4.1, r5.1, r6.1], r6.2)

theorem STACK_CAP_eq : STACK_CAP = 20 := rfl

theorem mkT_bal : ∀ h s, Bal (h + 1) (mkT (h + 1) s).1 := by
  intro h
  induction h with
  | zero => intro s; exact Bal_leaf.mpr rfl
  | succ n ih =>
    intro s
    simp only [mkT]
    refine Bal_node.mpr ⟨by omega, ?_⟩
    intro c hc
    simp only [List.mem_cons, List.not_mem_nil, or_false] at hc
    rcases hc with h | h | h | h | h | h <;> (subst h; exact ih _)

theorem mem_interleave_right {p : K × V} :
    ∀ (ps : List (K × V)) (ls : List (List (K × V))),
      ls.length = ps.length + 1 → p ∈ ps → p ∈ interleave ls ps := by
  intro ps
  induction ps with
  | nil => intro ls _ hp; cases hp
  | cons q ps ih =>
    intro ls hlen hp
    cases ls with
    | nil => simp only [List.length_nil, List.length_cons] at hlen; omega
    | cons l1 ls1 =>
      cases ls1 with
      | nil => simp only [List.length_cons, List.length_nil] at hlen; omega
      | cons l2 ls2 =>
        simp only [interleave]
        rcases List.mem_cons.mp hp with hq | hp2
        · subst hq
          exact List.mem_append_right _ (List.mem_cons_self _ _)
        · refine List.mem_append_right _ (List.mem_cons_of_mem _ ?_)
          exact ih (l2 :: ls2) (by simp only [List.length_cons] at hlen ⊢; omega) hp2

theorem mem_interleave_left {p : K × V} :
    ∀ (ls : List (List (K × V))) (ps l : List (K × V)),
      ls.length = ps.length + 1 → l ∈ ls → p ∈ l → p ∈ interleave ls ps := by
  intro ls
  induction ls with
  | nil => intro ps l _ hl _; cases hl
  | cons l1 ls1 ih =>
    intro ps l hlen hl hp
    cases ls1 with
    | nil =>
      have hl1 : l = l1 := by
        rcases List.mem_cons.mp hl with h | h
        · exact h
        · cases h
      subst hl1
      simpa only [interleave] using hp
    | cons l2 ls2 =>
      cases ps with
      | nil => simp only [List.length_cons, List.length_nil] at hlen; omega
      | cons q ps2 =>
        simp only [interleave]
        rcases List.mem_cons.mp hl with h | h
        · subst h
          exact List.mem_append_left _ hp
        · refine List.mem_append_right _ (List.mem_cons_of_mem _ ?_)
          exact ih ps2 l (by simp only [List.length_cons] at hlen ⊢; omega) h hp

theorem toList_node_eq (kvs : List (K × V)) (ch : List (BNode K V)) :
    toList (.node kvs ch) = interleave (ch.attach.map fun c => toList c.1) kvs := by
  simp only [toList]

/-- A node's own entries appear in its in-order contents. -/
theorem mem_toList_self {kvs : List (K × V)} {ch : List (BNode K V)}
    (hlen : ch.length = kvs.length + 1) {p : K × V} (hp : p ∈ kvs) :
    p ∈ toList (.node kvs ch) := by
  rw [toList_node_eq]
  exact mem_interleave_right kvs _
    (by simp only [List.length_map, List.length_attach]; omega) hp

/-- A child's in-order contents appear in the parent's. -/
theorem mem_toList_child {kvs : List (K × V)} {ch : List (BNode K V)}
    (hlen : ch.length = kvs.length + 1) {c : BNode K V} (hc : c ∈ ch)
    {p : K × V} (hp : p ∈ toList c) : p ∈ toList (.node kvs ch) := by
  rw [toList_node_eq]
  refine mem_interleave_left _ kvs (toList c) ?_ ?_ hp
  · simp only [List.length_map, List.length_attach]; omega
  · exact List.mem_map.mpr ⟨⟨c, hc⟩, List.mem_attach _ _, rfl⟩

section StackCheckSpec

variable [LinearOrder K]

/-- Completion of the insert descent: on a balanced tree, if the
reference-stack length plus the remaining height stays at most 22
(index stack one shorter), no capacity check fires. -/
theorem insertCheck_ok (key : K) (t : BNode K V) :
    ∀ {h r x : Nat}, Bal h t → x + 1 = r → r + h ≤ 22 →
      insertCheck key t r x = .ok () := by
  induction t using sizeOf_strongInd with
  | ih t IH =>
    cases t with
    | leaf kvs => intro h r x _ _ _; rw [insertCheck]
    | node kvs ch =>
      intro h r x hb hx hr
      rw [Bal_node] at hb
      obtain ⟨hh2, hbc⟩ := hb
      cases hscan : scanNode key kvs with
      | found i => simp only [insertCheck, hscan]
      | descend i =>
        simp only [insertCheck, hscan]
        rw [if_neg (by rw [STACK_CAP_eq]; omega)]
        split
        · rfl
        · rename_i c hch
          cases c with
          | leaf ckvs => rfl
          | node ck cc =>
            have hcmem := List.getElem?_mem hch
            have hbcc : Bal (h - 1) (.node ck cc) := hbc _ hcmem
            have hh3 : 3 ≤ h := by
              have := (Bal_node.mp hbcc).1; omega
            have hin : isNode (node ck cc) = true := rfl
            rw [if_pos hin, if_neg (by rw [STACK_CAP_eq]; omega)]
            exact IH _ (sizeOf_lt_of_mem_children hcmem) hbcc (by omega) (by omega)

/-- Completion of the predecessor hunt under the same counting. -/
theorem predDescend_ok (t : BNode K V) :
    ∀ {h r : Nat}, Bal h t → r + h ≤ 22 → predDescend t r = .ok () := by
  induction t using sizeOf_strongInd with
  | ih t IH =>
    cases t with
    | leaf kvs => intro h r _ _; rw [predDescend]
    | node kvs ch =>
      intro h r hb hr
      rw [Bal_node] at hb
      obtain ⟨hh2, hbc⟩ := hb
      simp only [predDescend]
      split
      · rfl
      · rename_i cl hcl
        cases cl with
        | leaf ckvs => rfl
        | node ck cc =>
          have hidx : ch[ch.length - 1]? = some (.node ck cc) := by
            rw [← List.getLast?_eq_getElem?]; exact hcl
          have hcmem := List.getElem?_mem hidx
          have hbcc : Bal (h - 1) (.node ck cc) := hbc _ hcmem
          have hh3 : 3 ≤ h := by
            have := (Bal_node.mp hbcc).1; omega
          have hin : isNode (node ck cc) = true := rfl
          rw [if_pos hin, if_neg (by rw [STACK_CAP_eq]; omega)]
          exact IH _ (sizeOf_lt_of_mem_children hcmem) hbcc (by omega)

/-- Completion of the remove descent. -/
theorem removeCheck_ok (key : K) (t : BNode K V) :
    ∀ {h r x : Nat}, Bal h t → x + 1 = r → r + h ≤ 22 →
      removeCheck key t r x = .ok () := by
  induction t using sizeOf_strongInd with
  | ih t IH =>
    cases t with
    | leaf kvs => intro h r x _ _ _; rw [removeCheck]
    | node kvs ch =>
      intro h r x hb hx hr
      rw [Bal_node] at hb
      obtain ⟨hh2, hbc⟩ := hb
      cases hscan : scanNode key kvs with
      | found i =>
        simp only [removeCheck, hscan]
        rw [if_neg (by rw [STACK_CAP_eq]; omega)]
        split
        · rfl
        · rename_i c hch
          cases c with
          | leaf ckvs => rfl
          | node ck cc =>
            have hcmem := List.getElem?_mem hch
            have hbcc : Bal (h - 1) (.node ck cc) := hbc _ hcmem
            have hh3 : 3 ≤ h := by
              have := (Bal_node.mp hbcc).1; omega
            have hin : isNode (node ck cc) = true := rfl
            rw [if_pos hin, if_neg (by rw [STACK_CAP_eq]; omega)]
            exact predDescend_ok _ hbcc (by omega)
      | descend i =>
        simp only [removeCheck, hscan]
        rw [if_neg (by rw [STACK_CAP_eq]; omega)]
        split
        · rfl
        · rename_i c hch
          cases c with
          | leaf ckvs => rfl
          | node ck cc =>
            have hcmem := List.getElem?_mem hch
            have hbcc : Bal (h - 1) (.node ck cc) := hbc _ hcmem
            have hh3 : 3 ≤ h := by
              have := (Bal_node.mp hbcc).1; omega
            have hin : isNode (node ck cc) = true := rfl
            rw [if_pos hin, if_neg (by rw [STACK_CAP_eq]; omega)]
            exact IH _ (sizeOf_lt_of_mem_children hcmem) hbcc (by omega) (by omega)

/-- Both operations pass every stack-capacity check on a balanced tree of
at most 21 levels. -/
theorem stackChecks_ok_of_bal {h : Nat} {t : BNode K V} (key : K)
    (hb : Bal h t) (hh : h ≤ 21) :
    insertStackCheck t key = .ok () ∧ removeStackCheck t key = .ok () := by
  cases t with
  | leaf kvs => exact ⟨rfl, rfl⟩
  | node kvs ch =>
    constructor
    · show insertCheck key (.node kvs ch) 1 0 = .ok ()
      exact insertCheck_ok key _ hb rfl (by omega)
    · show removeCheck key (.node kvs ch) 1 0 = .ok ()
      exact removeCheck_ok key _ hb rfl (by omega)

/-- The predecessor hunt overflows the reference stack when the remaining
height is too large for the slots left. -/
theorem predDescend_error (t : BNode K V) :
    ∀ {h r : Nat} {b : Bool}, Bal h t → SizeOk b t → r ≤ 20 → 23 ≤ r + h →
      predDescend t r = .error () := by
  induction t using sizeOf_strongInd with
  | ih t IH =>
    cases t with
    | leaf kvs =>
      intro h r b hb _ hr hsum
      exact absurd (Bal_leaf.mp hb) (by omega)
    | node kvs ch =>
      intro h r b hb hsz hr hsum
      rw [Bal_node] at hb
      obtain ⟨hh2, hbc⟩ := hb
      rw [SizeOk_node] at hsz
      obtain ⟨-, hmin1, -, hchlen, hszc⟩ := hsz
      simp only [predDescend]
      split
      · rename_i hgl
        exfalso
        rw [List.getLast?_eq_none_iff] at hgl
        subst hgl
        simp only [List.length_nil] at hchlen
        omega
      · rename_i cl hgl
        have hidx : ch[ch.length - 1]? = some cl := by
          rw [← List.getLast?_eq_getElem?]; exact hgl
        have hcmem := List.getElem?_mem hidx
        have hbcl : Bal (h - 1) cl := hbc _ hcmem
        have hscl : SizeOk false cl := hszc _ hcmem
        have hh3 : 3 ≤ h := by
          by_contra hlt
          omega
        obtain ⟨ck, cc, hcleq⟩ := Bal_ge_two_node (by omega) hbcl
        subst hcleq
        have hin : isNode (node ck cc) = true := rfl
        rw [if_pos hin]
        by_cases hr20 : r = STACK_CAP
        · rw [if_pos hr20]
        · rw [if_neg hr20]
          rw [STACK_CAP_eq] at hr20
          exact IH _ (sizeOf_lt_of_mem_children hcmem) hbcl hscl (by omega) (by omega)

/-- The remove descent overflows one of the two stacks for every key when
the tree is too tall. -/
theorem removeCheck_error (key : K) (t : BNode K V) :
    ∀ {h r x : Nat} {b : Bool}, Bal h t → SizeOk b t → x + 1 = r → r ≤ 21 →
      23 ≤ r + h → removeCheck key t r x = .error () := by
  induction t using sizeOf_strongInd with
  | ih t IH =>
    cases t with
    | leaf kvs =>
      intro h r x b hb _ _ hr hsum
      exact absurd (Bal_leaf.mp hb) (by omega)
    | node kvs ch =>
      intro h r x b hb hsz hx hr hsum
      rw [Bal_node] at hb
      obtain ⟨hh2, hbc⟩ := hb
      rw [SizeOk_node] at hsz
      obtain ⟨-, hmin1, -, hchlen, hszc⟩ := hsz
      cases hscan : scanNode key kvs with
      | found i =>
        simp only [removeCheck, hscan]
        by_cases hx20 : x = STACK_CAP
        · rw [if_pos hx20]
        · rw [if_neg hx20]
          rw [STACK_CAP_eq] at hx20
          have hh3 : 3 ≤ h := by omega
          obtain ⟨⟨v0, hv0⟩, -⟩ := scanNode_found hscan
          have hilt : i < kvs.length := getElem?_lt_length hv0
          split
          · rename_i hchn
            exfalso
            rw [List.getElem?_eq_none_iff] at hchn
            omega
          · rename_i c hch
            have hcmem := List.getElem?_mem hch
            have hbcl : Bal (h - 1) c := hbc _ hcmem
            have hscl : SizeOk false c := hszc _ hcmem
            obtain ⟨ck, cc, hcleq⟩ := Bal_ge_two_node (by omega) hbcl
            subst hcleq
            have hin : isNode (node ck cc) = true := rfl
            rw [if_pos hin]
            by_cases hr20 : r = STACK_CAP
            · rw [if_pos hr20]
            · rw [if_neg hr20]
              rw [STACK_CAP_eq] at hr20
              exact predDescend_error _ hbcl hscl (by omega) (by omega)
      | descend i =>
        simp only [removeCheck, hscan]
        by_cases hx20 : x = STACK_CAP
        · rw [if_pos hx20]
        · rw [if_neg hx20]
          rw [STACK_CAP_eq] at hx20
          have hh3 : 3 ≤ h := by omega
          obtain ⟨hile, -, -⟩ := scanNode_descend hscan
          split
          · rename_i hchn
            exfalso
            rw [List.getElem?_eq_none_iff] at hchn
            omega
          · rename_i c hch
            have hcmem := List.getElem?_mem hch
            have hbcl : Bal (h - 1) c := hbc _ hcmem
            have hscl : SizeOk false c := hszc _ hcmem
            obtain ⟨ck, cc, hcleq⟩ := Bal_ge_two_node (by omega) hbcl
            subst hcleq
            have hin : isNode (node ck cc) = true := rfl
            rw [if_pos hin]
            by_cases hr20 : r = STACK_CAP
            · rw [if_pos hr20]
            · rw [if_neg hr20]
              rw [STACK_CAP_eq] at hr20
              exact IH _ (sizeOf_lt_of_mem_children hcmem) hbcl hscl
                (by omega) (by omega) (by omega)

/-- The insert descent overflows one of the stacks for any key absent from
the tree when the tree is too tall (a stored key returns early at the node
that holds it, whatever the depth). -/
theorem insertCheck_error (key : K) (t : BNode K V) :
    ∀ {h r x : Nat} {b : Bool}, Bal h t → SizeOk b t →
      key ∉ (toList t).map Prod.fst → x + 1 = r → r ≤ 21 → 23 ≤ r + h →
      insertCheck key t r x = .error () := by
  induction t using sizeOf_strongInd with
  | ih t IH =>
    cases t with
    | leaf kvs =>
      intro h r x b hb _ _ _ hr hsum
      exact absurd (Bal_leaf.mp hb) (by omega)
    | node kvs ch =>
      intro h r x b hb hsz hmem hx hr hsum
      rw [Bal_node] at hb
      obtain ⟨hh2, hbc⟩ := hb
      rw [SizeOk_node] at hsz
      obtain ⟨-, hmin1, -, hchlen, hszc⟩ := hsz
      cases hscan : scanNode key kvs with
      | found i =>
        exfalso
        obtain ⟨⟨v0, hv0⟩, -⟩ := scanNode_found hscan
        apply hmem
        refine List.mem_map.mpr ⟨(key, v0), ?_, rfl⟩
        exact mem_toList_self hchlen (List.getElem?_mem hv0)
      | descend i =>
        simp only [insertCheck, hscan]
        by_cases hx20 : x = STACK_CAP
        · rw [if_pos hx20]
        · rw [if_neg hx20]
          rw [STACK_CAP_eq] at hx20
          have hh3 : 3 ≤ h := by omega
          obtain ⟨hile, -, -⟩ := scanNode_descend hscan
          split
          · rename_i hchn
            exfalso
            rw [List.getElem?_eq_none_iff] at hchn
            omega
          · rename_i c hch
            have hcmem := List.getElem?_mem hch
            have hbcl : Bal (h - 1) c := hbc _ hcmem
            have hscl : SizeOk false c := hszc _ hcmem
            obtain ⟨ck, cc, hcleq⟩ := Bal_ge_two_node (by omega) hbcl
            subst hcleq
            have hin : isNode (node ck cc) = true := rfl
            rw [if_pos hin]
            by_cases hr20 : r = STACK_CAP
            · rw [if_pos hr20]
            · rw [if_neg hr20]
              rw [STACK_CAP_eq] at hr20
              refine IH _ (sizeOf_lt_of_mem_children hcmem) hbcl hscl ?_
                (by omega) (by omega) (by omega)
              intro hk
              apply hmem
              obtain ⟨p, hp, hpk⟩ := List.mem_map.mp hk
              exact List.mem_map.mpr ⟨p, mem_toList_child hchlen hcmem hp, hpk⟩

/-- On a valid tree of 22 or more levels, remove trips a stack assertion
for every key, and insert does for every key not stored in the tree. -/
theorem stackChecks_error_of_deep {h : Nat} {t : BNode K V} (key : K)
    (hb : Bal h t) (hs : SizeOk true t) (hh : 22 ≤ h) :
    removeStackCheck t key = .error () ∧
      (key ∉ (toList t).map Prod.fst → insertStackCheck t key = .error ()) := by
  obtain ⟨kvs, ch, heq⟩ := Bal_ge_two_node (by omega) hb
  subst heq
  constructor
  · show removeCheck key (.node kvs ch) 1 0 = .error ()
    exact removeCheck_error key _ hb hs rfl (by omega) (by omega)
  · intro hk
    show insertCheck key (.node kvs ch) 1 0 = .error ()
    exact insertCheck_error key _ hb hs hk rfl (by omega) (by omega)

end StackCheckSpec

end BNode

/-- C10. The descent path of `BTree::insert` and `BTree::remove` lives in
fixed 20-slot on-stack structures, the reference stack seeded with the root:
on a valid tree of at most 21 levels every capacity assertion passes for
every key, so both operations complete; from 22 levels on, remove trips an
assertion for every key and insert does for every key not already stored in
the tree (a stored key returns early before the stacks fill, at whatever
depth).  The panic threshold is thus 22 levels, not the claimed "deeper
than 20". -/
theorem C10_amended {K V : Type} [LinearOrder K] (t : BTree K V) (key : K)
    (hinv : BTreeInv t) :
    (t.depth ≤ 21 →
      BNode.insertStackCheck t.root key = .ok () ∧
      BNode.removeStackCheck t.root key = .ok ()) ∧
    (22 ≤ t.depth →
      BNode.removeStackCheck t.root key = .error () ∧
      (key ∉ (BNode.toList t.root).map Prod.fst →
        BNode.insertStackCheck t.root key = .error ())) := by
  obtain ⟨hsz, hbal, -⟩ := hinv
  exact ⟨fun hd => BNode.stackChecks_ok_of_bal key hbal hd,
    fun hd => BNode.stackChecks_error_of_deep key hbal hsz hd⟩

theorem C10_amended_witness :
    BNode.insertStackCheck (BTree.new : BTree Nat Nat).root 0 = .ok () ∧
    BNode.removeStackCheck (BTree.new : BTree Nat Nat).root 0 = .ok () := by
  have hinv : BTreeInv (BTree.new : BTree Nat Nat) :=
    ⟨BNode.SizeOk_leaf.mpr ⟨Or.inl rfl, by rw [BNode.MAX_eq]; simp⟩,
      BNode.Bal_leaf.mpr rfl, BNode.Ordd_leaf.mpr (BNode.KeysB_nil _ _)⟩
  exact (C10_amended (BTree.new : BTree Nat Nat) 0 hinv).1 (by decide)

/-!
### The virtual memory area allocator (claim C4)

`vma.rs` keeps two B-trees: `best_fit_tree : BTree<SizeFirstPtrSecond, ()>`
keyed by `(size, ptr)` lexicographically, and `merge_tree :
BTree<NonNull<u8>, usize>` keyed by address.  Modelled from the spec: the
`get_entry` cursor API the VMA calls (`Entry::key/value/prev/next`) is not
in the source tree, so each tree is modelled by its ordered record list
(the contents a search tree stores, cf. the `Ordd` invariant above) and
`get_entry(k)` by the spec's "would be inserted before" cursor: positioned
at the successor of the absent key when one exists, otherwise at the last
record; on an empty tree the entry cannot reference a record and the
lookup is a failure.  `prev`/`next` move to the adjacent record in key
order.  Addresses and sizes are unbounded naturals (in-bounds, UB-free
pointer arithmetic); panics (`unwrap`, `assert`, `unreachable!`) are
`Option.none`. -/

namespace VMA

/-- `NonNull::<u8>::dangling()`, address = alignment = 1. -/
def DANGLING : Nat := 1

/-- The merge tree's contents: `(ptr, size)` records in address order. -/
def mIns (x : Nat × Nat) : List (Nat × Nat) → List (Nat × Nat)
  | [] => [x]
  | y :: ys =>
    if x.1 < y.1 then x :: y :: ys
    else if x.1 = y.1 then x :: ys
    else y :: mIns x ys

/-- `BTree::remove` on the merge tree: drop the record at the key. -/
def mDel (k : Nat) : List (Nat × Nat) → List (Nat × Nat)
  | [] => []
  | y :: ys => if y.1 = k then ys else y :: mDel k ys

/-- Lexicographic `(size, ptr)` order of `SizeFirstPtrSecond`. -/
def lexLt (a b : Nat × Nat) : Bool := a.1 < b.1 || (a.1 = b.1 && a.2 < b.2)

/-- The best-fit tree's contents: `(size, ptr)` records in `lexLt` order
(the `()` values are dropped). -/
def bIns (x : Nat × Nat) : List (Nat × Nat) → List (Nat × Nat)
  | [] => [x]
  | y :: ys =>
    if lexLt x y then x :: y :: ys
    else if x = y then x :: ys
    else y :: bIns x ys

def bDel (x : Nat × Nat) : List (Nat × Nat) → List (Nat × Nat)
  | [] => []
  | y :: ys => if y = x then ys else y :: bDel x ys

/-- Modelled from the spec: the record the Err cursor of
`merge_tree.get_entry(&k)` sees after stepping forward to the key's
successor (`ptr < *entry.key()` position, or a successful `next()`). -/
def succOf (k : Nat) (l : List (Nat × Nat)) : Option (Nat × Nat) :=
  l.find? fun y => decide (k < y.1)

/-- Modelled from the spec: the record after stepping back to the key's
predecessor (`*entry.key() < ptr` position, or a successful `prev()`). -/
def predOf (k : Nat) (l : List (Nat × Nat)) : Option (Nat × Nat) :=
  (l.filter fun y => decide (y.1 < k)).getLast?

/-- The allocator's two trees (vma.rs lines 11-14), each reduced to its
record list. -/
structure VMAState where
  bestFit : List (Nat × Nat)
  merge : List (Nat × Nat)

/-- Remove the record `[p, p + s)` from both trees (the paired
`best_fit_tree.remove` / `merge_tree.remove` calls of the source). -/
def delRec (p s : Nat) (st : VMAState) : VMAState :=
  ⟨bDel (s, p) st.bestFit, mDel p st.merge⟩

/-- Insert the record `[p, p + s)` into both trees. -/
def insRec (p s : Nat) (st : VMAState) : VMAState :=
  ⟨bIns (s, p) st.bestFit, mIns (p, s) st.merge⟩

/-- `VirtualMemoryAllocator::alloc` (vma.rs lines 60-103): round the size
up to a 2 MiB multiple, pick the best-fit record via the cursor (skipping
a lexicographic tie on the dangling query pointer), remove it from both
trees, give back the tail remainder if any. -/
def alloc (st : VMAState) (sz : Nat) : Option (VMAState × Nat × Nat) :=
  let alloc_size := sz + 0x1fffff - (sz + 0x1fffff) % 0x200000
  if (st.bestFit.find? fun y => y == (alloc_size, DANGLING)).isSome then
    none
  else
    match st.bestFit.find? fun y => lexLt (alloc_size, DANGLING) y with
    | none => none
    | some e =>
      let chosen :=
        if alloc_size < e.1 then some e
        else
          match st.bestFit.find? fun y => lexLt e y with
          | none => none
          | some e2 => if alloc_size < e2.1 then some e2 else none
      match chosen with
      | none => none
      | some a =>
        let st1 := delRec a.2 a.1 st
        if alloc_size < a.1 then
          let new_ptr := a.2 + alloc_size
          let rem := a.1 - alloc_size
          if (st1.bestFit.find? fun y => y == (rem, new_ptr)).isSome then none
          else if (st1.merge.find? fun y => y.1 == new_ptr).isSome then none
          else some (insRec new_ptr rem st1, a.2, alloc_size)
        else if alloc_size = a.1 then some (st1, a.2, alloc_size)
        else none

/-- `VirtualMemoryAllocator::free` (vma.rs lines 105-189): look at the
freed range's neighbors through the merge-tree cursor, coalesce a right
neighbor starting at `ptr + size` and a left neighbor ending at `ptr`,
then insert the combined record into both trees.  The source's two outer
branches (cursor at the successor / at the predecessor) both reduce to
the same neighbor checks. -/
def free (st : VMAState) (ptr0 sz0 : Nat) : Option VMAState :=
  if sz0 % 0x200000 ≠ 0 then none
  else if (st.merge.find? fun y => y.1 == ptr0).isSome then none
  else
    match succOf ptr0 st.merge with
    | some e =>
      if ptr0 + sz0 = e.1 then
        if (st.bestFit.find? fun y => y == (e.2, e.1)).isNone then none
        else
          let st1 := delRec e.1 e.2 st
          if st1.merge.isEmpty then none
          else
            match predOf ptr0 st1.merge with
            | some pr =>
              if pr.1 + pr.2 = ptr0 then
                if (st1.bestFit.find? fun y => y == (pr.2, pr.1)).isNone then
                  none
                else some (insRec pr.1 (sz0 + e.2 + pr.2) (delRec pr.1 pr.2 st1))
              else some (insRec ptr0 (sz0 + e.2) st1)
            | none => some (insRec ptr0 (sz0 + e.2) st1)
      else
        match predOf ptr0 st.merge with
        | some pr =>
          if pr.1 + pr.2 = ptr0 then
            if (st.bestFit.find? fun y => y == (pr.2, pr.1)).isNone then none
            else some (insRec pr.1 (sz0 + pr.2) (delRec pr.1 pr.2 st))
          else some (insRec ptr0 sz0 st)
        | none => some (insRec ptr0 sz0 st)
    | none =>
      match predOf ptr0 st.merge with
      | some pr =>
        if pr.1 + pr.2 = ptr0 then
          if (st.bestFit.find? fun y => y == (pr.2, pr.1)).isNone then none
          else
            let st1 := delRec pr.1 pr.2 st
            if st1.merge.isEmpty then none
            else
              match succOf pr.1 st1.merge with
              | some e2 =>
                if pr.1 + (sz0 + pr.2) = e2.1 then
                  if (st1.bestFit.find? fun y => y == (e2.2, e2.1)).isNone then
                    none
                  else
                    some (insRec pr.1 (sz0 + pr.2 + e2.2) (delRec e2.1 e2.2 st1))
                else some (insRec pr.1 (sz0 + pr.2) st1)
              | none => some (insRec pr.1 (sz0 + pr.2) st1)
        else some (insRec ptr0 sz0 st)
      | none => none

/-- No two records overlap or touch: each record ends strictly before the
next one starts (in address order). -/
def NoTouch (l : List (Nat × Nat)) : Prop :=
  l.Pairwise fun a b => a.1 + a.2 < b.1

/-- The two trees hold the same records, as `(ptr, size)` versus
`(size, ptr)`. -/
def Mirror (bf mg : List (Nat × Nat)) : Prop :=
  ∀ p s, (p, s) ∈ mg ↔ (s, p) ∈ bf

/-- The best-fit contents are strictly `lexLt`-sorted. -/
def BFSorted (l : List (Nat × Nat)) : Prop :=
  l.Pairwise fun a b => a.1 < b.1 ∨ (a.1 = b.1 ∧ a.2 < b.2)

/-- The VMA duality invariant of the spec: equal record counts, identical
record sets, and pairwise-separated (non-touching) free ranges. -/
def Dual (st : VMAState) : Prop :=
  st.bestFit.length = st.merge.length ∧ Mirror st.bestFit st.merge ∧
  NoTouch st.merge ∧ BFSorted st.bestFit

/-- The prop version of `lexLt`. -/
theorem lexLt_iff {a b : Nat × Nat} :
    lexLt a b = true ↔ a.1 < b.1 ∨ (a.1 = b.1 ∧ a.2 < b.2) := by
  simp [lexLt, Bool.or_eq_true, Bool.and_eq_true, decide_eq_true_eq]

theorem pairwise_mem_rel {α : Type u} {R : α → α → Prop} :
    ∀ {l : List α}, l.Pairwise R → ∀ {a b : α}, a ∈ l → b ∈ l →
      a = b ∨ R a b ∨ R b a := by
  intro l hp
  induction l with
  | nil => intro a b ha; cases ha
  | cons x xs ih =>
    rw [List.pairwise_cons] at hp
    intro a b ha hb
    rcases List.mem_cons.mp ha with ha1 | ha1
    · rcases List.mem_cons.mp hb with hb1 | hb1
      · exact Or.inl (ha1.trans hb1.symm)
      · subst ha1; exact Or.inr (Or.inl (hp.1 b hb1))
    · rcases List.mem_cons.mp hb with hb1 | hb1
      · subst hb1; exact Or.inr (Or.inr (hp.1 a ha1))
      · exact ih hp.2 ha1 hb1

theorem mgNodupKeys {l : List (Nat × Nat)} (h : NoTouch l) :
    l.Pairwise fun a b => a.1 ≠ b.1 := by
  refine h.imp ?_
  intro a b hab
  omega

theorem mg_key_inj {l : List (Nat × Nat)} (h : NoTouch l) {p s t : Nat}
    (h1 : (p, s) ∈ l) (h2 : (p, t) ∈ l) : s = t := by
  rcases pairwise_mem_rel (mgNodupKeys h) h1 h2 with he | he | he
  · exact congrArg Prod.snd he
  · exact absurd rfl he
  · exact absurd rfl he

theorem bfNodup {l : List (Nat × Nat)} (h : BFSorted l) :
    l.Pairwise fun a b => a ≠ b := by
  refine h.imp ?_
  intro a b hab he
  subst he
  omega

theorem mDel_sublist (k : Nat) : ∀ l : List (Nat × Nat), List.Sublist (mDel k l) l := by
  intro l
  induction l with
  | nil => exact List.Sublist.refl _
  | cons y ys ih =>
    rw [mDel]
    by_cases hy : y.1 = k
    · rw [if_pos hy]; exact List.sublist_cons_of_sublist y (List.Sublist.refl _)
    · rw [if_neg hy]; exact List.Sublist.cons₂ y ih

theorem bDel_sublist (x : Nat × Nat) : ∀ l : List (Nat × Nat), List.Sublist (bDel x l) l := by
  intro l
  induction l with
  | nil => exact List.Sublist.refl _
  | cons y ys ih =>
    rw [bDel]
    by_cases hy : y = x
    · rw [if_pos hy]; exact List.sublist_cons_of_sublist y (List.Sublist.refl _)
    · rw [if_neg hy]; exact List.Sublist.cons₂ y ih

theorem mem_mDel_of_ne {k : Nat} {y : Nat × Nat} :
    ∀ {l : List (Nat × Nat)}, y ∈ l → y.1 ≠ k → y ∈ mDel k l := by
  intro l
  induction l with
  | nil => intro h; cases h
  | cons z zs ih =>
    intro hy hne
    rw [mDel]
    by_cases hz : z.1 = k
    · rw [if_pos hz]
      rcases List.mem_cons.mp hy with he | he
      · subst he; exact absurd hz hne
      · exact he
    · rw [if_neg hz]
      rcases List.mem_cons.mp hy with he | he
      · subst he; exact List.mem_cons_self _ _
      · exact List.mem_cons_of_mem _ (ih he hne)

theorem key_ne_of_mem_mDel {k : Nat} {y : Nat × Nat} :
    ∀ {l : List (Nat × Nat)}, (l.Pairwise fun a b => a.1 ≠ b.1) →
      y ∈ mDel k l → y.1 ≠ k := by
  intro l
  induction l with
  | nil => intro _ h; cases h
  | cons z zs ih =>
    intro hnd hy
    rw [List.pairwise_cons] at hnd
    rw [mDel] at hy
    by_cases hz : z.1 = k
    · rw [if_pos hz] at hy
      intro he
      exact hnd.1 y hy (by rw [he, hz])
    · rw [if_neg hz] at hy
      rcases List.mem_cons.mp hy with he | he
      · subst he; exact hz
      · exact ih hnd.2 he

theorem length_mDel_mem {k : Nat} {s : Nat} :
    ∀ {l : List (Nat × Nat)}, (k, s) ∈ l → (mDel k l).length + 1 = l.length := by
  intro l
  induction l with
  | nil => intro h; cases h
  | cons z zs ih =>
    intro hm
    rw [mDel]
    by_cases hz : z.1 = k
    · rw [if_pos hz]; rfl
    · rw [if_neg hz]
      rcases List.mem_cons.mp hm with he | he
      · rw [← he] at hz; exact absurd rfl hz
      · simp only [List.length_cons, ih he]

theorem mem_bDel_of_ne {x y : Nat × Nat} :
    ∀ {l : List (Nat × Nat)}, y ∈ l → y ≠ x → y ∈ bDel x l := by
  intro l
  induction l with
  | nil => intro h; cases h
  | cons z zs ih =>
    intro hy hne
    rw [bDel]
    by_cases hz : z = x
    · rw [if_pos hz]
      rcases List.mem_cons.mp hy with he | he
      · subst he; exact absurd hz hne
      · exact he
    · rw [if_neg hz]
      rcases List.mem_cons.mp hy with he | he
      · subst he; exact List.mem_cons_self _ _
      · exact List.mem_cons_of_mem _ (ih he hne)

theorem ne_of_mem_bDel {x y : Nat × Nat} :
    ∀ {l : List (Nat × Nat)}, (l.Pairwise fun a b => a ≠ b) →
      y ∈ bDel x l → y ≠ x := by
  intro l
  induction l with
  | nil => intro _ h; cases h
  | cons z zs ih =>
    intro hnd hy
    rw [List.pairwise_cons] at hnd
    rw [bDel] at hy
    by_cases hz : z = x
    · rw [if_pos hz] at hy
      intro he
      exact hnd.1 y hy (by rw [he, hz])
    · rw [if_neg hz] at hy
      rcases List.mem_cons.mp hy with he | he
      · subst he; exact hz
      · exact ih hnd.2 he

theorem length_bDel_mem {x : Nat × Nat} :
    ∀ {l : List (Nat × Nat)}, x ∈ l → (bDel x l).length + 1 = l.length := by
  intro l
  induction l with
  | nil => intro h; cases h
  | cons z zs ih =>
    intro hm
    rw [bDel]
    by_cases hz : z = x
    · rw [if_pos hz]; rfl
    · rw [if_neg hz]
      rcases List.mem_cons.mp hm with he | he
      · rw [← he] at hz; exact absurd rfl hz
      · simp only [List.length_cons, ih he]

theorem mem_of_mem_mIns {x y : Nat × Nat} :
    ∀ {l : List (Nat × Nat)}, y ∈ mIns x l → y = x ∨ y ∈ l := by
  intro l
  induction l with
  | nil =>
    intro h
    rw [mIns] at h
    rcases List.mem_cons.mp h with he | he
    · exact Or.inl he
    · cases he
  | cons z zs ih =>
    intro hy
    rw [mIns] at hy
    by_cases h1 : x.1 < z.1
    · rw [if_pos h1] at hy
      rcases List.mem_cons.mp hy with he | he
      · exact Or.inl he
      · exact Or.inr he
    · rw [if_neg h1] at hy
      by_cases h2 : x.1 = z.1
      · rw [if_pos h2] at hy
        rcases List.mem_cons.mp hy with he | he
        · exact Or.inl he
        · exact Or.inr (List.mem_cons_of_mem _ he)
      · rw [if_neg h2] at hy
        rcases List.mem_cons.mp hy with he | he
        · subst he; exact Or.inr (List.mem_cons_self _ _)
        · rcases ih he with he2 | he2
          · exact Or.inl he2
          · exact Or.inr (List.mem_cons_of_mem _ he2)

theorem mem_mIns_iff {x y : Nat × Nat} :
    ∀ {l : List (Nat × Nat)}, x.1 ∉ l.map Prod.fst →
      (y ∈ mIns x l ↔ y = x ∨ y ∈ l) := by
  intro l
  induction l with
  | nil =>
    intro _
    rw [mIns]
    simp
  | cons z zs ih =>
    intro habs
    simp only [List.map_cons, List.mem_cons, not_or] at habs
    obtain ⟨hzk, habs2⟩ := habs
    rw [mIns]
    by_cases h1 : x.1 < z.1
    · rw [if_pos h1]
      simp only [List.mem_cons]
    · rw [if_neg h1, if_neg hzk]
      simp only [List.mem_cons, ih habs2]
      tauto

theorem length_mIns {x : Nat × Nat} :
    ∀ {l : List (Nat × Nat)}, x.1 ∉ l.map Prod.fst →
      (mIns x l).length = l.length + 1 := by
  intro l
  induction l with
  | nil => intro _; rfl
  | cons z zs ih =>
    intro habs
    simp only [List.map_cons, List.mem_cons, not_or] at habs
    obtain ⟨hzk, habs2⟩ := habs
    rw [mIns]
    by_cases h1 : x.1 < z.1
    · rw [if_pos h1]; rfl
    · rw [if_neg h1, if_neg hzk]
      simp only [List.length_cons, ih habs2]

theorem mem_of_mem_bIns {x y : Nat × Nat} :
    ∀ {l : List (Nat × Nat)}, y ∈ bIns x l → y = x ∨ y ∈ l := by
  intro l
  induction l with
  | nil =>
    intro h
    rw [bIns] at h
    rcases List.mem_cons.mp h with he | he
    · exact Or.inl he
    · cases he
  | cons z zs ih =>
    intro hy
    rw [bIns] at hy
    by_cases h1 : lexLt x z
    · rw [if_pos h1] at hy
      rcases List.mem_cons.mp hy with he | he
      · exact Or.inl he
      · exact Or.inr he
    · rw [if_neg h1] at hy
      by_cases h2 : x = z
      · rw [if_pos h2] at hy
        rcases List.mem_cons.mp hy with he | he
        · exact Or.inl he
        · exact Or.inr (List.mem_cons_of_mem _ he)
      · rw [if_neg h2] at hy
        rcases List.mem_cons.mp hy with he | he
        · subst he; exact Or.inr (List.mem_cons_self _ _)
        · rcases ih he with he2 | he2
          · exact Or.inl he2
          · exact Or.inr (List.mem_cons_of_mem _ he2)

theorem mem_bIns_iff {x y : Nat × Nat} :
    ∀ {l : List (Nat × Nat)}, x ∉ l → (y ∈ bIns x l ↔ y = x ∨ y ∈ l) := by
  intro l
  induction l with
  | nil =>
    intro _
    rw [bIns]
    simp
  | cons z zs ih =>
    intro habs
    simp only [List.mem_cons, not_or] at habs
    obtain ⟨hzk, habs2⟩ := habs
    rw [bIns]
    by_cases h1 : lexLt x z
    · rw [if_pos h1]
      simp only [List.mem_cons]
    · rw [if_neg h1, if_neg hzk]
      simp only [List.mem_cons, ih habs2]
      tauto

theorem length_bIns {x : Nat × Nat} :
    ∀ {l : List (Nat × Nat)}, x ∉ l → (bIns x l).length = l.length + 1 := by
  intro l
  induction l with
  | nil => intro _; rfl
  | cons z zs ih =>
    intro habs
    simp only [List.mem_cons, not_or] at habs
    obtain ⟨hzk, habs2⟩ := habs
    rw [bIns]
    by_cases h1 : lexLt x z
    · rw [if_pos h1]; rfl
    · rw [if_neg h1, if_neg hzk]
      simp only [List.length_cons, ih habs2]

/-- Inserting a record that touches or overlaps no existing record keeps
the contents separated. -/
theorem NoTouch_mIns {x : Nat × Nat} :
    ∀ {l : List (Nat × Nat)}, NoTouch l →
      (∀ z ∈ l, z.1 + z.2 < x.1 ∨ x.1 + x.2 < z.1) → NoTouch (mIns x l) := by
  intro l
  induction l with
  | nil =>
    intro _ _
    rw [mIns]
    exact List.pairwise_singleton _ _
  | cons y ys ih =>
    intro hnt hfit
    rw [NoTouch, List.pairwise_cons] at hnt
    obtain ⟨hy, hys⟩ := hnt
    have hfy := hfit y (List.mem_cons_self _ _)
    rw [mIns]
    by_cases h1 : x.1 < y.1
    · rw [if_pos h1]
      rw [NoTouch, List.pairwise_cons]
      refine ⟨?_, List.pairwise_cons.mpr ⟨hy, hys⟩⟩
      intro z hz
      rcases List.mem_cons.mp hz with he | he
      · subst he
        rcases hfy with hc | hc
        · omega
        · exact hc
      · have hyz := hy z he
        rcases hfit z (List.mem_cons_of_mem _ he) with hc | hc
        · omega
        · exact hc
    · have h2 : x.1 ≠ y.1 := by
        rcases hfy with hc | hc <;> omega
      rw [if_neg h1, if_neg h2]
      rw [NoTouch, List.pairwise_cons]
      constructor
      · intro z hz
        rcases mem_of_mem_mIns hz with he | he
        · subst he
          rcases hfy with hc | hc
          · exact hc
          · omega
        · exact hy z he
      · exact ih hys fun z hz => hfit z (List.mem_cons_of_mem _ hz)

/-- Inserting a fresh record keeps the best-fit contents strictly
lexicographically sorted. -/
theorem BFSorted_bIns {x : Nat × Nat} :
    ∀ {l : List (Nat × Nat)}, BFSorted l → x ∉ l → BFSorted (bIns x l) := by
  intro l
  induction l with
  | nil =>
    intro _ _
    rw [bIns]
    exact List.pairwise_singleton _ _
  | cons y ys ih =>
    intro hs habs
    simp only [List.mem_cons, not_or] at habs
    obtain ⟨hxy, habs2⟩ := habs
    rw [BFSorted, List.pairwise_cons] at hs
    obtain ⟨hy, hys⟩ := hs
    rw [bIns]
    by_cases h1 : lexLt x y
    · rw [if_pos h1]
      rw [BFSorted, List.pairwise_cons]
      have hxyr := lexLt_iff.mp h1
      refine ⟨?_, List.pairwise_cons.mpr ⟨hy, hys⟩⟩
      intro z hz
      rcases List.mem_cons.mp hz with he | he
      · subst he; exact hxyr
      · have hyz := hy z he
        rcases hxyr with hc | hc <;> rcases hyz with hd | hd <;> omega
    · rw [if_neg h1, if_neg hxy]
      rw [BFSorted, List.pairwise_cons]
      constructor
      · intro z hz
        rcases mem_of_mem_bIns hz with he | he
        · rw [he]
          have h1r : ¬ (x.1 < y.1 ∨ (x.1 = y.1 ∧ x.2 < y.2)) := fun hc =>
            h1 (lexLt_iff.mpr hc)
          have hne : x ≠ y := hxy
          rcases Nat.lt_trichotomy x.1 y.1 with hc | hc | hc
          · omega
          · rcases Nat.lt_trichotomy x.2 y.2 with hd | hd | hd
            · omega
            · exact absurd (Prod.ext hc hd) hne
            · exact Or.inr ⟨hc.symm, hd⟩
          · exact Or.inl hc
        · exact hy z he
      · exact ih hys habs2

theorem succOf_mem {k : Nat} {l : List (Nat × Nat)} {e : Nat × Nat}
    (h : succOf k l = some e) : e ∈ l :=
  List.mem_of_find?_eq_some h

theorem succOf_gt {k : Nat} {l : List (Nat × Nat)} {e : Nat × Nat}
    (h : succOf k l = some e) : k < e.1 := by
  have := List.find?_some h
  simpa using this

theorem succOf_none {k : Nat} {l : List (Nat × Nat)}
    (h : succOf k l = none) : ∀ z ∈ l, ¬ k < z.1 := by
  intro z hz
  have := List.find?_eq_none.mp h z hz
  simpa using this

/-- On separated contents the cursor's successor is the least record
beyond the key. -/
theorem succOf_min {k : Nat} {e : Nat × Nat} :
    ∀ {l : List (Nat × Nat)}, NoTouch l → succOf k l = some e →
      ∀ z ∈ l, k < z.1 → e.1 ≤ z.1 := by
  intro l
  induction l with
  | nil => intro _ h; cases h
  | cons y ys ih =>
    intro hnt hf z hz hkz
    rw [NoTouch, List.pairwise_cons] at hnt
    obtain ⟨hy, hys⟩ := hnt
    by_cases h1 : k < y.1
    · rw [succOf, List.find?_cons_of_pos _ (by simpa using h1)] at hf
      injection hf with hf
      subst hf
      rcases List.mem_cons.mp hz with he | he
      · subst he; exact Nat.le_refl _
      · have := hy z he; omega
    · rw [succOf, List.find?_cons_of_neg _ (by simpa using h1)] at hf
      rcases List.mem_cons.mp hz with he | he
      · subst he; exact absurd hkz h1
      · exact ih hys (by rw [succOf]; exact hf) z he hkz

theorem predOf_mem {k : Nat} {l : List (Nat × Nat)} {pr : Nat × Nat}
    (h : predOf k l = some pr) : pr ∈ l := by
  rw [predOf] at h
  rw [List.getLast?_eq_getElem?] at h
  exact List.mem_of_mem_filter (List.getElem?_mem h)

theorem predOf_lt {k : Nat} {l : List (Nat × Nat)} {pr : Nat × Nat}
    (h : predOf k l = some pr) : pr.1 < k := by
  rw [predOf] at h
  rw [List.getLast?_eq_getElem?] at h
  have := List.of_mem_filter (List.getElem?_mem h)
  simpa using this

theorem predOf_none {k : Nat} {l : List (Nat × Nat)}
    (h : predOf k l = none) : ∀ z ∈ l, ¬ z.1 < k := by
  rw [predOf, List.getLast?_eq_none_iff] at h
  intro z hz hlt
  have : z ∈ l.filter fun y => decide (y.1 < k) :=
    List.mem_filter.mpr ⟨hz, by simpa using hlt⟩
  rw [h] at this
  cases this

/-- The last record of separated contents has the largest address. -/
theorem getLast?_max :
    ∀ {l : List (Nat × Nat)}, NoTouch l → ∀ {pr : Nat × Nat},
      l.getLast? = some pr → ∀ z ∈ l, z.1 ≤ pr.1 := by
  intro l
  induction l with
  | nil => intro _ pr h; cases h
  | cons y ys ih =>
    intro hnt pr hl z hz
    rw [NoTouch, List.pairwise_cons] at hnt
    obtain ⟨hy, hys⟩ := hnt
    cases ys with
    | nil =>
      simp only [List.getLast?_singleton] at hl
      injection hl with hl
      rcases List.mem_cons.mp hz with he | he
      · rw [he, hl]
      · cases he
    | cons w ws =>
      rw [List.getLast?_cons_cons] at hl
      have hpr : pr ∈ w :: ws := by
        rw [List.getLast?_eq_getElem?] at hl
        exact List.getElem?_mem hl
      rcases List.mem_cons.mp hz with he | he
      · subst he
        have := hy pr hpr
        omega
      · exact ih hys hl z he

/-- On separated contents the cursor's predecessor is the greatest record
before the key. -/
theorem predOf_max {k : Nat} {l : List (Nat × Nat)} {pr : Nat × Nat}
    (hnt : NoTouch l) (h : predOf k l = some pr) :
    ∀ z ∈ l, z.1 < k → z.1 ≤ pr.1 := by
  intro z hz hlt
  rw [predOf] at h
  have hzf : z ∈ l.filter fun y => decide (y.1 < k) :=
    List.mem_filter.mpr ⟨hz, by simpa using hlt⟩
  exact getLast?_max (List.Pairwise.filter _ hnt) h z hzf

theorem predOf_ne_none {k : Nat} {l : List (Nat × Nat)} {z : Nat × Nat}
    (hz : z ∈ l) (hlt : z.1 < k) : predOf k l ≠ none := by
  intro h
  exact predOf_none h z hz hlt

/-- Removing one record from both trees preserves the duality
invariant. -/
theorem Dual_delRec {st : VMAState} {p s : Nat} (hd : Dual st)
    (hm : (p, s) ∈ st.merge) : Dual (delRec p s st) := by
  obtain ⟨hlen, hmir, hnt, hbs⟩ := hd
  have hbf : (s, p) ∈ st.bestFit := (hmir p s).mp hm
  have hndk := mgNodupKeys hnt
  have hndb := bfNodup hbs
  refine ⟨?_, ?_, ?_, ?_⟩
  · show (bDel (s, p) st.bestFit).length = (mDel p st.merge).length
    have h1 := length_bDel_mem hbf
    have h2 := length_mDel_mem hm
    omega
  · intro q t
    show (q, t) ∈ mDel p st.merge ↔ (t, q) ∈ bDel (s, p) st.bestFit
    constructor
    · intro hq
      have hq1 : (q, t) ∈ st.merge := (mDel_sublist p st.merge).mem hq
      have hq2 : q ≠ p := key_ne_of_mem_mDel hndk hq
      refine mem_bDel_of_ne ((hmir q t).mp hq1) ?_
      intro he
      injection he with he1 he2
      exact hq2 he2
    · intro hq
      have hq1 : (t, q) ∈ st.bestFit := (bDel_sublist (s, p) st.bestFit).mem hq
      have hq2 : (t, q) ≠ (s, p) := ne_of_mem_bDel hndb hq
      have hq3 : (q, t) ∈ st.merge := (hmir q t).mpr hq1
      refine mem_mDel_of_ne hq3 ?_
      intro he
      have he2 : q = p := he
      apply hq2
      have h3 : t = s := mg_key_inj hnt (he2 ▸ hq3) hm
      rw [h3, he2]
  · exact List.Pairwise.sublist (mDel_sublist p st.merge) hnt
  · exact List.Pairwise.sublist (bDel_sublist (s, p) st.bestFit) hbs

/-- Inserting one separated record into both trees preserves the duality
invariant. -/
theorem Dual_insRec {st : VMAState} {p s : Nat} (hd : Dual st)
    (hfit : ∀ z ∈ st.merge, z.1 + z.2 < p ∨ p + s < z.1) :
    Dual (insRec p s st) := by
  obtain ⟨hlen, hmir, hnt, hbs⟩ := hd
  have habs : p ∉ st.merge.map Prod.fst := by
    intro hmem
    obtain ⟨z, hz, hze⟩ := List.mem_map.mp hmem
    rcases hfit z hz with hc | hc <;> omega
  have habsb : (s, p) ∉ st.bestFit := by
    intro hmem
    have : (p, s) ∈ st.merge := (hmir p s).mpr hmem
    rcases hfit _ this with hc | hc <;> simp at hc
  refine ⟨?_, ?_, ?_, ?_⟩
  · show (bIns (s, p) st.bestFit).length = (mIns (p, s) st.merge).length
    rw [length_bIns habsb, length_mIns habs, hlen]
  · intro q t
    show (q, t) ∈ mIns (p, s) st.merge ↔ (t, q) ∈ bIns (s, p) st.bestFit
    rw [mem_mIns_iff habs, mem_bIns_iff habsb]
    constructor
    · intro hq
      rcases hq with he | he
      · injection he with h1 h2; subst h1; subst h2; exact Or.inl rfl
      · exact Or.inr ((hmir q t).mp he)
    · intro hq
      rcases hq with he | he
      · injection he with h1 h2; subst h1; subst h2; exact Or.inl rfl
      · exact Or.inr ((hmir q t).mpr he)
  · exact NoTouch_mIns hnt hfit
  · exact BFSorted_bIns hbs habsb

/-- `alloc` preserves the duality invariant whenever it completes: the
picked record leaves both trees and the tail remainder (if any) enters
both trees, strictly inside the picked record's footprint. -/
theorem alloc_dual {st : VMAState} {sz : Nat} {st' : VMAState} {p s : Nat}
    (hd : Dual st) (h : alloc st sz = some (st', p, s)) : Dual st' := by
  obtain ⟨hlen, hmir, hnt, hbs⟩ := hd
  simp only [alloc] at h
  split at h
  · cases h
  · split at h
    · cases h
    · rename_i e hfind
      split at h
      · cases h
      · rename_i a hchosen
        have hamem : a ∈ st.bestFit := by
          split at hchosen
          · injection hchosen with he; subst he
            exact List.mem_of_find?_eq_some hfind
          · split at hchosen
            · cases hchosen
            · rename_i e2 hfind2
              split at hchosen
              · injection hchosen with he; subst he
                exact List.mem_of_find?_eq_some hfind2
              · cases hchosen
        have hrec : (a.2, a.1) ∈ st.merge := (hmir a.2 a.1).mpr hamem
        have hd1 : Dual (delRec a.2 a.1 st) :=
          Dual_delRec ⟨hlen, hmir, hnt, hbs⟩ hrec
        split at h
        · rename_i halt
          split at h
          · cases h
          · split at h
            · cases h
            · injection h with h1
              injection h1 with h1 h2
              subst h1
              refine Dual_insRec hd1 ?_
              intro z hz
              have hz1 : z ∈ st.merge :=
                List.Sublist.mem hz (mDel_sublist a.2 st.merge)
              have hz2 : z.1 ≠ a.2 := key_ne_of_mem_mDel (mgNodupKeys hnt) hz
              rcases pairwise_mem_rel hnt hz1 hrec with he | he | he
              · exfalso; apply hz2; rw [he]
              · exact Or.inl (by simp only [] at he ⊢; omega)
              · exact Or.inr (by simp only [] at he ⊢; omega)
        · split at h
          · injection h with h1
            injection h1 with h1 h2
            subst h1
            exact hd1
          · cases h

/-- If the predecessor of `k` does not end at `k`, no record before `k`
touches it. -/
theorem left_sep {l : List (Nat × Nat)} (hnt : NoTouch l) {k : Nat}
    (hp : ∀ pr, predOf k l = some pr → pr.1 + pr.2 ≠ k) :
    ∀ z ∈ l, z.1 < k → z.1 + z.2 ≠ k := by
  intro z hz hlt he
  cases hpr : predOf k l with
  | none => exact predOf_none hpr z hz hlt
  | some pr =>
    have hmax := predOf_max hnt hpr z hz hlt
    have hprm := predOf_mem hpr
    rcases pairwise_mem_rel hnt hz hprm with heq | hrel | hrel
    · exact hp pr hpr (by rw [← heq]; exact he)
    · have := predOf_lt hpr; omega
    · omega

/-- If the successor of `k` does not start at `m` and every record clears
the range `[k, m)`, no record after `k` starts at `m`. -/
theorem right_sep {l : List (Nat × Nat)} (hnt : NoTouch l) {k m : Nat}
    (hd : ∀ z ∈ l, z.1 + z.2 ≤ k ∨ m ≤ z.1)
    (hs : ∀ e, succOf k l = some e → e.1 ≠ m) :
    ∀ z ∈ l, k < z.1 → z.1 ≠ m := by
  intro z hz hgt he
  cases hsu : succOf k l with
  | none => exact succOf_none hsu z hz hgt
  | some e =>
    have hmin := succOf_min hnt hsu z hz hgt
    have hem := succOf_mem hsu
    have hegt := succOf_gt hsu
    rcases hd e hem with hc | hc
    · omega
    · have := hs e hsu; omega

/-- `free` preserves the duality invariant whenever it completes, for a
freed range that overlaps no stored record (touching is allowed and gets
coalesced): every deleted neighbor leaves both trees and the combined
record enters both trees, separated from everything that remains. -/
theorem free_dual {st : VMAState} {p0 s0 : Nat} {st' : VMAState}
    (hd : Dual st)
    (hdisj : ∀ z ∈ st.merge, z.1 + z.2 ≤ p0 ∨ p0 + s0 ≤ z.1)
    (h : free st p0 s0 = some st') : Dual st' := by
  obtain ⟨hlen, hmir, hnt, hbs⟩ := hd
  have hD : Dual st := ⟨hlen, hmir, hnt, hbs⟩
  simp only [free] at h
  split at h
  · cases h
  · split at h
    · cases h
    · rename_i hnp
      have habs : ∀ z ∈ st.merge, z.1 ≠ p0 := by
        intro z hz he
        apply hnp
        rw [List.find?_isSome]
        exact ⟨z, hz, by simp [he]⟩
      split at h
      · rename_i e hsucc
        have emem : e ∈ st.merge := succOf_mem hsucc
        have egt : p0 < e.1 := succOf_gt hsucc
        split at h
        · rename_i hre
          split at h
          · cases h
          · split at h
            · cases h
            · rename_i hne1
              have emem2 : (e.1, e.2) ∈ st.merge := emem
              have hd1 : Dual (delRec e.1 e.2 st) := Dual_delRec hD emem2
              have hnt1 : NoTouch (delRec e.1 e.2 st).merge := hd1.2.2.1
              split at h
              · rename_i pr hpred
                have prmem1 : pr ∈ (delRec e.1 e.2 st).merge := predOf_mem hpred
                have prmem : pr ∈ st.merge :=
                  List.Sublist.mem prmem1 (mDel_sublist e.1 st.merge)
                have prlt : pr.1 < p0 := predOf_lt hpred
                split at h
                · rename_i hle
                  split at h
                  · cases h
                  · injection h with h1
                    subst h1
                    have prmem2 : (pr.1, pr.2) ∈ (delRec e.1 e.2 st).merge :=
                      prmem1
                    refine Dual_insRec (Dual_delRec hd1 prmem2) ?_
                    intro z hz
                    have hz1 : z ∈ (delRec e.1 e.2 st).merge :=
                      List.Sublist.mem hz (mDel_sublist pr.1 _)
                    have hz0 : z ∈ st.merge :=
                      List.Sublist.mem hz1 (mDel_sublist e.1 st.merge)
                    have hzpr : z.1 ≠ pr.1 :=
                      key_ne_of_mem_mDel (mgNodupKeys hnt1) hz
                    have hze : z.1 ≠ e.1 :=
                      key_ne_of_mem_mDel (mgNodupKeys hnt) hz1
                    rcases pairwise_mem_rel hnt hz0 prmem with heq | hrel | hrel
                    · exact absurd (congrArg Prod.fst heq) hzpr
                    · exact Or.inl (by omega)
                    · rcases hdisj z hz0 with hc | hc
                      · omega
                      · rcases pairwise_mem_rel hnt hz0 emem with
                          heq2 | hrel2 | hrel2
                        · exact absurd (congrArg Prod.fst heq2) hze
                        · omega
                        · exact Or.inr (by omega)
                · rename_i hnle
                  injection h with h1
                  subst h1
                  refine Dual_insRec hd1 ?_
                  intro z hz
                  have hz0 : z ∈ st.merge :=
                    List.Sublist.mem hz (mDel_sublist e.1 st.merge)
                  have hze : z.1 ≠ e.1 :=
                    key_ne_of_mem_mDel (mgNodupKeys hnt) hz
                  rcases hdisj z hz0 with hc | hc
                  · refine Or.inl ?_
                    have hzlt : z.1 < p0 := by
                      have := habs z hz0; omega
                    have hne : z.1 + z.2 ≠ p0 := by
                      refine left_sep hnt1 ?_ z hz hzlt
                      intro pr2 hpr2 he2
                      rw [hpred] at hpr2
                      injection hpr2 with hpr2
                      subst hpr2
                      exact hnle he2
                    omega
                  · rcases pairwise_mem_rel hnt hz0 emem with
                      heq2 | hrel2 | hrel2
                    · exact absurd (congrArg Prod.fst heq2) hze
                    · omega
                    · exact Or.inr (by omega)
              · rename_i hpred
                injection h with h1
                subst h1
                refine Dual_insRec hd1 ?_
                intro z hz
                have hz0 : z ∈ st.merge :=
                  List.Sublist.mem hz (mDel_sublist e.1 st.merge)
                have hze : z.1 ≠ e.1 :=
                  key_ne_of_mem_mDel (mgNodupKeys hnt) hz
                rcases hdisj z hz0 with hc | hc
                · have hzlt : z.1 < p0 := by
                    have := habs z hz0; omega
                  exact absurd hpred (predOf_ne_none hz hzlt)
                · rcases pairwise_mem_rel hnt hz0 emem with
                    heq2 | hrel2 | hrel2
                  · exact absurd (congrArg Prod.fst heq2) hze
                  · omega
                  · exact Or.inr (by omega)
        · rename_i hnre
          have hsfun : ∀ e2, succOf p0 st.merge = some e2 → e2.1 ≠ p0 + s0 := by
            intro e2 he2
            rw [hsucc] at he2
            injection he2 with he2
            subst he2
            exact fun hx => hnre hx.symm
          split at h
          · rename_i pr hpred
            have prmem : pr ∈ st.merge := predOf_mem hpred
            have prlt : pr.1 < p0 := predOf_lt hpred
            split at h
            · rename_i hle
              split at h
              · cases h
              · injection h with h1
                subst h1
                have prmem2 : (pr.1, pr.2) ∈ st.merge := prmem
                refine Dual_insRec (Dual_delRec hD prmem2) ?_
                intro z hz
                have hz0 : z ∈ st.merge :=
                  List.Sublist.mem hz (mDel_sublist pr.1 _)
                have hzpr : z.1 ≠ pr.1 :=
                  key_ne_of_mem_mDel (mgNodupKeys hnt) hz
                rcases pairwise_mem_rel hnt hz0 prmem with heq | hrel | hrel
                · exact absurd (congrArg Prod.fst heq) hzpr
                · exact Or.inl (by omega)
                · rcases hdisj z hz0 with hc | hc
                  · omega
                  · have hzs := right_sep hnt hdisj hsfun z hz0 (by omega)
                    exact Or.inr (by omega)
            · rename_i hnle
              injection h with h1
              subst h1
              refine Dual_insRec hD ?_
              intro z hz
              rcases hdisj z hz with hc | hc
              · refine Or.inl ?_
                have hzlt : z.1 < p0 := by
                  have := habs z hz; omega
                have hns := left_sep hnt (fun pr2 hpr2 => by
                  rw [hpred] at hpr2
                  injection hpr2 with hx
                  subst hx
                  exact hnle) z hz hzlt
                omega
              · have hzgt : p0 < z.1 := by
                  have := habs z hz; omega
                have hzs := right_sep hnt hdisj hsfun z hz hzgt
                exact Or.inr (by omega)
          · rename_i hpred
            injection h with h1
            subst h1
            refine Dual_insRec hD ?_
            intro z hz
            rcases hdisj z hz with hc | hc
            · have hzlt : z.1 < p0 := by
                have := habs z hz; omega
              exact absurd hpred (predOf_ne_none hz hzlt)
            · have hzgt : p0 < z.1 := by
                have := habs z hz; omega
              have hzs := right_sep hnt hdisj hsfun z hz hzgt
              exact Or.inr (by omega)
      · rename_i hsucc
        have hnogt : ∀ z ∈ st.merge, ¬ p0 < z.1 := succOf_none hsucc
        split at h
        · rename_i pr hpred
          have prmem : pr ∈ st.merge := predOf_mem hpred
          have prlt : pr.1 < p0 := predOf_lt hpred
          split at h
          · rename_i hle
            split at h
            · cases h
            · split at h
              · cases h
              · rename_i hne1
                have prmem2 : (pr.1, pr.2) ∈ st.merge := prmem
                have hd1 : Dual (delRec pr.1 pr.2 st) := Dual_delRec hD prmem2
                split at h
                · rename_i e2 he2
                  exfalso
                  have e2mem1 : e2 ∈ (delRec pr.1 pr.2 st).merge :=
                    succOf_mem he2
                  have e2mem : e2 ∈ st.merge :=
                    List.Sublist.mem e2mem1 (mDel_sublist pr.1 _)
                  have e2gt : pr.1 < e2.1 := succOf_gt he2
                  have hb1 : ¬ p0 < e2.1 := hnogt e2 e2mem
                  have hb2 : e2.1 ≠ p0 := habs e2 e2mem
                  have hb3 : e2.1 < p0 := by omega
                  have hb4 := predOf_max hnt hpred e2 e2mem hb3
                  omega
                · injection h with h1
                  subst h1
                  refine Dual_insRec hd1 ?_
                  intro z hz
                  have hz0 : z ∈ st.merge :=
                    List.Sublist.mem hz (mDel_sublist pr.1 _)
                  have hzpr : z.1 ≠ pr.1 :=
                    key_ne_of_mem_mDel (mgNodupKeys hnt) hz
                  refine Or.inl ?_
                  have hzlt : z.1 < p0 := by
                    have := hnogt z hz0; have := habs z hz0; omega
                  have hmax := predOf_max hnt hpred z hz0 hzlt
                  rcases pairwise_mem_rel hnt hz0 prmem with heq | hrel | hrel
                  · exact absurd (congrArg Prod.fst heq) hzpr
                  · omega
                  · omega
          · rename_i hnle
            injection h with h1
            subst h1
            refine Dual_insRec hD ?_
            intro z hz
            refine Or.inl ?_
            have hzlt : z.1 < p0 := by
              have := hnogt z hz; have := habs z hz; omega
            have hns := left_sep hnt (fun pr2 hpr2 => by
              rw [hpred] at hpr2
              injection hpr2 with hx
              subst hx
              exact hnle) z hz hzlt
            rcases hdisj z hz with hc | hc
            · omega
            · omega
        · cases h

end VMA

/-- C4. VMA duality invariant: after every completed `alloc` and every
completed `free` of a range that overlaps no stored record, the best-fit
tree and the merge tree hold exactly the same records (in particular the
same number of records), and no two records overlap or touch.  Modelled
from the spec: the `get_entry`/`prev`/`next` cursor the VMA drives is not
in the source tree, so both trees are taken as their ordered record lists
with the spec's "would be inserted before" cursor semantics. -/
theorem C4_vma_duality (st st' : VMA.VMAState) (hd : VMA.Dual st)
    (hop : (∃ sz p s, VMA.alloc st sz = some (st', p, s)) ∨
      (∃ p s, (∀ z ∈ st.merge, z.1 + z.2 ≤ p ∨ p + s ≤ z.1) ∧
        VMA.free st p s = some st')) :
    VMA.Dual st' := by
  rcases hop with ⟨sz, p, s, h⟩ | ⟨p, s, hdisj, h⟩
  · exact VMA.alloc_dual hd h
  · exact VMA.free_dual hd hdisj h

theorem C4_vma_duality_witness :
    VMA.Dual ⟨[(0xc00000, 0x400000)], [(0x400000, 0xc00000)]⟩ := by
  have hd : VMA.Dual ⟨[(0xe00000, 0x200000)], [(0x200000, 0xe00000)]⟩ := by
    refine ⟨rfl, ?_, ?_, ?_⟩
    · intro p s
      constructor
      · intro hm
        simp only [List.mem_singleton] at hm ⊢
        injection hm with h1 h2
        subst h1
        subst h2
        rfl
      · intro hm
        simp only [List.mem_singleton] at hm ⊢
        injection hm with h1 h2
        subst h1
        subst h2
        rfl
    · exact List.pairwise_singleton _ _
    · exact List.pairwise_singleton _ _
  exact C4_vma_duality _ _ hd (Or.inl ⟨0x200000, 0x200000, 0x200000, by rfl⟩)

/-- C10 counterexample: a valid-shape tree of 21 uniform levels — deeper
than the claimed 20-level limit — on which both descents pass every
stack-capacity check, for a fresh key on the insert side and key 0 on the
remove side, so neither operation panics there. -/
theorem C10_counterexample :
    BNode.Bal 21 (BNode.mkT 21 0).1 ∧ 20 < 21 ∧
    BNode.insertStackCheck (BNode.mkT 21 0).1 (BNode.mkT 21 0).2 = .ok () ∧
    BNode.removeStackCheck (BNode.mkT 21 0).1 0 = .ok () := by
  have hb : BNode.Bal 21 (BNode.mkT 21 0).1 := BNode.mkT_bal 20 0
  obtain ⟨h1, -⟩ := BNode.stackChecks_ok_of_bal (BNode.mkT 21 0).2 hb (by omega)
  obtain ⟨-, h4⟩ := BNode.stackChecks_ok_of_bal (0 : Nat) hb (by omega)
  exact ⟨hb, by omega, h1, h4⟩

end MxOS
